import Mathlib

/-! Vision Workbench: block rasterization.

A shallow embedding of `vw/Image/ImageViewBase.h` (the default `vw::rasterize`),
`vw/Image/BlockRasterize.h` (`BlockRasterizeView`), `FillNoDataWithAvg` of
`vw/Image/InpaintView.h`, the log rules of `vw/Core/Log.cc` and
`TMSQuadTreeConfig::image_path` of `vw/Mosaic/TMSQuadTreeConfig.cc`, with models
of the cache and of `ThreadQueue` as one thread sees them.

Conventions of the embedding.

* `int32` values are mathematical integers (`Int`).  Division is the C++ one,
  truncating toward zero (`Int.tdiv`), and a zero divisor is reported as
  `Err.DivideByZero`.  The two products of three extents in the source, the byte
  size of a row in `initialize` and the pixel count in `BlockGenerator::size`,
  are reduced to the `int32` range by `wrap32`, and so is the tile position of
  `TMSQuadTreeConfig::image_path`.  The size of the block table, the product
  of the two table extents, is reduced to `int32` likewise and then converted to
  `size_t` (`wrapSize`); a table size that cannot be allocated is reported as
  `Err.BadAlloc`, and an assignment past the end of the table as
  `Err.MemoryFault`.  The other sums and products (`(cols-1)/bw + 1`, `ix*bw`,
  `ix + iy*table_width`) are those of the integers: they are bounded by the image
  extents and by the number of slots of the table.
* A loop `for( k = n; k; --k )` is a recursion over its number of iterations
  (`tripCount`), a loop `for( i = 0; i < n; ++i )` one over `n` (`forUp`).
* A view is its three extents and its pixel function.  An `ImageView` buffer is a
  view whose pixel function is its memory.
* Code that writes pixels passes the destination memory along explicitly
  (`Dest`), together with the log of the pixel stores made so far.
* Code that throws returns `Except Err`; code that writes and throws returns
  the outcome and the memory.
* `vw/Math/BBox.h`, `vw/Core/Cache.h`, `vw/Core/ThreadQueue.h`,
  `vw/Image/BlockProcessor.h`, `vw/Image/PixelAccessors.h`,
  `vw/Image/ImageView.h` and `vw/Image/Manipulation.h` are not among the
  sources; what the embedded code uses of them is modelled from the spec and
  marked so.  A cache handle yields what its generator generates: generation is
  a function of the child and the box, so a stored value and a fresh one agree.
  The bookkeeping of the cache (pin counts, resident size, eviction) is modelled
  apart, in `CacheStore`.
* The pixel operations of a masked pixel type (`vw/Image/PixelMask.h`, not among
  the sources) are parameters (`PixelOps`).
-/

namespace vw

/-! ## Basic types -/

/-- Exceptions of `vw/Core/Exception.h` raised by the embedded code, the
`std::bad_alloc` of `operator new[]`, and the two faults: an integer division by
zero and an access outside an allocated array. -/
inductive Err where
  | ArgumentErr
  | LogicErr
  | NullPtrErr
  | DivideByZero
  | BadAlloc
  | MemoryFault
  deriving DecidableEq, Repr

/-- Reduction of an integer to the two's complement `int32` range. -/
def wrap32 (n : Int) : Int := (n + 2147483648) % 4294967296 - 2147483648

/-- C++ integer division `a / b`: truncation toward zero, a fault on `b = 0`. -/
def idiv (a b : Int) : Except Err Int :=
  if b = 0 then .error .DivideByZero else .ok (Int.tdiv a b)

/-- Embeds `Vector2i`: a pair of `int32`. -/
structure Vector2i where
  x : Int
  y : Int
  deriving DecidableEq, Repr

/-- Modelled from the spec: `BBox2i` (vw/Math/BBox.h is not among the sources),
the half-open integer rectangle `{min, max}`. -/
structure BBox2i where
  min : Vector2i
  max : Vector2i
  deriving DecidableEq, Repr

namespace BBox2i

/-- Embeds `BBox2i(minx, miny, width, height)`. -/
def ofSize (minx miny width height : Int) : BBox2i :=
  ⟨⟨minx, miny⟩, ⟨minx + width, miny + height⟩⟩

def width (b : BBox2i) : Int := b.max.x - b.min.x

def height (b : BBox2i) : Int := b.max.y - b.min.y

/-- Embeds `b.crop(bbox)`: the intersection, each bound clamped to `bbox`. -/
def crop (b bbox : BBox2i) : BBox2i :=
  ⟨⟨if b.min.x < bbox.min.x then bbox.min.x else b.min.x,
    if b.min.y < bbox.min.y then bbox.min.y else b.min.y⟩,
   ⟨if b.max.x > bbox.max.x then bbox.max.x else b.max.x,
    if b.max.y > bbox.max.y then bbox.max.y else b.max.y⟩⟩

/-- Embeds `b.contains(Vector2i(x, y))`: the half-open membership test. -/
def contains (b : BBox2i) (x y : Int) : Prop :=
  b.min.x ≤ x ∧ x < b.max.x ∧ b.min.y ≤ y ∧ y < b.max.y

instance (b : BBox2i) (x y : Int) : Decidable (b.contains x y) := by
  unfold contains; infer_instance

/-- Embeds `b.empty()`: some side has no extent. -/
def empty (b : BBox2i) : Prop := b.min.x ≥ b.max.x ∨ b.min.y ≥ b.max.y

instance (b : BBox2i) : Decidable b.empty := by
  unfold empty; infer_instance

/-- Embeds `bbox - v`: translation by `-v`. -/
def sub (b : BBox2i) (v : Vector2i) : BBox2i :=
  ⟨⟨b.min.x - v.x, b.min.y - v.y⟩, ⟨b.max.x - v.x, b.max.y - v.y⟩⟩

/-- One box lies inside another (bounds compared componentwise). -/
def inside (b outer : BBox2i) : Prop :=
  outer.min.x ≤ b.min.x ∧ b.max.x ≤ outer.max.x ∧
  outer.min.y ≤ b.min.y ∧ b.max.y ≤ outer.max.y

instance (b outer : BBox2i) : Decidable (b.inside outer) := by
  unfold inside; infer_instance

end BBox2i

/-- An image view (`ImageT`, or an `ImageView<PixelT>` buffer): the extents
`cols()`, `rows()`, `planes()` and the pixel function `operator()(x, y, p)`. -/
structure View (α : Type) where
  cols : Int
  rows : Int
  planes : Int
  pix : Int → Int → Int → α

/-- Embeds `BBox2i(0, 0, cols(), rows())`, the bounds of a view. -/
def View.bounds {α : Type} (v : View α) : BBox2i := BBox2i.ofSize 0 0 v.cols v.rows

/-- A coordinate inside the extents of a view. -/
def View.inBounds {α : Type} (v : View α) (x y p : Int) : Prop :=
  0 ≤ x ∧ x < v.cols ∧ 0 ≤ y ∧ y < v.rows ∧ 0 ≤ p ∧ p < v.planes

instance {α : Type} (v : View α) (x y p : Int) : Decidable (v.inBounds x y p) := by
  unfold View.inBounds; infer_instance

/-- Embeds `ImageView<PixelT>(cols, rows, planes)`: a freshly allocated buffer, every
pixel value-initialised. -/
def ImageView.alloc {α : Type} [Inhabited α] (cols rows planes : Int) : View α :=
  ⟨cols, rows, planes, fun _ _ _ => default⟩

/-- Modelled from the spec: the pixel accessors of vw/Image/PixelAccessors.h
(not among the sources), a position `(col, row, plane)` in a view that steps
by one column, row or plane. -/
structure PixelAccessor where
  col : Int
  row : Int
  plane : Int
  deriving DecidableEq, Repr

namespace PixelAccessor

def next_col (a : PixelAccessor) : PixelAccessor := { a with col := a.col + 1 }

def next_row (a : PixelAccessor) : PixelAccessor := { a with row := a.row + 1 }

def next_plane (a : PixelAccessor) : PixelAccessor := { a with plane := a.plane + 1 }

def advance (a : PixelAccessor) (dx dy : Int) : PixelAccessor :=
  { a with col := a.col + dx, row := a.row + dy }

end PixelAccessor

/-- Embeds `src.origin()`. -/
def View.origin {α : Type} (_v : View α) : PixelAccessor := ⟨0, 0, 0⟩

/-- Embeds `*acc` on a source accessor. -/
def View.deref {α : Type} (v : View α) (a : PixelAccessor) : α := v.pix a.col a.row a.plane

/-- The destination memory: the buffer being written and the log of the pixel
stores made into it, oldest first. -/
structure Dest (β : Type) where
  img : View β
  stores : List (Int × Int × Int)

/-- Embeds `*dcol = value`: one pixel store through a destination accessor. -/
def Dest.store {β : Type} (m : Dest β) (a : PixelAccessor) (value : β) : Dest β :=
  { img := { m.img with
      pix := fun c r p => if c = a.col ∧ r = a.row ∧ p = a.plane then value else m.img.pix c r p },
    stores := m.stores ++ [(a.col, a.row, a.plane)] }

/-- A writable destination view `DestT` over the destination memory: the
buffer itself (`ci = cj = 0`) or a `CropView` of it with offset `(ci, cj)`. -/
structure DestView where
  ci : Int
  cj : Int
  cols : Int
  rows : Int
  planes : Int
  deriving DecidableEq, Repr

/-- The destination view that is the whole buffer. -/
def DestView.whole {β : Type} (img : View β) : DestView := ⟨0, 0, img.cols, img.rows, img.planes⟩

/-- Embeds `crop(dest, bbox)`: `CropView(dest, bbox.min().x(), bbox.min().y(),
bbox.width(), bbox.height())`. -/
def DestView.crop (d : DestView) (bbox : BBox2i) : DestView :=
  ⟨d.ci + bbox.min.x, d.cj + bbox.min.y, bbox.width, bbox.height, d.planes⟩

/-- Embeds `dest.origin()`: the accessor at the top left pixel of the destination view. -/
def DestView.origin (d : DestView) : PixelAccessor := ⟨d.ci, d.cj, 0⟩

/-- Embeds `dest( c, r, p )`: the pixel of the destination memory that the destination
view shows at `(c, r, p)`. -/
def DestView.pix {β : Type} (d : DestView) (img : View β) (c r p : Int) : β :=
  img.pix (d.ci + c) (d.cj + r) p

/-- The pixels of a destination view in scan order: planes in the outer loop,
rows in the middle loop, columns in the inner loop. -/
def rasterOrder (d : DestView) (planes height width : Nat) : List (Int × Int × Int) :=
  (List.range planes).flatMap (fun (q : Nat) =>
    (List.range height).flatMap (fun (j : Nat) =>
      (List.range width).map (fun (k : Nat) => (d.ci + (k : Int), d.cj + (j : Int), (q : Int)))))

/-! ## The default rasterization function (`ImageViewBase.h`) -/

/-- Number of iterations of `for( int32 k = n; k; --k )`: `n` for `n ≥ 0`, and
the wrap-around count for a negative `n`. -/
def tripCount (n : Int) : Nat := if 0 ≤ n then n.toNat else (n + 4294967296).toNat

/-- The column loop of `vw::rasterize`: `for( col = width; col; --col )`,
`n` iterations left. -/
def colLoop {α β : Type} (conv : α → β) (src : View α) :
    Nat → PixelAccessor → PixelAccessor → Dest β → Dest β
  | 0, _, _, m => m
  | n + 1, scol, dcol, m =>
    colLoop conv src n scol.next_col dcol.next_col (m.store dcol (conv (src.deref scol)))

/-- The row loop of `vw::rasterize`: `for( row = height; row; --row )`. -/
def rowLoop {α β : Type} (conv : α → β) (src : View α) (width : Int) :
    Nat → PixelAccessor → PixelAccessor → Dest β → Dest β
  | 0, _, _, m => m
  | n + 1, srow, drow, m =>
    rowLoop conv src width n srow.next_row drow.next_row
      (colLoop conv src (tripCount width) srow drow m)

/-- The plane loop of `vw::rasterize`: `for( plane = planes; plane; --plane )`. -/
def planeLoop {α β : Type} (conv : α → β) (src : View α) (width height : Int) :
    Nat → PixelAccessor → PixelAccessor → Dest β → Dest β
  | 0, _, _, m => m
  | n + 1, splane, dplane, m =>
    planeLoop conv src width height n splane.next_plane dplane.next_plane
      (rowLoop conv src width (tripCount height) splane dplane m)

/-- Embeds `vw::rasterize( src, dest, bbox )`.  `conv` is the pixel conversion
`DestPixelT(*scol)`.  The result is the outcome and the destination memory. -/
def rasterize {α β : Type} (conv : α → β) (src : View α) (dest : DestView) (bbox : BBox2i)
    (m : Dest β) : Except Err Unit × Dest β :=
  if dest.cols = bbox.width ∧ dest.rows = bbox.height ∧ dest.planes = src.planes then
    (.ok (), planeLoop conv src bbox.width bbox.height (tripCount src.planes)
      (src.origin.advance bbox.min.x bbox.min.y) dest.origin m)
  else
    (.error .ArgumentErr, m)

/-- Embeds `ImageT::rasterize( dest, bbox )`, the rasterization method of a view.  The
View protocol ties it to pixel-by-pixel evaluation, so it is the default
rasterization function; `ImageView::rasterize` is that very function. -/
def View.rasterize {α β : Type} (conv : α → β) (src : View α) (dest : DestView) (bbox : BBox2i)
    (m : Dest β) : Except Err Unit × Dest β :=
  vw.rasterize conv src dest bbox m

/-- Continue a writing computation with the value of a throwing expression; an
exception leaves the destination memory as it is. -/
def withValue {γ β : Type} (e : Except Err γ) (k : γ → Dest β → Except Err Unit × Dest β)
    (m : Dest β) : Except Err Unit × Dest β :=
  match e with
  | .error err => (.error err, m)
  | .ok a => k a m

/-- Embeds `for( int32 i = lo; i < hi; ++i ) body`, with `n = hi - lo` iterations left. -/
def forUp {σ : Type} (body : Int → σ → Except Err σ) : Nat → Int → σ → Except Err σ
  | 0, _, s => .ok s
  | n + 1, i, s =>
    match body i s with
    | .error e => .error e
    | .ok s' => forUp body n (i + 1) s'

/-! ## `BlockRasterizeView` (`BlockRasterize.h`) -/

/-- Modelled from the spec: the `Cache` of vw/Core/Cache.h (not among the
sources).  `BlockRasterizeView` only tests whether it has one and inserts
generators into it. -/
structure Cache where
  id : Nat
  deriving DecidableEq, Repr

/-- Embeds `vw_system_cache()`, the shared default cache. -/
def vw_system_cache : Cache := ⟨0⟩

/-- Embeds `BlockRasterizeView::BlockGenerator`. -/
structure BlockGenerator (α : Type) where
  m_child : View α
  m_bbox : BBox2i

/-- Reduction of an integer to the range of `size_t`, 64 bits wide. -/
def wrapSize (n : Int) : Int := n % 18446744073709551616

/-- Embeds `BlockGenerator::size()`, with `sizeof(pixel_type)` as a parameter.
The product of the three `int32` extents is an `int32`; it is converted to
`size_t` for the product with `sizeof(pixel_type)`. -/
def BlockGenerator.size {α : Type} (sizeofPixel : Int) (g : BlockGenerator α) : Int :=
  wrapSize (wrapSize (wrap32 (wrap32 (g.m_bbox.width * g.m_bbox.height) * g.m_child.planes)) *
    sizeofPixel)

/-- Embeds `BlockGenerator::generate()`: allocate the block buffer and rasterize the
child over the block into it. -/
def BlockGenerator.generate {α : Type} [Inhabited α] (g : BlockGenerator α) :
    Except Err (View α) :=
  let ptr : View α := ImageView.alloc g.m_bbox.width g.m_bbox.height g.m_child.planes
  match View.rasterize id g.m_child (DestView.whole ptr) g.m_bbox ⟨ptr, []⟩ with
  | (.ok _, m) => .ok m.img
  | (.error e, _) => .error e

/-- Modelled from the spec: `Cache::Handle<BlockGenerator>` (vw/Core/Cache.h is
not among the sources).  A default-constructed handle refers to no entry; the
handle that `insert` returns refers to the entry of its generator. -/
structure Handle (α : Type) where
  gen : Option (BlockGenerator α)

instance {α : Type} : Inhabited (Handle α) := ⟨⟨none⟩⟩

/-- Modelled from the spec: `Cache::insert( generator )`, the handle of the new
entry. -/
def Cache.insert {α : Type} (_c : Cache) (g : BlockGenerator α) : Handle α := ⟨some g⟩

/-- Modelled from the spec: dereferencing a handle yields the value of its
entry, which is what `generate()` returned (stored, or generated on demand). -/
def Handle.deref {α : Type} [Inhabited α] (h : Handle α) : Except Err (View α) :=
  match h.gen with
  | none => .error .NullPtrErr
  | some g => g.generate

/-- The members of `BlockRasterizeView<ImageT>`. -/
structure BlockRasterizeView (α : Type) where
  m_child : View α
  m_block_size : Vector2i
  m_num_threads : Int
  m_cache_ptr : Option Cache
  m_table_width : Int
  m_table_height : Int
  m_block_table_size : Int
  m_block_table : List (Handle α)

namespace BlockRasterizeView

variable {α : Type}

def cols (v : BlockRasterizeView α) : Int := v.m_child.cols

def rows (v : BlockRasterizeView α) : Int := v.m_child.rows

def planes (v : BlockRasterizeView α) : Int := v.m_child.planes

/-- The test of `block( ix, iy )`: the indices are outside the table. -/
def outOfTable (v : BlockRasterizeView α) (ix iy : Int) : Prop :=
  ix < 0 ∨ ix ≥ v.m_table_width ∨ iy < 0 ∨ iy ≥ v.m_table_height

instance (v : BlockRasterizeView α) (ix iy : Int) : Decidable (v.outOfTable ix iy) := by
  unfold outOfTable; infer_instance

/-- Embeds `block( ix, iy ) const`: the handle of the requested block. -/
def block (v : BlockRasterizeView α) (ix iy : Int) : Except Err (Handle α) :=
  if v.outOfTable ix iy then .error .ArgumentErr
  else .ok (v.m_block_table.getD (ix + iy * v.m_table_width).toNat default)

/-- Embeds `block( ix, iy ) = handle`: the non-const overload, assigned to.  The
overload tests the indices against the table extents, not against the number of
slots allocated: an assignment to `m_block_table[ix + iy*m_table_width]` past the
end of the array is a memory fault. -/
def setBlock (v : BlockRasterizeView α) (ix iy : Int) (handle : Handle α) :
    Except Err (BlockRasterizeView α) :=
  if v.outOfTable ix iy then .error .ArgumentErr
  else if (ix + iy * v.m_table_width).toNat < v.m_block_table.length then
    .ok { v with
      m_block_table := v.m_block_table.set (ix + iy * v.m_table_width).toNat handle }
  else .error .MemoryFault

/-- First half of `initialize()`: the default block size when it is unset. -/
def initBlockSize (sizeofPixel : Int) (v : BlockRasterizeView α) :
    Except Err (BlockRasterizeView α) :=
  if v.m_block_size.x ≤ 0 ∨ v.m_block_size.y ≤ 0 then
    let default_blocksize : Int := 2 * 1024 * 1024
    match idiv default_blocksize (wrap32 (wrap32 (v.planes * v.cols) * sizeofPixel)) with
    | .error e => .error e
    | .ok block_rows =>
      let block_rows :=
        if block_rows < 1 then 1 else if block_rows > v.rows then v.rows else block_rows
      .ok { v with m_block_size := ⟨v.cols, block_rows⟩ }
  else .ok v

/-- The bounding box that `initialize()` gives block `(ix, iy)`: the grid cell
`BBox2i( ix*bw, iy*bh, bw, bh )` cropped to `view_bbox`. -/
def blockBBox (v : BlockRasterizeView α) (ix iy : Int) : BBox2i :=
  (BBox2i.ofSize (ix * v.m_block_size.x) (iy * v.m_block_size.y)
    v.m_block_size.x v.m_block_size.y).crop (BBox2i.ofSize 0 0 v.cols v.rows)

/-- The body of the two loops of `initialize()`: insert the generator of block
`(ix, iy)` and store its handle. -/
def initBlock (cache : Cache) (iy ix : Int) (v : BlockRasterizeView α) :
    Except Err (BlockRasterizeView α) :=
  let bbox := v.blockBBox ix iy
  v.setBlock ix iy (cache.insert ⟨v.m_child, bbox⟩)

/-- The largest number of elements that `operator new[]` can be asked for:
`PTRDIFF_MAX`.  A request for more throws `std::bad_alloc`. -/
def maxArrayLength : Int := 9223372036854775807

/-- Second half of `initialize()`: the block table, when there is a cache.
`m_table_height * m_table_width` is a product of two `int`, an `int` itself,
converted to the `size_t` member `m_block_table_size`; a negative product
converts to a size that `new Cache::Handle<BlockGenerator>[ m_block_table_size ]`
cannot allocate.  A table of any smaller size is taken to be allocated. -/
def initTable (v : BlockRasterizeView α) : Except Err (BlockRasterizeView α) :=
  match v.m_cache_ptr with
  | some cache =>
    match idiv (v.cols - 1) v.m_block_size.x with
    | .error e => .error e
    | .ok qx =>
      match idiv (v.rows - 1) v.m_block_size.y with
      | .error e => .error e
      | .ok qy =>
        let m_table_width := qx + 1
        let m_table_height := qy + 1
        let m_block_table_size := wrapSize (wrap32 (m_table_height * m_table_width))
        if maxArrayLength < m_block_table_size then .error .BadAlloc
        else
          let v := { v with
            m_table_width := m_table_width
            m_table_height := m_table_height
            m_block_table_size := m_block_table_size
            m_block_table := List.replicate m_block_table_size.toNat default }
          forUp (fun iy v => forUp (initBlock cache iy) v.m_table_width.toNat 0 v)
            v.m_table_height.toNat 0 v
  | none => .ok v

/-- Embeds `BlockRasterizeView::initialize()` (the name is reserved in Lean). -/
def init (sizeofPixel : Int) (v : BlockRasterizeView α) :
    Except Err (BlockRasterizeView α) :=
  match initBlockSize sizeofPixel v with
  | .error e => .error e
  | .ok v => initTable v

/-- The constructor `BlockRasterizeView( image, block_size, num_threads, cache )`. -/
def new (sizeofPixel : Int) (image : View α) (block_size : Vector2i) (num_threads : Int)
    (cache : Option Cache) : Except Err (BlockRasterizeView α) :=
  init sizeofPixel ⟨image, block_size, num_threads, cache, 0, 0, 0, []⟩

/-- Two views differ in nothing but the block table. -/
def SameMembers (v v0 : BlockRasterizeView α) : Prop :=
  v.m_child = v0.m_child ∧ v.m_block_size = v0.m_block_size ∧
  v.m_num_threads = v0.m_num_threads ∧ v.m_cache_ptr = v0.m_cache_ptr ∧
  v.m_table_width = v0.m_table_width ∧ v.m_table_height = v0.m_table_height ∧
  v.m_block_table_size = v0.m_block_table_size

/-- The block table holds, for every flat index below `k`, the handle of the
generator of its block; the other members are those of `v0`. -/
def FilledUpTo (cache : Cache) (v0 v : BlockRasterizeView α) (k : Int) : Prop :=
  v.SameMembers v0 ∧
  v.m_block_table.length = v0.m_block_table.length ∧
  ∀ ix iy : Int, 0 ≤ ix → ix < v0.m_table_width → 0 ≤ iy → iy < v0.m_table_height →
    ix + iy * v0.m_table_width < k →
    v.m_block_table[(ix + iy * v0.m_table_width).toNat]? =
      some (cache.insert ⟨v0.m_child, v0.blockBBox ix iy⟩)

/-- The state that `initialize()` leaves in a view with a cache: the table
extents, the table size and a full table. -/
def Built (cache : Cache) (v : BlockRasterizeView α) : Prop :=
  v.m_table_width = Int.tdiv (v.cols - 1) v.m_block_size.x + 1 ∧
  v.m_table_height = Int.tdiv (v.rows - 1) v.m_block_size.y + 1 ∧
  v.m_block_table_size = v.m_table_height * v.m_table_width ∧
  v.m_block_table.length = v.m_block_table_size.toNat ∧
  ∀ ix iy : Int, 0 ≤ ix → ix < v.m_table_width → 0 ≤ iy → iy < v.m_table_height →
    v.m_block_table[(ix + iy * v.m_table_width).toNat]? =
      some (cache.insert ⟨v.m_child, v.blockBBox ix iy⟩)

/-- Embeds `operator()( x, y, p )`: single-pixel access. -/
def operatorCall [Inhabited α] (v : BlockRasterizeView α) (x y p : Int) : Except Err α :=
  match v.m_cache_ptr with
  | some _ =>
    if v.m_block_table_size = 1 then
      match (v.m_block_table.getD 0 default).deref with
      | .error e => .error e
      | .ok img => .ok (img.pix x y p)
    else
      match idiv x v.m_block_size.x with
      | .error e => .error e
      | .ok ix =>
        match idiv y v.m_block_size.y with
        | .error e => .error e
        | .ok iy =>
          match v.block ix iy with
          | .error e => .error e
          | .ok handle =>
            match handle.deref with
            | .error e => .error e
            | .ok img => .ok (img.pix (x - ix * v.m_block_size.x) (y - iy * v.m_block_size.y) p)
  | none => .ok (v.m_child.pix x y p)

end BlockRasterizeView

variable {α : Type}

/-- Create a `BlockRasterizeView` with no caching. -/
def block_rasterize (sizeofPixel : Int) (image : View α) (block_size : Vector2i)
    (num_threads : Int) : Except Err (BlockRasterizeView α) :=
  BlockRasterizeView.new sizeofPixel image block_size num_threads none

/-- Create a `BlockRasterizeView` using the vw system `Cache` object. -/
def block_cache (sizeofPixel : Int) (image : View α) (block_size : Vector2i)
    (num_threads : Int) : Except Err (BlockRasterizeView α) :=
  BlockRasterizeView.new sizeofPixel image block_size num_threads (some vw_system_cache)

/-- Create a `BlockRasterizeView` using the provided `Cache` object. -/
def block_cache_with (sizeofPixel : Int) (image : View α) (block_size : Vector2i)
    (num_threads : Int) (cache : Cache) : Except Err (BlockRasterizeView α) :=
  BlockRasterizeView.new sizeofPixel image block_size num_threads (some cache)

/-- Embeds `BlockRasterizeView::RasterizeFunctor<DestT>`. -/
structure RasterizeFunctor (α : Type) where
  m_view : BlockRasterizeView α
  m_dest : DestView
  m_offset : Vector2i

/-- Embeds `RasterizeFunctor::operator()( bbox )`.  `VW_DEBUG_LEVEL` is the compile time
debugging level; `conv` is the conversion to the destination pixel type. -/
def RasterizeFunctor.operatorCall {β : Type} [Inhabited α] (VW_DEBUG_LEVEL : Nat)
    (conv : α → β) (f : RasterizeFunctor α) (bbox : BBox2i) (m : Dest β) :
    Except Err Unit × Dest β :=
  match f.m_view.m_cache_ptr with
  | some _ =>
    withValue (idiv bbox.min.x f.m_view.m_block_size.x) (fun ix =>
    withValue (idiv bbox.min.y f.m_view.m_block_size.y) (fun iy =>
    withValue (if VW_DEBUG_LEVEL > 1 then
        match idiv (bbox.max.x - 1) f.m_view.m_block_size.x with
        | .error e => .error e
        | .ok maxix =>
          match idiv (bbox.max.y - 1) f.m_view.m_block_size.y with
          | .error e => .error e
          | .ok maxiy => if maxix ≠ ix ∨ maxiy ≠ iy then .error .LogicErr else .ok ()
      else .ok ()) (fun _ =>
    withValue (f.m_view.block ix iy) (fun handle =>
    withValue handle.deref (fun img =>
      View.rasterize conv img (f.m_dest.crop (bbox.sub f.m_offset))
        (bbox.sub ⟨ix * f.m_view.m_block_size.x, iy * f.m_view.m_block_size.y⟩)))))) m
  | none =>
    View.rasterize conv f.m_view.m_child (f.m_dest.crop (bbox.sub f.m_offset)) bbox m

/-- Modelled from the spec: the sub-boxes of `BlockProcessor` (vw/Image/
BlockProcessor.h is not among the sources), the cells of the block grid that
meet `bbox`, each cropped to `bbox`, in row-major order; a zero-area region has
none. -/
def BlockProcessor.blocks (block_size : Vector2i) (bbox : BBox2i) : List BBox2i :=
  if bbox.empty then []
  else
    let ix0 := bbox.min.x / block_size.x
    let iy0 := bbox.min.y / block_size.y
    let nx := ((bbox.max.x - 1) / block_size.x - ix0 + 1).toNat
    let ny := ((bbox.max.y - 1) / block_size.y - iy0 + 1).toNat
    (List.range ny).flatMap (fun (j : Nat) => (List.range nx).map (fun (i : Nat) =>
      (BBox2i.ofSize ((ix0 + (i : Int)) * block_size.x) ((iy0 + (j : Int)) * block_size.y)
        block_size.x block_size.y).crop bbox))

/-- Modelled from the spec: apply the functor to the sub-boxes one after the
other; an exception ends the call. -/
def BlockProcessor.run {β : Type} (func : BBox2i → Dest β → Except Err Unit × Dest β) :
    List BBox2i → Dest β → Except Err Unit × Dest β
  | [], m => (.ok (), m)
  | b :: rest, m =>
    match func b m with
    | (.ok _, m') => BlockProcessor.run func rest m'
    | (.error e, m') => (.error e, m')

/-- Modelled from the spec: `BlockProcessor( func, block_size, num_threads )( bbox )`.
With at most one thread the sub-boxes are processed in row-major order; with
more, in the order `sched` in which the pool hands them out. -/
def BlockProcessor.operatorCall {β : Type}
    (func : BBox2i → Dest β → Except Err Unit × Dest β) (block_size : Vector2i)
    (num_threads : Int) (sched : List BBox2i → List BBox2i) (bbox : BBox2i) (m : Dest β) :
    Except Err Unit × Dest β :=
  let boxes := BlockProcessor.blocks block_size bbox
  BlockProcessor.run func (if num_threads ≤ 1 then boxes else sched boxes) m

/-- Modelled from the spec: `CropView` (vw/Image/Manipulation.h is not among the
sources), the window of its child with offset `(ci, cj)` and extents `(di, dj)`. -/
structure CropView (α : Type) where
  child : View α
  ci : Int
  cj : Int
  di : Int
  dj : Int

namespace CropView

/-- Embeds `CropView( image, bbox )`. -/
def ofBBox (image : View α) (bbox : BBox2i) : CropView α :=
  ⟨image, bbox.min.x, bbox.min.y, bbox.width, bbox.height⟩

def cols (c : CropView α) : Int := c.di

def rows (c : CropView α) : Int := c.dj

def planes (c : CropView α) : Int := c.child.planes

/-- Embeds `operator()( x, y, p )` of a `CropView`. -/
def operatorCall (c : CropView α) (x y p : Int) : α := c.child.pix (x + c.ci) (y + c.cj) p

end CropView

namespace BlockRasterizeView

/-- Embeds `BlockRasterizeView::rasterize( dest, bbox )`. -/
def rasterize {β : Type} [Inhabited α] (VW_DEBUG_LEVEL : Nat) (conv : α → β)
    (sched : List BBox2i → List BBox2i) (v : BlockRasterizeView α) (dest : DestView)
    (bbox : BBox2i) (m : Dest β) : Except Err Unit × Dest β :=
  BlockProcessor.operatorCall
    (RasterizeFunctor.operatorCall VW_DEBUG_LEVEL conv ⟨v, dest, bbox.min⟩)
    v.m_block_size v.m_num_threads sched bbox m

/-- Embeds `BlockRasterizeView::prerasterize( bbox )`. -/
def prerasterize [Inhabited α] (VW_DEBUG_LEVEL : Nat) (sched : List BBox2i → List BBox2i)
    (v : BlockRasterizeView α) (bbox : BBox2i) : Except Err (CropView α) :=
  let buf : View α := ImageView.alloc bbox.width bbox.height v.planes
  match v.rasterize VW_DEBUG_LEVEL id sched (DestView.whole buf) bbox ⟨buf, []⟩ with
  | (.ok _, m) =>
    .ok (CropView.ofBBox m.img (BBox2i.ofSize (-bbox.min.x) (-bbox.min.y) v.cols v.rows))
  | (.error e, _) => .error e

end BlockRasterizeView

/-! ## The two cached paths of `operator()` and the table writes of `initialize()` -/

namespace BlockRasterizeView

/-- Embeds the early-out of `operator()` for a table of one block: the value
read through `m_block_table[0]` at `(x, y, p)`. -/
def fastPath [Inhabited α] (v : BlockRasterizeView α) (x y p : Int) : Except Err α :=
  match (v.m_block_table.getD 0 default).deref with
  | .error e => .error e
  | .ok img => .ok (img.pix x y p)

/-- Embeds the general cached path of `operator()`: the block index
`(x / bw, y / bh)`, the handle of that block, and the value read at the
block-local coordinate. -/
def generalPath [Inhabited α] (v : BlockRasterizeView α) (x y p : Int) : Except Err α :=
  match idiv x v.m_block_size.x with
  | .error e => .error e
  | .ok ix =>
    match idiv y v.m_block_size.y with
    | .error e => .error e
    | .ok iy =>
      match v.block ix iy with
      | .error e => .error e
      | .ok handle =>
        match handle.deref with
        | .error e => .error e
        | .ok img => .ok (img.pix (x - ix * v.m_block_size.x) (y - iy * v.m_block_size.y) p)

/-- The view as `initialize()` has it before its two loops: the table
allocated, every slot a default-constructed handle. -/
def unfilled (v : BlockRasterizeView α) : BlockRasterizeView α :=
  { v with m_block_table := List.replicate v.m_block_table_size.toNat default }

/-- The body of the two loops of `initialize()` with a log of the flat indices
of the slots it assigns, oldest first. -/
def initBlockLogged (cache : Cache) (iy ix : Int) (s : BlockRasterizeView α × List Int) :
    Except Err (BlockRasterizeView α × List Int) :=
  match initBlock cache iy ix s.1 with
  | .error e => .error e
  | .ok v => .ok (v, s.2 ++ [ix + iy * s.1.m_table_width])

/-- The two loops of `initialize()` with the log of the slots they assign. -/
def initLoopsLogged (cache : Cache) (v : BlockRasterizeView α) :
    Except Err (BlockRasterizeView α × List Int) :=
  forUp (fun iy s => forUp (initBlockLogged cache iy) s.1.m_table_width.toNat 0 s)
    v.m_table_height.toNat 0 (v, [])

end BlockRasterizeView

/-! ## `ThreadQueue` (modelled from the spec, §4.5) -/

/-- Modelled from the spec: `ThreadQueue<T>` (vw/Core/ThreadQueue.h is not among
the sources), the unbounded FIFO of the items pushed and not yet popped, the
oldest first, as one thread sees it. -/
structure ThreadQueue (τ : Type) where
  items : List τ

namespace ThreadQueue

variable {τ : Type}

/-- Modelled from the spec: a new queue holds nothing. -/
def new : ThreadQueue τ := ⟨[]⟩

/-- Modelled from the spec: `push( item )` always succeeds and puts the item
behind the ones already pushed. -/
def push (q : ThreadQueue τ) (item : τ) : ThreadQueue τ := ⟨q.items ++ [item]⟩

/-- Modelled from the spec: `empty()`, a snapshot. -/
def empty (q : ThreadQueue τ) : Bool := q.items.isEmpty

/-- Modelled from the spec: `wait_pop( out )` removes and returns the oldest
pushed item; on a queue that holds nothing it blocks, which the lone thread of
this model never leaves (`none`). -/
def wait_pop (q : ThreadQueue τ) : Option (τ × ThreadQueue τ) :=
  match q.items with
  | [] => none
  | item :: rest => some (item, ⟨rest⟩)

/-- Modelled from the spec: `timed_wait_pop( out, timeout )` returns failure
when the queue still holds nothing after the timeout, and otherwise removes and
returns the oldest pushed item. -/
def timed_wait_pop (q : ThreadQueue τ) (_timeout : Nat) : Option τ × ThreadQueue τ :=
  match q.items with
  | [] => (none, q)
  | item :: rest => (some item, ⟨rest⟩)

/-- Pushing the items of a list one after the other. -/
def pushAll (q : ThreadQueue τ) (xs : List τ) : ThreadQueue τ := xs.foldl push q

/-- The items that `n` successive `wait_pop` calls return, in the order of the
calls, and the queue they leave; `none` when one of them blocks. -/
def popN : Nat → ThreadQueue τ → Option (List τ × ThreadQueue τ)
  | 0, q => some ([], q)
  | n + 1, q =>
    match q.wait_pop with
    | none => none
    | some (item, q') =>
      match popN n q' with
      | none => none
      | some (out, q'') => some (item :: out, q'')

end ThreadQueue

/-! ## The cache store (modelled from the spec, §3, §4.2 and §6) -/

/-- Modelled from the spec: the state of a cache entry. -/
inductive EntryState where
  | Empty
  | Generating
  | Valid
  deriving DecidableEq, Repr

/-- Modelled from the spec: a generator, `size()` in bytes and `generate()`,
immutable once created.  What becomes of an entry whose generation raises is
left open by the spec, so `generate` is a value of any type `γ` here (which may
itself be an outcome such as `Except Err (View α)`) and always returns. -/
structure Generator (γ : Type) where
  size : Nat
  generate : γ

/-- Modelled from the spec: a cache entry, generator, state, value, size,
recency marker and pin count.  The recency marker is the time of the last
dereference that used the entry, read off the clock of the cache. -/
structure CacheEntry (γ : Type) where
  generator : Generator γ
  state : EntryState
  value : Option γ
  size : Nat
  recency : Nat
  pin_count : Nat

/-- Modelled from the spec: the cache of vw/Core/Cache.h (not among the sources)
as one thread sees it: the entry table (a handle is the index of its entry), the
current resident size, the configured maximum size (zero: no bound) and the
recency-ordered list of the generated entries, the least recently used first.
`clock` counts the dereferences that used an entry and stamps the recency
markers.  `evicted` is a ghost log of the entries that eviction passes removed,
in the order of removal. -/
structure CacheStore (γ : Type) where
  entries : List (CacheEntry γ)
  resident : Nat
  max_size : Nat
  lru : List Nat
  clock : Nat
  evicted : List Nat

/-- Modelled from the spec: the three operations on a cache. -/
inductive CacheOp (γ : Type) where
  | insert (g : Generator γ)
  | deref (h : Nat)
  | release (h : Nat)

namespace CacheStore

variable {γ : Type}

/-- Modelled from the spec: a cache with the given maximum size and no entry. -/
def new (max_size : Nat) : CacheStore γ := ⟨[], 0, max_size, [], 0, []⟩

/-- Modelled from the spec: `insert( generator )` registers a new Empty entry and
returns a handle with `pin_count = 1`. -/
def insert (c : CacheStore γ) (g : Generator γ) : Nat × CacheStore γ :=
  (c.entries.length, { c with entries := c.entries ++ [⟨g, .Empty, none, 0, 0, 1⟩] })

/-- Modelled from the spec: `release()` decrements `pin_count`. -/
def release (c : CacheStore γ) (h : Nat) : CacheStore γ :=
  match c.entries[h]? with
  | none => c
  | some e => { c with entries := c.entries.set h { e with pin_count := e.pin_count - 1 } }

/-- Modelled from the spec: an entry is eligible for eviction only when
`pin_count == 0`. -/
def unpinned (c : CacheStore γ) (h : Nat) : Bool :=
  match c.entries[h]? with
  | none => false
  | some e => e.pin_count == 0

/-- Modelled from the spec: removing an entry from the resident set: its value
is dropped, it is Empty again, and it leaves the recency-ordered list. -/
def evict (c : CacheStore γ) (h : Nat) : CacheStore γ :=
  match c.entries[h]? with
  | none => c
  | some e =>
    { c with
      entries := c.entries.set h { e with state := .Empty, value := none }
      resident := c.resident - e.size
      lru := c.lru.erase h
      evicted := c.evicted ++ [h] }

/-- Modelled from the spec: the loop of the eviction pass, run for at most `fuel`
iterations: while the resident size exceeds the configured maximum, remove the
least-recently-used entry with `pin_count == 0`; stop when all entries are
pinned.  A configured maximum of zero disables bounding: nothing is removed. -/
def evictLoop : Nat → CacheStore γ → CacheStore γ
  | 0, c => c
  | fuel + 1, c =>
    if c.max_size = 0 ∨ c.resident ≤ c.max_size then c
    else
      match c.lru.find? c.unpinned with
      | none => c
      | some h => evictLoop fuel (c.evict h)

/-- Modelled from the spec: the eviction pass; every iteration of its loop
removes one entry of the recency-ordered list. -/
def evictionPass (c : CacheStore γ) : CacheStore γ := evictLoop c.lru.length c

/-- Modelled from the spec: the generation of an Empty entry up to the eviction
pass: call `generate()`, store the result, record its size, the entry is Valid
and is appended to the recency-ordered list, its recency marker the time of
this dereference.  (The state Generating in between is seen by other threads
only.) -/
def generated (c : CacheStore γ) (h : Nat) (e : CacheEntry γ) : CacheStore γ :=
  { c with
    entries := c.entries.set h
      { e with
        state := .Valid, value := some e.generator.generate, size := e.generator.size
        recency := c.clock }
    resident := c.resident + e.generator.size
    lru := c.lru ++ [h]
    clock := c.clock + 1 }

/-- Modelled from the spec: the use of a Valid entry by a dereference refreshes
its recency marker: the entry becomes the most recently used and moves to the
end of the recency-ordered list. -/
def used (c : CacheStore γ) (h : Nat) (e : CacheEntry γ) : CacheStore γ :=
  { c with
    entries := c.entries.set h { e with recency := c.clock }
    lru := c.lru.erase h ++ [h]
    clock := c.clock + 1 }

/-- Modelled from the spec: dereference on a handle.  Valid: the stored value,
immediately; the entry has been used.  Empty: generate, then run an eviction
pass.  Generating: the call blocks until another thread has finished, which the
lone thread of this model never sees (`none`). -/
def deref (c : CacheStore γ) (h : Nat) : Option γ × CacheStore γ :=
  match c.entries[h]? with
  | none => (none, c)
  | some e =>
    match e.state with
    | .Valid => (e.value, c.used h e)
    | .Empty => (some e.generator.generate, (c.generated h e).evictionPass)
    | .Generating => (none, c)

/-- One cache operation. -/
def step (c : CacheStore γ) : CacheOp γ → CacheStore γ
  | .insert g => (c.insert g).2
  | .deref h => (c.deref h).2
  | .release h => c.release h

/-- A sequence of cache operations, one after the other. -/
def run (c : CacheStore γ) (ops : List (CacheOp γ)) : CacheStore γ := ops.foldl step c

/-- The number of `release()` calls on the handle `h` in a sequence of
operations. -/
def releases (h : Nat) : List (CacheOp γ) → Nat
  | [] => 0
  | .release k :: ops => (if k = h then 1 else 0) + releases h ops
  | _ :: ops => releases h ops

end CacheStore

/-! ## `FillNoDataWithAvg` (`InpaintView.h`) -/

/-- Modelled from the spec: `b.expand( offset )` of vw/Math/BBox.h (not among
the sources) grows the box by `offset` on every side. -/
def BBox2i.expand (b : BBox2i) (offset : Int) : BBox2i :=
  ⟨⟨b.min.x - offset, b.min.y - offset⟩, ⟨b.max.x + offset, b.max.y + offset⟩⟩

/-- Modelled from the spec: a `CropView` seen through the View protocol. -/
def CropView.toView {α : Type} (c : CropView α) : View α :=
  ⟨c.cols, c.rows, c.planes, c.operatorCall⟩

/-- Modelled from the spec: `ImageView<PixelT>( view )` (vw/Image/ImageView.h is
not among the sources): a buffer of the extents of the view, into which the view
is rasterized over its bounds. -/
def ImageView.ofView {α : Type} [Inhabited α] (view : View α) : Except Err (View α) :=
  let buf : View α := ImageView.alloc view.cols view.rows view.planes
  match View.rasterize id view (DestView.whole buf) view.bounds ⟨buf, []⟩ with
  | (.ok _, m) => .ok m.img
  | (.error e, _) => .error e

/-- Embeds `for( int c = lo; c <= hi; c++ ) body`, with `n` iterations left. -/
def loopUp {σ : Type} (body : Int → σ → σ) : Nat → Int → σ → σ
  | 0, _, s => s
  | n + 1, c, s => loopUp body n (c + 1) (body c s)

/-- The operations of the masked pixel type `PixelT` that `FillNoDataWithAvg`
uses (vw/Image/PixelMask.h is not among the sources): `is_valid( px )`, the
default-constructed pixel, `px.validate()`, `val += px` and `val / n`. -/
structure PixelOps (α : Type) where
  is_valid : α → Bool
  init : α
  validate : α → α
  add : α → α → α
  div : α → Int → α

/-- The members of `FillNoDataWithAvg<ImageT>`. -/
structure FillNoDataWithAvg (α : Type) where
  m_img : View α
  m_kernel_size : Int

namespace FillNoDataWithAvg

variable {α : Type}

/-- Embeds the constructor `FillNoDataWithAvg( img, kernel_size )` with its
`VW_ASSERT`; `%` is the C++ remainder. -/
def new (img : View α) (kernel_size : Int) : Except Err (FillNoDataWithAvg α) :=
  if Int.tmod kernel_size 2 = 1 ∧ kernel_size > 0 then .ok ⟨img, kernel_size⟩
  else .error .ArgumentErr

def cols (v : FillNoDataWithAvg α) : Int := v.m_img.cols

def rows (v : FillNoDataWithAvg α) : Int := v.m_img.rows

def planes (_v : FillNoDataWithAvg α) : Int := 1

/-- The body of the inner loop of `operator()`: an invalid pixel is skipped, a
valid one is added to `val` and counted in `nvalid`. -/
def accumulate (ops : PixelOps α) (v : FillNoDataWithAvg α) (c r : Int) (s : α × Int) :
    α × Int :=
  if !ops.is_valid (v.m_img.pix c r 0) then s
  else (ops.add s.1 (v.m_img.pix c r 0), s.2 + 1)

/-- The two loops of `operator()` over the window around `(c0, r0)` clipped to
the image, from `val` validated and `nvalid = 0`: the final `(val, nvalid)`. -/
def window (ops : PixelOps α) (v : FillNoDataWithAvg α) (c0 r0 : Int) : α × Int :=
  let k2 := Int.tdiv v.m_kernel_size 2
  let nc := v.m_img.cols
  let nr := v.m_img.rows
  loopUp (fun c s =>
      loopUp (fun r s => accumulate ops v c r s)
        (min (nr - 1) (r0 + k2) + 1 - max 0 (r0 - k2)).toNat (max 0 (r0 - k2)) s)
    (min (nc - 1) (c0 + k2) + 1 - max 0 (c0 - k2)).toNat (max 0 (c0 - k2))
    (ops.validate ops.init, 0)

/-- Embeds `FillNoDataWithAvg::operator()( i, j, p )`.  The coordinates are
`size_t`; in an image they are below `2^31` and their conversion to `int` is
exact.  The plane `p` is not used: the child is read at plane 0. -/
def operatorCall (ops : PixelOps α) (v : FillNoDataWithAvg α) (i j : Nat) (_p : Nat) : α :=
  if ops.is_valid (v.m_img.pix i j 0) then v.m_img.pix i j 0
  else
    let s := window ops v i j
    if s.2 = 0 then v.m_img.pix i j 0
    else ops.div s.1 s.2

/-- The box that `prerasterize( bbox )` copies: `bbox` expanded by half the
kernel size and cropped to the image. -/
def biased_box (v : FillNoDataWithAvg α) (bbox : BBox2i) : BBox2i :=
  (bbox.expand (Int.tdiv v.m_kernel_size 2)).crop v.m_img.bounds

/-- Embeds `FillNoDataWithAvg::prerasterize( bbox )`: the child over the biased
box is copied into the buffer `dest`, and the result is the same filter over
`dest` shifted back to the coordinates of the image. -/
def prerasterize [Inhabited α] (v : FillNoDataWithAvg α) (bbox : BBox2i) :
    Except Err (FillNoDataWithAvg α) :=
  match ImageView.ofView (CropView.ofBBox v.m_img (v.biased_box bbox)).toView with
  | .error e => .error e
  | .ok dest =>
    FillNoDataWithAvg.new
      (CropView.mk dest (-(v.biased_box bbox).min.x) (-(v.biased_box bbox).min.y)
        v.cols v.rows).toView
      v.m_kernel_size

end FillNoDataWithAvg

/-! ## Log rules (`Log.cc`) -/

/-- Embeds `boost::to_lower_copy( s )` in the classic locale: the letters `A`
to `Z` are replaced by `a` to `z`, every other character is kept. -/
def to_lower_copy (s : List Char) : List Char := s.map Char.toLower

/-- The values of the enumeration `MessageLevel` that `Log.cc` uses (vw/Core/Log.h
is not among the sources): they are parameters of the embedding. -/
structure MessageLevel where
  EveryMessage : Int
  InfoMessage : Int
  WarningMessage : Int

/-- Embeds `wildcard_match( pattern, str )`.  `pattern.find("*")` is the index of
the first `*`, or the length of the pattern for `npos`. -/
def wildcard_match (pattern str : List Char) : Bool :=
  if pattern = ['*'] then true
  else
    let idx := pattern.indexOf '*'
    if idx = pattern.length then decide (pattern = str)
    else if idx = 0 then (pattern.drop 1).isSuffixOf str
    else if pattern.length > 1 ∧ pattern[idx - 1]? = some '.' ∧ str = pattern.take (idx - 1)
    then true
    else (pattern.take idx).isPrefixOf str

/-- The member of `LogRuleSet`: the list of rules `(level, namespace)`, the front
of the list first. -/
structure LogRuleSet where
  m_rules : List (Int × List Char)

namespace LogRuleSet

/-- Embeds `LogRuleSet::add_rule( log_level, log_namespace )`: the outcome and
the rule set afterwards. -/
def add_rule (rs : LogRuleSet) (log_level : Int) (log_namespace : List Char) :
    Except Err Unit × LogRuleSet :=
  let count := log_namespace.count '*'
  if count > 1 then (.error .ArgumentErr, rs)
  else if count = 1 ∧ log_namespace.head? ≠ some '*' ∧ log_namespace.getLast? ≠ some '*' then
    (.error .ArgumentErr, rs)
  else (.ok (), ⟨(log_level, to_lower_copy log_namespace) :: rs.m_rules⟩)

/-- Embeds `LogRuleSet::clear()`. -/
def clear (_rs : LogRuleSet) : LogRuleSet := ⟨[]⟩

/-- The loop of `LogRuleSet::operator()` over the rules: the decision of the
first rule that matches, `none` when no rule matches. -/
def rulesLoop (lv : MessageLevel) (log_level : Int) (lower_namespace : List Char) :
    List (Int × List Char) → Option Bool
  | [] => none
  | (rule_lvl, rule_ns) :: rest =>
    if !wildcard_match rule_ns lower_namespace then rulesLoop lv log_level lower_namespace rest
    else if rule_lvl = lv.EveryMessage then some true
    else some (decide (log_level ≤ rule_lvl))

/-- Embeds `LogRuleSet::operator()( log_level, log_namespace )`. -/
def operatorCall (lv : MessageLevel) (rs : LogRuleSet) (log_level : Int)
    (log_namespace : List Char) : Bool :=
  let lower_namespace := to_lower_copy log_namespace
  match rulesLoop lv log_level lower_namespace rs.m_rules with
  | some decision => decision
  | none =>
    if log_level ≤ lv.InfoMessage ∧
        (log_namespace = "console".toList ∨
          wildcard_match "*.progress".toList lower_namespace = true) then true
    else if log_level ≤ lv.WarningMessage then true
    else false

/-- A sequence of `add_rule` calls, one after the other; a call that raises
leaves the rule set as it is. -/
def addRules (rs : LogRuleSet) (calls : List (Int × List Char)) : LogRuleSet :=
  calls.foldl (fun rs call => (rs.add_rule call.1 call.2).2) rs

end LogRuleSet

/-! ## `TMSQuadTreeConfig::image_path` (`TMSQuadTreeConfig.cc`) -/

/-- The characters that `oss << n` writes for an unsigned integer: its decimal
digits. -/
def decimal (n : Nat) : List Char := Nat.toDigits 10 n

/-- The characters that `oss << z` writes for an `int32`. -/
def decimalInt (z : Int) : List Char :=
  if z < 0 then '-' :: decimal z.natAbs else decimal z.toNat

/-- The number that a string of decimal digits denotes. -/
def decimalValue (s : List Char) : Nat :=
  s.foldl (fun acc c => 10 * acc + (c.toNat - '0'.toNat)) 0

/-- The append operator `path /= rel` of `boost::filesystem::path` (a library
outside the repository) on a relative path that does not start with a separator:
a separator is put between the two unless the left path is empty or ends with
one. -/
def pathAppend (path rel : List Char) : List Char :=
  if path = [] ∨ path.getLast? = some '/' then path ++ rel else path ++ '/' :: rel

namespace TMSQuadTreeConfig

/-- The body of the loop of `image_path`: `pos *= 2`, then the offset of the
character; the components of `pos` are `int32`. -/
def step (pos : Vector2i) (ch : Char) : Except Err Vector2i :=
  let pos : Vector2i := ⟨wrap32 (pos.x * 2), wrap32 (pos.y * 2)⟩
  if ch = '0' then .ok ⟨wrap32 (pos.x + 0), wrap32 (pos.y + 1)⟩
  else if ch = '1' then .ok ⟨wrap32 (pos.x + 1), wrap32 (pos.y + 1)⟩
  else if ch = '3' then .ok ⟨wrap32 (pos.x + 1), wrap32 (pos.y + 0)⟩
  else if ch ≠ '2' then .error .LogicErr
  else .ok pos

/-- The loop of `image_path` over the characters of the name that are left. -/
def loop : List Char → Vector2i → Except Err Vector2i
  | [], pos => .ok pos
  | ch :: rest, pos =>
    match step pos ch with
    | .error e => .error e
    | .ok pos => loop rest pos

/-- Embeds `TMSQuadTreeConfig::image_path( qtree, name )`; `base` is
`qtree.get_name()`. -/
def image_path (base name : List Char) : Except Err (List Char) :=
  match loop name ⟨0, 0⟩ with
  | .error e => .error e
  | .ok pos =>
    .ok (pathAppend base
      (decimal name.length ++ '/' :: (decimalInt pos.x ++ '/' :: decimalInt pos.y)))

/-- The offset that the claim gives a quadtree digit: `(0,1)`, `(1,1)`, `(0,0)`,
`(1,0)` for `0`, `1`, `2`, `3`. -/
def quadOffset (ch : Char) : Nat × Nat :=
  if ch = '0' then (0, 1) else if ch = '1' then (1, 1) else if ch = '3' then (1, 0) else (0, 0)

/-- The position that the claim gives a tile name: from `start`, doubling and
adding the offset of each digit. -/
def quadPos (start : Nat × Nat) (name : List Char) : Nat × Nat :=
  name.foldl (fun p ch => (2 * p.1 + (quadOffset ch).1, 2 * p.2 + (quadOffset ch).2)) start

/-- A name over the digits `0`, `1`, `2`, `3`. -/
def quadName (name : List Char) : Prop := ∀ ch ∈ name, ch = '0' ∨ ch = '1' ∨ ch = '2' ∨ ch = '3'

instance (name : List Char) : Decidable (quadName name) := by
  unfold quadName; infer_instance

end TMSQuadTreeConfig

/-! ## The byte sizes of the generators of a block table -/

/-- The value of `size()` of the generator behind a handle; a handle that refers
to no entry counts for nothing. -/
def Handle.bytes {α : Type} (sizeofPixel : Int) (h : Handle α) : Int :=
  match h.gen with
  | none => 0
  | some g => g.size sizeofPixel

/-- The sum of `BlockGenerator::size()` over all blocks of the table. -/
def BlockRasterizeView.tableBytes {α : Type} (sizeofPixel : Int) (v : BlockRasterizeView α) :
    Int :=
  (v.m_block_table.map (Handle.bytes sizeofPixel)).sum

/-- The byte size of an image or buffer: `cols * rows * planes * sizeof(pixel)`. -/
def View.bytes {α : Type} (sizeofPixel : Int) (img : View α) : Int :=
  img.cols * img.rows * img.planes * sizeofPixel

/-! ## Example inputs -/

namespace Example

/-- A 5 × 3 image of two planes whose pixel at `(x, y, p)` is `100 p + 10 y + x`. -/
def child : View Int := ⟨5, 3, 2, fun x y p => 100 * p + 10 * y + x⟩

/-- A 2 × 2 destination buffer of two planes, zero everywhere, nothing stored yet. -/
def dest : Dest Int := ⟨ImageView.alloc 2 2 2, []⟩

/-- The 2 × 2 box with origin `(1, 1)`. -/
def box : BBox2i := BBox2i.ofSize 1 1 2 2

/-- The handle of the generator of the block of `child` with the given bounds. -/
def handle (minx miny maxx maxy : Int) : Handle Int :=
  ⟨some ⟨child, ⟨⟨minx, miny⟩, ⟨maxx, maxy⟩⟩⟩⟩

/-- The view over `child` with 2 × 2 blocks, no thread and the system cache:
a 3 × 2 table of six blocks, the last column one pixel wide, the last row one
pixel high. -/
def cachedView : BlockRasterizeView Int :=
  { m_child := child
    m_block_size := ⟨2, 2⟩
    m_num_threads := 0
    m_cache_ptr := some vw_system_cache
    m_table_width := 3
    m_table_height := 2
    m_block_table_size := 6
    m_block_table := [handle 0 0 2 2, handle 2 0 4 2, handle 4 0 5 2,
      handle 0 2 2 3, handle 2 2 4 3, handle 4 2 5 3] }

/-- The view over `child` with 2 × 2 blocks, no thread and no cache. -/
def plainView : BlockRasterizeView Int :=
  { m_child := child
    m_block_size := ⟨2, 2⟩
    m_num_threads := 0
    m_cache_ptr := none
    m_table_width := 0
    m_table_height := 0
    m_block_table_size := 0
    m_block_table := [] }

/-- The 2 × 1 box with origin `(2, 1)`, inside block `(1, 0)` of `cachedView`. -/
def subBox : BBox2i := BBox2i.ofSize 2 1 2 1

/-- A cache of maximum size 1 in which the entry of a generator of size 1 has
been generated and its handle is not released. -/
def pinnedStore : CacheStore Nat := (CacheStore.new 1).run [.insert ⟨1, 7⟩, .deref 0]

/-- The entry of handle 0 in `pinnedStore`. -/
def pinnedEntry : CacheEntry Nat := ⟨⟨1, 7⟩, .Valid, some 7, 1, 0, 1⟩

/-- A second generator of size 1 is inserted and generated: the resident size
becomes 2. -/
def laterOps : List (CacheOp Nat) := [.insert ⟨1, 9⟩, .deref 1]

/-- Operations on a cache of maximum size 1 after which the entry of handle 0 is
generated and released and the entry of handle 1 is Empty. -/
def evictionOps : List (CacheOp Nat) := [.insert ⟨1, 7⟩, .deref 0, .release 0, .insert ⟨1, 9⟩]

/-- Masked integer pixels: a value and a validity flag.  Sums add the values,
the quotient is the C++ integer division. -/
def maskedOps : PixelOps (Int × Bool) :=
  { is_valid := fun px => px.2
    init := (0, false)
    validate := fun px => (px.1, true)
    add := fun a b => (a.1 + b.1, a.2)
    div := fun a n => (Int.tdiv a.1 n, a.2) }

/-- A 4 × 3 masked image of one plane: the pixel `(x, y)` has the value
`10 * y + x` and is valid unless `x + y` is a multiple of 3. -/
def masked : View (Int × Bool) :=
  ⟨4, 3, 1, fun x y _ => (10 * y + x, decide ((x + y) % 3 ≠ 0))⟩

/-- The 2 × 2 box with origin `(2, 1)`, inside `masked`. -/
def fillBox : BBox2i := BBox2i.ofSize 2 1 2 2

/-- Message levels with `WarningMessage < InfoMessage < EveryMessage`. -/
def levels : MessageLevel := ⟨100, 20, 10⟩

/-- Three `add_rule` calls in the order they are made: the first and the second
match the namespace `a.first`, the third does not. -/
def ruleCalls : List (Int × List Char) :=
  [(0, "a.*".toList), (30, "A.*".toList), (5, "b".toList)]

/-- The name of a tile of level 3. -/
def tileName : List Char := "031".toList

/-- The name of a quadtree. -/
def treeName : List Char := "out/tiles".toList

/-- An empty image: no column, three rows, one plane. -/
def noColumns : View Int := ⟨0, 3, 1, fun _ _ _ => 0⟩

/-- An image of 65536 × 65536 pixels, one plane. -/
def huge : View Int := ⟨65536, 65536, 1, fun _ _ _ => 0⟩

/-- An image of one row of 2^30 pixels, one plane. -/
def wideRow : View Int := ⟨1073741824, 1, 1, fun _ _ _ => 0⟩

/-- An image of 65536 × 32768 pixels, one plane: 2^31 pixels. -/
def large : View Int := ⟨65536, 32768, 1, fun _ _ _ => 0⟩

end Example

/-! # Theorems -/

section Loops

variable {α β : Type}

theorem tripCount_of_nonneg {n : Int} (h : 0 ≤ n) : (tripCount n : Int) = n := by
  unfold tripCount
  rw [if_pos h]
  exact Int.toNat_of_nonneg h

theorem store_img_cols (m : Dest β) (a : PixelAccessor) (v : β) :
    (m.store a v).img.cols = m.img.cols ∧ (m.store a v).img.rows = m.img.rows ∧
      (m.store a v).img.planes = m.img.planes := ⟨rfl, rfl, rfl⟩

/-- The column loop keeps the extents of the buffer. -/
theorem colLoop_extents (conv : α → β) (src : View α) (n : Nat) (s d : PixelAccessor)
    (m : Dest β) :
    (colLoop conv src n s d m).img.cols = m.img.cols ∧
    (colLoop conv src n s d m).img.rows = m.img.rows ∧
    (colLoop conv src n s d m).img.planes = m.img.planes := by
  induction n generalizing s d m with
  | zero => exact ⟨rfl, rfl, rfl⟩
  | succ n ih => simpa [colLoop] using ih _ _ _

/-- Pixels of the buffer after the column loop. -/
theorem colLoop_pix (conv : α → β) (src : View α) (n : Nat) (s d : PixelAccessor)
    (m : Dest β) (c r p : Int) :
    (colLoop conv src n s d m).img.pix c r p =
      if r = d.row ∧ p = d.plane ∧ d.col ≤ c ∧ c < d.col + n then
        conv (src.pix (s.col + (c - d.col)) s.row s.plane)
      else m.img.pix c r p := by
  induction n generalizing s d m with
  | zero =>
    have : ¬ (r = d.row ∧ p = d.plane ∧ d.col ≤ c ∧ c < d.col + ((0 : Nat) : Int)) := by
      rintro ⟨-, -, h1, h2⟩
      simp at h2
      omega
    rw [if_neg this]
    rfl
  | succ n ih =>
    simp only [colLoop]
    rw [ih]
    simp only [PixelAccessor.next_col, Dest.store, View.deref, Nat.cast_add, Nat.cast_one]
    by_cases hrp : r = d.row ∧ p = d.plane
    · obtain ⟨hr, hp⟩ := hrp
      subst hr hp
      by_cases h0 : c = d.col
      · subst h0
        simp
      · by_cases h1 : d.col + 1 ≤ c ∧ c < d.col + 1 + n
        · have h2 : d.col ≤ c ∧ c < d.col + (n + 1) := by omega
          have e : s.col + 1 + (c - (d.col + 1)) = s.col + (c - d.col) := by ring
          simp [h1, h2, e]
        · have h2 : ¬ (d.col ≤ c ∧ c < d.col + (n + 1)) := by omega
          simp [h1, h2, h0]
    · have h3 : ¬ (c = d.col ∧ r = d.row ∧ p = d.plane) := fun h => hrp ⟨h.2.1, h.2.2⟩
      have h4 : ¬ (r = d.row ∧ p = d.plane ∧ d.col + 1 ≤ c ∧ c < d.col + 1 + n) :=
        fun h => hrp ⟨h.1, h.2.1⟩
      have h5 : ¬ (r = d.row ∧ p = d.plane ∧ d.col ≤ c ∧ c < d.col + (n + 1)) :=
        fun h => hrp ⟨h.1, h.2.1⟩
      rw [if_neg h4, if_neg h3, if_neg h5]

/-- The stores of the column loop, in order. -/
theorem colLoop_stores (conv : α → β) (src : View α) (n : Nat) (s d : PixelAccessor)
    (m : Dest β) :
    (colLoop conv src n s d m).stores =
      m.stores ++ (List.range n).map (fun (k : Nat) => (d.col + (k : Int), d.row, d.plane)) := by
  induction n generalizing s d m with
  | zero => simp [colLoop]
  | succ n ih =>
    simp only [colLoop]
    rw [ih, List.range_succ_eq_map]
    simp only [PixelAccessor.next_col, Dest.store, List.append_assoc, List.singleton_append,
      List.map_cons, List.map_map, Nat.cast_zero, add_zero]
    congr 2
    apply List.map_congr_left
    intro k _
    simp only [Function.comp, Nat.succ_eq_add_one, Nat.cast_add, Nat.cast_one]
    congr 1
    ring

/-- The row loop keeps the extents of the buffer. -/
theorem rowLoop_extents (conv : α → β) (src : View α) (width : Int) (n : Nat)
    (s d : PixelAccessor) (m : Dest β) :
    (rowLoop conv src width n s d m).img.cols = m.img.cols ∧
    (rowLoop conv src width n s d m).img.rows = m.img.rows ∧
    (rowLoop conv src width n s d m).img.planes = m.img.planes := by
  induction n generalizing s d m with
  | zero => exact ⟨rfl, rfl, rfl⟩
  | succ n ih =>
    simp only [rowLoop]
    have h := colLoop_extents conv src (tripCount width) s d m
    have h2 := ih s.next_row d.next_row (colLoop conv src (tripCount width) s d m)
    exact ⟨h2.1.trans h.1, h2.2.1.trans h.2.1, h2.2.2.trans h.2.2⟩

/-- Pixels of the buffer after the row loop. -/
theorem rowLoop_pix (conv : α → β) (src : View α) (width : Int) (n : Nat)
    (s d : PixelAccessor) (m : Dest β) (c r p : Int) :
    (rowLoop conv src width n s d m).img.pix c r p =
      if p = d.plane ∧ (d.row ≤ r ∧ r < d.row + n) ∧
          d.col ≤ c ∧ c < d.col + tripCount width then
        conv (src.pix (s.col + (c - d.col)) (s.row + (r - d.row)) s.plane)
      else m.img.pix c r p := by
  induction n generalizing s d m with
  | zero =>
    have : ¬ (p = d.plane ∧ (d.row ≤ r ∧ r < d.row + ((0 : Nat) : Int)) ∧
        d.col ≤ c ∧ c < d.col + tripCount width) := by
      rintro ⟨-, ⟨h1, h2⟩, -⟩
      simp at h2
      omega
    rw [if_neg this]
    rfl
  | succ n ih =>
    simp only [rowLoop]
    rw [ih, colLoop_pix]
    simp only [PixelAccessor.next_row, Nat.cast_add, Nat.cast_one]
    by_cases hpc : p = d.plane ∧ d.col ≤ c ∧ c < d.col + tripCount width
    · obtain ⟨hp, hc⟩ := hpc
      subst hp
      by_cases h0 : r = d.row
      · subst h0
        have h1 : ¬ (d.row + 1 ≤ d.row ∧ d.row < d.row + 1 + n) := by omega
        have h2 : d.row ≤ d.row ∧ d.row < d.row + ((n : Int) + 1) := by omega
        simp [h1, h2, hc]
      · by_cases h1 : d.row + 1 ≤ r ∧ r < d.row + 1 + n
        · have h2 : d.row ≤ r ∧ r < d.row + ((n : Int) + 1) := by omega
          have e : s.row + 1 + (r - (d.row + 1)) = s.row + (r - d.row) := by ring
          simp [h1, h2, hc, e]
        · have h2 : ¬ (d.row ≤ r ∧ r < d.row + ((n : Int) + 1)) := by omega
          simp [h1, h2, h0]
    · have h3 : ¬ (p = d.plane ∧ (d.row + 1 ≤ r ∧ r < d.row + 1 + n) ∧
          d.col ≤ c ∧ c < d.col + tripCount width) := fun h => hpc ⟨h.1, h.2.2⟩
      have h4 : ¬ (r = d.row ∧ p = d.plane ∧ d.col ≤ c ∧ c < d.col + tripCount width) :=
        fun h => hpc h.2
      have h5 : ¬ (p = d.plane ∧ (d.row ≤ r ∧ r < d.row + ((n : Int) + 1)) ∧
          d.col ≤ c ∧ c < d.col + tripCount width) := fun h => hpc ⟨h.1, h.2.2⟩
      rw [if_neg h3, if_neg h4, if_neg h5]

/-- The stores of the row loop, in order: row after row. -/
theorem rowLoop_stores (conv : α → β) (src : View α) (width : Int) (n : Nat)
    (s d : PixelAccessor) (m : Dest β) :
    (rowLoop conv src width n s d m).stores =
      m.stores ++ (List.range n).flatMap (fun (j : Nat) =>
        (List.range (tripCount width)).map
          (fun (k : Nat) => (d.col + (k : Int), d.row + (j : Int), d.plane))) := by
  induction n generalizing s d m with
  | zero => simp [rowLoop]
  | succ n ih =>
    simp only [rowLoop]
    rw [ih, colLoop_stores, List.range_succ_eq_map]
    simp only [PixelAccessor.next_row, List.append_assoc, List.flatMap_cons, Nat.cast_zero,
      add_zero, List.flatMap_map]
    congr 3
    funext j
    simp only [Function.comp, Nat.succ_eq_add_one, Nat.cast_add, Nat.cast_one]
    apply List.map_congr_left
    intro k _
    congr 2
    ring

/-- The plane loop keeps the extents of the buffer. -/
theorem planeLoop_extents (conv : α → β) (src : View α) (width height : Int) (n : Nat)
    (s d : PixelAccessor) (m : Dest β) :
    (planeLoop conv src width height n s d m).img.cols = m.img.cols ∧
    (planeLoop conv src width height n s d m).img.rows = m.img.rows ∧
    (planeLoop conv src width height n s d m).img.planes = m.img.planes := by
  induction n generalizing s d m with
  | zero => exact ⟨rfl, rfl, rfl⟩
  | succ n ih =>
    simp only [planeLoop]
    have h := rowLoop_extents conv src width (tripCount height) s d m
    have h2 := ih s.next_plane d.next_plane (rowLoop conv src width (tripCount height) s d m)
    exact ⟨h2.1.trans h.1, h2.2.1.trans h.2.1, h2.2.2.trans h.2.2⟩

/-- Pixels of the buffer after the plane loop. -/
theorem planeLoop_pix (conv : α → β) (src : View α) (width height : Int) (n : Nat)
    (s d : PixelAccessor) (m : Dest β) (c r p : Int) :
    (planeLoop conv src width height n s d m).img.pix c r p =
      if (d.plane ≤ p ∧ p < d.plane + n) ∧ (d.row ≤ r ∧ r < d.row + tripCount height) ∧
          d.col ≤ c ∧ c < d.col + tripCount width then
        conv (src.pix (s.col + (c - d.col)) (s.row + (r - d.row)) (s.plane + (p - d.plane)))
      else m.img.pix c r p := by
  induction n generalizing s d m with
  | zero =>
    have : ¬ ((d.plane ≤ p ∧ p < d.plane + ((0 : Nat) : Int)) ∧
        (d.row ≤ r ∧ r < d.row + tripCount height) ∧
        d.col ≤ c ∧ c < d.col + tripCount width) := by
      rintro ⟨⟨h1, h2⟩, -⟩
      simp at h2
      omega
    rw [if_neg this]
    rfl
  | succ n ih =>
    simp only [planeLoop]
    rw [ih, rowLoop_pix]
    simp only [PixelAccessor.next_plane, Nat.cast_add, Nat.cast_one]
    by_cases hrc : (d.row ≤ r ∧ r < d.row + tripCount height) ∧
        d.col ≤ c ∧ c < d.col + tripCount width
    · by_cases h0 : p = d.plane
      · subst h0
        have h1 : ¬ (d.plane + 1 ≤ d.plane ∧ d.plane < d.plane + 1 + n) := by omega
        have h2 : d.plane ≤ d.plane ∧ d.plane < d.plane + ((n : Int) + 1) := by omega
        simp [h1, h2, hrc]
      · by_cases h1 : d.plane + 1 ≤ p ∧ p < d.plane + 1 + n
        · have h2 : d.plane ≤ p ∧ p < d.plane + ((n : Int) + 1) := by omega
          have e : s.plane + 1 + (p - (d.plane + 1)) = s.plane + (p - d.plane) := by ring
          simp [h1, h2, hrc, e]
        · have h2 : ¬ (d.plane ≤ p ∧ p < d.plane + ((n : Int) + 1)) := by omega
          simp [h1, h2, h0]
    · have h3 : ¬ ((d.plane + 1 ≤ p ∧ p < d.plane + 1 + n) ∧
          (d.row ≤ r ∧ r < d.row + tripCount height) ∧
          d.col ≤ c ∧ c < d.col + tripCount width) := fun h => hrc h.2
      have h4 : ¬ (p = d.plane ∧ (d.row ≤ r ∧ r < d.row + tripCount height) ∧
          d.col ≤ c ∧ c < d.col + tripCount width) := fun h => hrc h.2
      have h5 : ¬ ((d.plane ≤ p ∧ p < d.plane + ((n : Int) + 1)) ∧
          (d.row ≤ r ∧ r < d.row + tripCount height) ∧
          d.col ≤ c ∧ c < d.col + tripCount width) := fun h => hrc h.2
      rw [if_neg h3, if_neg h4, if_neg h5]

/-- The stores of the plane loop, in order: plane after plane, row after row. -/
theorem planeLoop_stores (conv : α → β) (src : View α) (width height : Int) (n : Nat)
    (s d : PixelAccessor) (m : Dest β) :
    (planeLoop conv src width height n s d m).stores =
      m.stores ++ (List.range n).flatMap (fun (q : Nat) =>
        (List.range (tripCount height)).flatMap (fun (j : Nat) =>
          (List.range (tripCount width)).map
            (fun (k : Nat) => (d.col + (k : Int), d.row + (j : Int), d.plane + (q : Int))))) := by
  induction n generalizing s d m with
  | zero => simp [planeLoop]
  | succ n ih =>
    simp only [planeLoop]
    rw [ih, rowLoop_stores, List.range_succ_eq_map]
    simp only [PixelAccessor.next_plane, List.append_assoc, List.flatMap_cons, Nat.cast_zero,
      add_zero, List.flatMap_map]
    congr 3
    funext q
    simp only [Function.comp, Nat.succ_eq_add_one, Nat.cast_add, Nat.cast_one]
    congr 1
    funext j
    apply List.map_congr_left
    intro k _
    congr 2
    ring

theorem mem_rasterOrder (d : DestView) (P H W : Nat) (x : Int × Int × Int) :
    x ∈ rasterOrder d P H W ↔
      (d.ci ≤ x.1 ∧ x.1 < d.ci + W) ∧ (d.cj ≤ x.2.1 ∧ x.2.1 < d.cj + H) ∧
        (0 ≤ x.2.2 ∧ x.2.2 < P) := by
  obtain ⟨c, r, p⟩ := x
  simp only [rasterOrder, List.mem_flatMap, List.mem_map, List.mem_range, Prod.mk.injEq]
  constructor
  · rintro ⟨q, hq, j, hj, k, hk, rfl, rfl, rfl⟩
    omega
  · rintro ⟨⟨h1, h2⟩, ⟨h3, h4⟩, h5, h6⟩
    refine ⟨p.toNat, by omega, (r - d.cj).toNat, by omega, (c - d.ci).toNat, by omega, ?_, ?_, ?_⟩
    · omega
    · omega
    · omega

theorem rasterOrder_nodup (d : DestView) (P H W : Nat) : (rasterOrder d P H W).Nodup := by
  unfold rasterOrder
  rw [List.nodup_flatMap]
  refine ⟨fun q _ => ?_, ?_⟩
  · rw [List.nodup_flatMap]
    refine ⟨fun j _ => ?_, ?_⟩
    · refine (List.nodup_range W).map_on ?_
      intro a _ b _ h
      simp only [Prod.mk.injEq] at h
      omega
    · refine (List.nodup_range H).pairwise_of_forall_ne ?_
      intro a _ b _ hab
      simp only [Function.onFun, List.disjoint_left, List.mem_map, List.mem_range]
      rintro x ⟨k, _, rfl⟩ ⟨k', _, h⟩
      simp only [Prod.mk.injEq] at h
      omega
  · refine (List.nodup_range P).pairwise_of_forall_ne ?_
    intro a _ b _ hab
    simp only [Function.onFun, List.disjoint_left, List.mem_flatMap, List.mem_map,
      List.mem_range]
    rintro x ⟨j, _, k, _, rfl⟩ ⟨j', _, k', _, h⟩
    simp only [Prod.mk.injEq] at h
    omega

/-- The default rasterization function, when the extents match: it raises
nothing, stores the converted source pixels of `bbox` in scan order, and
leaves every other pixel of the destination memory as it was. -/
theorem rasterize_ok (conv : α → β) (src : View α) (dest : DestView) (bbox : BBox2i)
    (m : Dest β) (hw : 0 ≤ bbox.width) (hh : 0 ≤ bbox.height)
    (hext : dest.cols = bbox.width ∧ dest.rows = bbox.height ∧ dest.planes = src.planes) :
    (rasterize conv src dest bbox m).1 = .ok () ∧
    (∀ c r p, 0 ≤ c → c < bbox.width → 0 ≤ r → r < bbox.height → 0 ≤ p →
      p < (tripCount src.planes : Int) →
      dest.pix (rasterize conv src dest bbox m).2.img c r p =
        conv (src.pix (bbox.min.x + c) (bbox.min.y + r) p)) ∧
    (rasterize conv src dest bbox m).2.stores =
      m.stores ++ rasterOrder dest (tripCount src.planes) bbox.height.toNat bbox.width.toNat ∧
    (∀ x y p, (x, y, p) ∉ rasterOrder dest (tripCount src.planes) bbox.height.toNat
        bbox.width.toNat →
      (rasterize conv src dest bbox m).2.img.pix x y p = m.img.pix x y p) := by
  have hW : tripCount bbox.width = bbox.width.toNat := by
    unfold tripCount; rw [if_pos hw]
  have hH : tripCount bbox.height = bbox.height.toNat := by
    unfold tripCount; rw [if_pos hh]
  have hWi : ((bbox.width.toNat : Nat) : Int) = bbox.width := Int.toNat_of_nonneg hw
  have hHi : ((bbox.height.toNat : Nat) : Int) = bbox.height := Int.toNat_of_nonneg hh
  unfold rasterize
  rw [if_pos hext]
  refine ⟨rfl, ?_, ?_, ?_⟩
  · intro c r p hc0 hc1 hr0 hr1 hp0 hp1
    simp only [DestView.pix]
    rw [planeLoop_pix]
    simp only [DestView.origin, View.origin, PixelAccessor.advance, hW, hH, hWi, hHi]
    rw [if_pos (by omega)]
    congr 2 <;> ring
  · simp only [planeLoop_stores, rasterOrder, DestView.origin, hW, hH, zero_add]
  · intro x y p hx
    rw [mem_rasterOrder] at hx
    rw [planeLoop_pix]
    simp only [DestView.origin, hW, hH]
    rw [if_neg]
    simp only [zero_add]
    intro h
    exact hx ⟨h.2.2, h.2.1, h.1⟩

end Loops


section Arith

/-- The quotient of the C++ division of a non-negative integer by a positive one. -/
theorem tdiv_eq_iff {x b q : Int} (hx : 0 ≤ x) (hb : 0 < b) :
    Int.tdiv x b = q ↔ q * b ≤ x ∧ x < (q + 1) * b := by
  rw [Int.tdiv_eq_ediv hx hb.le]
  constructor
  · rintro rfl
    exact ⟨Int.ediv_mul_le x hb.ne', Int.lt_ediv_add_one_mul_self x hb⟩
  · rintro ⟨h1, h2⟩
    apply le_antisymm
    · have := (Int.ediv_lt_iff_lt_mul hb).2 h2
      omega
    · exact (Int.le_ediv_iff_mul_le hb).2 h1

theorem tdiv_nonneg {x b : Int} (hx : 0 ≤ x) (hb : 0 < b) : 0 ≤ Int.tdiv x b := by
  rw [Int.tdiv_eq_ediv hx hb.le]
  exact Int.ediv_nonneg hx hb.le

/-- A block index is below the table extent exactly when the block starts inside
the image. -/
theorem lt_table_iff {n b i : Int} (hn : 1 ≤ n) (hb : 0 < b) :
    i < Int.tdiv (n - 1) b + 1 ↔ i * b < n := by
  rw [Int.tdiv_eq_ediv (by omega) hb.le]
  rw [Int.lt_add_one_iff, Int.le_ediv_iff_mul_le hb]
  omega

/-- The flat index of a block of the table is below the table size. -/
theorem flat_lt {ix iy tw th : Int} (hx0 : 0 ≤ ix) (hx : ix < tw) (hy0 : 0 ≤ iy)
    (hy : iy < th) : 0 ≤ ix + iy * tw ∧ ix + iy * tw < th * tw := by
  have h1 : 0 ≤ iy * tw := Int.mul_nonneg hy0 (by omega)
  have h2 : (iy + 1) * tw ≤ th * tw := Int.mul_le_mul_of_nonneg_right (by omega) (by omega)
  have h3 : (iy + 1) * tw = iy * tw + tw := by ring
  omega

/-- Distinct blocks of the table have distinct flat indices. -/
theorem flat_inj {ix iy jx jy tw : Int} (hx0 : 0 ≤ ix) (hx : ix < tw) (hj0 : 0 ≤ jx)
    (hj : jx < tw) (h : ix + iy * tw = jx + jy * tw) : ix = jx ∧ iy = jy := by
  have hy : iy = jy := by
    rcases lt_trichotomy iy jy with hlt | heq | hgt
    · have h2 : (iy + 1) * tw ≤ jy * tw := Int.mul_le_mul_of_nonneg_right (by omega) (by omega)
      have h3 : (iy + 1) * tw = iy * tw + tw := by ring
      omega
    · exact heq
    · have h2 : (jy + 1) * tw ≤ iy * tw := Int.mul_le_mul_of_nonneg_right (by omega) (by omega)
      have h3 : (jy + 1) * tw = jy * tw + tw := by ring
      omega
  subst hy
  exact ⟨by omega, rfl⟩

end Arith

section ForUp

variable {σ : Type}

/-- Invariant rule for the counting loop: a body that never throws inside the
range and carries the invariant from `j` to `j + 1` gives a loop that never
throws and ends with the invariant at the upper bound. -/
theorem forUp_inv (body : Int → σ → Except Err σ) (P : Int → σ → Prop) (n : Nat) (i : Int)
    (s : σ) (h0 : P i s)
    (hstep : ∀ j s, i ≤ j → j < i + n → P j s → ∃ s', body j s = .ok s' ∧ P (j + 1) s') :
    ∃ s', forUp body n i s = .ok s' ∧ P (i + n) s' := by
  induction n generalizing i s with
  | zero => exact ⟨s, rfl, by simpa using h0⟩
  | succ n ih =>
    obtain ⟨s1, hb, hP⟩ := hstep i s (le_refl i) (by push_cast; omega) h0
    obtain ⟨s2, hf, hP2⟩ := ih (i + 1) s1 hP (fun j s hj1 hj2 hPj =>
      hstep j s (by omega) (by push_cast; omega) hPj)
    refine ⟨s2, ?_, ?_⟩
    · simp only [forUp, hb, hf]
    · have e : i + ((n + 1 : Nat) : Int) = i + 1 + n := by push_cast; ring
      rw [e]; exact hP2

end ForUp

section Init

variable {α : Type} {σ : Type}

open BlockRasterizeView

/-- An integer of the non-negative `int32` range is its own reduction. -/
theorem wrap32_of_fits {n : Int} (h0 : 0 ≤ n) (h1 : n ≤ 2147483647) : wrap32 n = n := by
  unfold wrap32
  omega

/-- A table size of the non-negative `int32` range is stored as it is, and a
table of that size is allocated. -/
theorem tableSize_of_fits {n : Int} (h0 : 0 ≤ n) (h1 : n ≤ 2147483647) :
    wrapSize (wrap32 n) = n ∧ ¬ maxArrayLength < wrapSize (wrap32 n) := by
  rw [wrap32_of_fits h0 h1]
  unfold wrapSize maxArrayLength
  omega

/-- A table size that is allocated is the `int32` product of the table extents,
which is not negative. -/
theorem tableSize_of_alloc {n : Int} (h : ¬ maxArrayLength < wrapSize (wrap32 n)) :
    0 ≤ wrap32 n ∧ wrap32 n ≤ 2147483647 ∧ wrapSize (wrap32 n) = wrap32 n := by
  unfold wrapSize maxArrayLength at h
  unfold wrapSize
  unfold wrap32 at *
  omega

/-- A property that every successful pass of the body keeps is kept by the
counting loop when it succeeds. -/
theorem forUp_preserves (body : Int → σ → Except Err σ) (P : σ → Prop)
    (hstep : ∀ j s s', P s → body j s = .ok s' → P s') (n : Nat) (i : Int) (s s' : σ)
    (h0 : P s) (h : forUp body n i s = .ok s') : P s' := by
  induction n generalizing i s with
  | zero =>
    simp only [forUp, Except.ok.injEq] at h
    exact h ▸ h0
  | succ n ih =>
    simp only [forUp] at h
    split at h
    · exact absurd h (by simp)
    · rename_i s1 hb
      exact ih (i + 1) s1 (hstep i s s1 h0 hb) h

/-- In a counting loop that succeeds, every pass of the body succeeds, from a
state with every property that the successful passes keep. -/
theorem forUp_reaches (body : Int → σ → Except Err σ) (P : σ → Prop)
    (hstep : ∀ j s s', P s → body j s = .ok s' → P s') (n : Nat) (i : Int) (s s' : σ)
    (h0 : P s) (h : forUp body n i s = .ok s') (j : Int) (hj0 : i ≤ j) (hj : j < i + n) :
    ∃ t t', P t ∧ body j t = .ok t' := by
  induction n generalizing i s with
  | zero =>
    simp only [Nat.cast_zero, add_zero] at hj
    omega
  | succ n ih =>
    simp only [forUp] at h
    split at h
    · exact absurd h (by simp)
    · rename_i s1 hb
      by_cases hji : j = i
      · subst hji
        exact ⟨s, s1, h0, hb⟩
      · exact ih (i + 1) s1 (hstep i s s1 h0 hb) h (by omega) (by push_cast at hj; omega)

/-- One pass of the loop body of `initialize()` fills the next slot of the table. -/
theorem initBlock_step (cache : Cache) (v0 v : BlockRasterizeView α) (ix iy : Int)
    (hlen : v0.m_block_table.length = (v0.m_table_height * v0.m_table_width).toNat)
    (hx0 : 0 ≤ ix) (hx : ix < v0.m_table_width) (hy0 : 0 ≤ iy) (hy : iy < v0.m_table_height)
    (hv : FilledUpTo cache v0 v (ix + iy * v0.m_table_width)) :
    ∃ v', initBlock cache iy ix v = .ok v' ∧
      FilledUpTo cache v0 v' (ix + 1 + iy * v0.m_table_width) := by
  obtain ⟨hrec, hlen', hfill⟩ := hv
  obtain ⟨hch, hbs, hnt, hcp, htw, hth, hsz⟩ := hrec
  have hbb : v.blockBBox ix iy = v0.blockBBox ix iy := by
    simp only [blockBBox, cols, rows, hch, hbs]
  have hnot : ¬ v.outOfTable ix iy := by
    unfold outOfTable
    rw [htw, hth]
    omega
  have hflat := flat_lt hx0 hx hy0 hy
  have hslot : (ix + iy * v.m_table_width).toNat < v.m_block_table.length := by
    rw [htw, hlen', hlen]
    omega
  refine ⟨{ v with m_block_table := (v.m_block_table.set (ix + iy * v.m_table_width).toNat
      (cache.insert ⟨v.m_child, v.blockBBox ix iy⟩)) }, ?_, ?_, ?_, ?_⟩
  · simp only [initBlock, setBlock, if_neg hnot, if_pos hslot]
  · exact ⟨hch, hbs, hnt, hcp, htw, hth, hsz⟩
  · simp only [List.length_set]; exact hlen'
  · intro jx jy hj0 hj hjy0 hjy hlt
    simp only [htw, hch, hbb]
    rw [List.getElem?_set]
    have hflat' := flat_lt hj0 hj hjy0 hjy
    by_cases he : ix + iy * v0.m_table_width = jx + jy * v0.m_table_width
    · obtain ⟨rfl, rfl⟩ := flat_inj hx0 hx hj0 hj he
      rw [if_pos rfl, if_pos]
      rw [hlen', hlen]
      omega
    · rw [if_neg (by omega)]
      exact hfill jx jy hj0 hj hjy0 hjy (by omega)

/-- The two loops of `initialize()` fill the whole table and throw nothing, when
the table has a slot for every block. -/
theorem initLoops_spec (cache : Cache) (v0 : BlockRasterizeView α)
    (hlen : v0.m_block_table.length = (v0.m_table_height * v0.m_table_width).toNat)
    (hw : 0 ≤ v0.m_table_width) (hh : 0 ≤ v0.m_table_height) :
    ∃ v, forUp (fun iy v => forUp (initBlock cache iy) v.m_table_width.toNat 0 v)
        v0.m_table_height.toNat 0 v0 = .ok v ∧
      FilledUpTo cache v0 v (v0.m_table_height * v0.m_table_width) := by
  have key := forUp_inv (fun iy v => forUp (initBlock cache iy) v.m_table_width.toNat 0 v)
    (fun iy v => FilledUpTo cache v0 v (iy * v0.m_table_width)) v0.m_table_height.toNat 0 v0
    ⟨⟨rfl, rfl, rfl, rfl, rfl, rfl, rfl⟩, rfl, fun ix iy h1 h2 h3 h4 h5 => by
      have := (flat_lt h1 h2 h3 h4).1
      omega⟩
    (fun iy v hy0 hy hv => by
      have htw : v.m_table_width = v0.m_table_width := hv.1.2.2.2.2.1
      have hy' : iy < v0.m_table_height := by
        have := Int.toNat_of_nonneg hh
        omega
      have inner := forUp_inv (initBlock cache iy)
        (fun ix v => FilledUpTo cache v0 v (ix + iy * v0.m_table_width))
        v0.m_table_width.toNat 0 v (by simpa using hv)
        (fun ix v hx0 hx hv => by
          have hx' : ix < v0.m_table_width := by
            have := Int.toNat_of_nonneg hw
            omega
          exact initBlock_step cache v0 v ix iy hlen hx0 hx' hy0 hy' hv)
      obtain ⟨v', hf, hP⟩ := inner
      refine ⟨v', ?_, ?_⟩
      · simp only [htw]; exact hf
      · have e : (0 : Int) + (v0.m_table_width.toNat : Int) + iy * v0.m_table_width =
            (iy + 1) * v0.m_table_width := by
          rw [Int.toNat_of_nonneg hw]; ring
        show FilledUpTo cache v0 v' ((iy + 1) * v0.m_table_width)
        rw [← e]; exact hP)
  obtain ⟨v, hf, hP⟩ := key
  refine ⟨v, hf, ?_⟩
  have e : ((0 : Int) + (v0.m_table_height.toNat : Int)) * v0.m_table_width =
      v0.m_table_height * v0.m_table_width := by
    rw [Int.toNat_of_nonneg hh]; ring
  rw [← e]; exact hP

/-- A successful pass of the loop body of `initialize()` changes the table only,
and not its length; the slot it assigns to is a slot of the table. -/
theorem initBlock_members (cache : Cache) (iy ix : Int) (v0 v v' : BlockRasterizeView α)
    (hv : v.SameMembers v0 ∧ v.m_block_table.length = v0.m_block_table.length)
    (h : initBlock cache iy ix v = .ok v') :
    (v'.SameMembers v0 ∧ v'.m_block_table.length = v0.m_block_table.length) ∧
    (ix + iy * v0.m_table_width).toNat < v0.m_block_table.length := by
  simp only [initBlock, setBlock] at h
  split_ifs at h with hout hslot
  simp only [Except.ok.injEq] at h
  subst h
  obtain ⟨⟨h1, h2, h3, h4, h5, h6, h7⟩, h8⟩ := hv
  refine ⟨⟨⟨h1, h2, h3, h4, h5, h6, h7⟩, by simpa using h8⟩, ?_⟩
  rw [← h5, ← h8]
  exact hslot

/-- A successful inner loop of `initialize()` changes the table only, and not
its length. -/
theorem initRow_members (cache : Cache) (iy : Int) (n : Nat) (i : Int)
    (v0 v v' : BlockRasterizeView α)
    (hv : v.SameMembers v0 ∧ v.m_block_table.length = v0.m_block_table.length)
    (h : forUp (initBlock cache iy) n i v = .ok v') :
    v'.SameMembers v0 ∧ v'.m_block_table.length = v0.m_block_table.length :=
  forUp_preserves (initBlock cache iy)
    (fun w => w.SameMembers v0 ∧ w.m_block_table.length = v0.m_block_table.length)
    (fun ix t t' ht hb => (initBlock_members cache iy ix v0 t t' ht hb).1) n i v v' hv h

/-- The two loops of `initialize()`, when they succeed, change the table only,
and not its length. -/
theorem initRows_members (cache : Cache) (n : Nat) (i : Int)
    (v0 v v' : BlockRasterizeView α)
    (hv : v.SameMembers v0 ∧ v.m_block_table.length = v0.m_block_table.length)
    (h : forUp (fun iy v => forUp (initBlock cache iy) v.m_table_width.toNat 0 v) n i v =
      .ok v') :
    v'.SameMembers v0 ∧ v'.m_block_table.length = v0.m_block_table.length :=
  forUp_preserves (fun iy v => forUp (initBlock cache iy) v.m_table_width.toNat 0 v)
    (fun w => w.SameMembers v0 ∧ w.m_block_table.length = v0.m_block_table.length)
    (fun iy t t' ht hb => initRow_members cache iy _ 0 v0 t t' ht hb) n i v v' hv h

/-- The two loops of `initialize()` succeed only over a table with a slot for
every block: the last block they assign has the flat index
`m_table_height * m_table_width - 1`. -/
theorem initLoops_slots (cache : Cache) (v0 v' : BlockRasterizeView α)
    (hw : 1 ≤ v0.m_table_width) (hh : 1 ≤ v0.m_table_height)
    (h : forUp (fun iy v => forUp (initBlock cache iy) v.m_table_width.toNat 0 v)
      v0.m_table_height.toNat 0 v0 = .ok v') :
    v0.m_table_height * v0.m_table_width ≤ v0.m_block_table.length := by
  obtain ⟨t, t', ht, hrow⟩ := forUp_reaches
    (fun iy v => forUp (initBlock cache iy) v.m_table_width.toNat 0 v)
    (fun w => w.SameMembers v0 ∧ w.m_block_table.length = v0.m_block_table.length)
    (fun iy t t' ht hb => initRow_members cache iy _ 0 v0 t t' ht hb)
    v0.m_table_height.toNat 0 v0 v' ⟨⟨rfl, rfl, rfl, rfl, rfl, rfl, rfl⟩, rfl⟩ h
    (v0.m_table_height - 1) (by omega) (by have := Int.toNat_of_nonneg (show 0 ≤ v0.m_table_height by omega); omega)
  have htw : t.m_table_width = v0.m_table_width := ht.1.2.2.2.2.1
  simp only [htw] at hrow
  obtain ⟨u, u', hu, hblock⟩ := forUp_reaches (initBlock cache (v0.m_table_height - 1))
    (fun w => w.SameMembers v0 ∧ w.m_block_table.length = v0.m_block_table.length)
    (fun ix t t' ht hb => (initBlock_members cache _ ix v0 t t' ht hb).1)
    v0.m_table_width.toNat 0 t t' ht hrow
    (v0.m_table_width - 1) (by omega) (by have := Int.toNat_of_nonneg (show 0 ≤ v0.m_table_width by omega); omega)
  have hslot := (initBlock_members cache _ _ v0 u u' hu hblock).2
  have e : v0.m_table_width - 1 + (v0.m_table_height - 1) * v0.m_table_width =
      v0.m_table_height * v0.m_table_width - 1 := by ring
  rw [e] at hslot
  have hpos : 1 ≤ v0.m_table_height * v0.m_table_width := by
    have := Int.mul_le_mul hh hw (by omega) (by omega)
    omega
  omega

/-- The first half of `initialize()` leaves a positive block size alone. -/
theorem initBlockSize_of_pos (sz : Int) (v : BlockRasterizeView α)
    (hx : 0 < v.m_block_size.x) (hy : 0 < v.m_block_size.y) : initBlockSize sz v = .ok v := by
  unfold initBlockSize
  rw [if_neg (by omega)]

/-- What the first half of `initialize()` returns differs from the view it got
in the block size only, and over an image with a row that block size is positive. -/
theorem initBlockSize_spec (sz : Int) (v v1 : BlockRasterizeView α)
    (h : initBlockSize sz v = .ok v1) :
    (v1.m_child = v.m_child ∧ v1.m_num_threads = v.m_num_threads ∧
      v1.m_cache_ptr = v.m_cache_ptr ∧ v1.m_table_width = v.m_table_width ∧
      v1.m_table_height = v.m_table_height ∧ v1.m_block_table_size = v.m_block_table_size ∧
      v1.m_block_table = v.m_block_table) ∧
    (1 ≤ v.cols → 1 ≤ v.rows → 1 ≤ v1.m_block_size.x ∧ 1 ≤ v1.m_block_size.y) := by
  unfold initBlockSize at h
  split_ifs at h with hunset
  · dsimp only at h
    split at h
    · exact absurd h (by simp)
    · rename_i q _
      simp only [Except.ok.injEq] at h
      subst h
      refine ⟨⟨rfl, rfl, rfl, rfl, rfl, rfl, rfl⟩, ?_⟩
      intro hc hr
      refine ⟨hc, ?_⟩
      show 1 ≤ (if q < 1 then 1 else if q > v.rows then v.rows else q)
      split_ifs <;> omega
  · simp only [Except.ok.injEq] at h
    subst h
    exact ⟨⟨rfl, rfl, rfl, rfl, rfl, rfl, rfl⟩, fun _ _ => by omega⟩

/-- The second half of `initialize()` does nothing without a cache. -/
theorem initTable_none (v : BlockRasterizeView α) (hc : v.m_cache_ptr = none) :
    initTable v = .ok v := by
  unfold initTable
  rw [hc]

/-- The second half of `initialize()` with a cache, as the two loops over the
table it allocates, when no divisor is zero and the table size can be allocated. -/
theorem initTable_eq (cache : Cache) (v : BlockRasterizeView α)
    (hc : v.m_cache_ptr = some cache) (hx : v.m_block_size.x ≠ 0) (hy : v.m_block_size.y ≠ 0)
    (halloc : ¬ maxArrayLength < wrapSize (wrap32
      ((Int.tdiv (v.rows - 1) v.m_block_size.y + 1) *
        (Int.tdiv (v.cols - 1) v.m_block_size.x + 1)))) :
    initTable v =
      forUp (fun iy v => forUp (initBlock cache iy) v.m_table_width.toNat 0 v)
        (Int.tdiv (v.rows - 1) v.m_block_size.y + 1).toNat 0
        { v with
          m_table_width := Int.tdiv (v.cols - 1) v.m_block_size.x + 1
          m_table_height := Int.tdiv (v.rows - 1) v.m_block_size.y + 1
          m_block_table_size := wrapSize (wrap32
            ((Int.tdiv (v.rows - 1) v.m_block_size.y + 1) *
              (Int.tdiv (v.cols - 1) v.m_block_size.x + 1)))
          m_block_table := List.replicate (wrapSize (wrap32
            ((Int.tdiv (v.rows - 1) v.m_block_size.y + 1) *
              (Int.tdiv (v.cols - 1) v.m_block_size.x + 1)))).toNat default } := by
  unfold initTable
  split
  · rename_i c hc'
    have hcc : c = cache := by
      rw [hc] at hc'
      exact (Option.some.inj hc').symm
    subst hcc
    simp only [idiv, if_neg hx, if_neg hy, if_neg halloc]
  · rename_i hc'
    rw [hc] at hc'
    exact absurd hc' (by simp)

/-- The outcome of the second half of `initialize()` with a cache when a divisor
is zero or the table size cannot be allocated. -/
theorem initTable_error (cache : Cache) (v : BlockRasterizeView α)
    (hc : v.m_cache_ptr = some cache) :
    (v.m_block_size.x = 0 ∨ v.m_block_size.y = 0 → initTable v = .error .DivideByZero) ∧
    (v.m_block_size.x ≠ 0 → v.m_block_size.y ≠ 0 →
      maxArrayLength < wrapSize (wrap32
        ((Int.tdiv (v.rows - 1) v.m_block_size.y + 1) *
          (Int.tdiv (v.cols - 1) v.m_block_size.x + 1))) →
      initTable v = .error .BadAlloc) := by
  constructor
  · intro h0
    unfold initTable
    split
    · by_cases hx : v.m_block_size.x = 0
      · simp only [idiv, if_pos hx]
      · have hy : v.m_block_size.y = 0 := by tauto
        simp only [idiv, if_neg hx, if_pos hy]
    · rename_i hc'
      rw [hc] at hc'
      exact absurd hc' (by simp)
  · intro hx hy hbig
    unfold initTable
    split
    · simp only [idiv, if_neg hx, if_neg hy, if_pos hbig]
    · rename_i hc'
      rw [hc] at hc'
      exact absurd hc' (by simp)

/-- What the second half of `initialize()` returns with a cache, whatever the
extents: no divisor was zero, the table extents are the quotients plus one, the
table size is their `int32` product, not negative, the table has that many
slots, and when there is a block at all the product is the number of blocks. -/
theorem initTable_core (cache : Cache) (v v' : BlockRasterizeView α)
    (hc : v.m_cache_ptr = some cache) (h : initTable v = .ok v') :
    (v.m_block_size.x ≠ 0 ∧ v.m_block_size.y ≠ 0) ∧
    (v'.m_child = v.m_child ∧ v'.m_block_size = v.m_block_size ∧
      v'.m_num_threads = v.m_num_threads ∧ v'.m_cache_ptr = v.m_cache_ptr) ∧
    v'.m_table_width = Int.tdiv (v.cols - 1) v.m_block_size.x + 1 ∧
    v'.m_table_height = Int.tdiv (v.rows - 1) v.m_block_size.y + 1 ∧
    v'.m_block_table_size = wrap32 (v'.m_table_height * v'.m_table_width) ∧
    (0 ≤ v'.m_block_table_size ∧ v'.m_block_table_size ≤ 2147483647) ∧
    v'.m_block_table.length = v'.m_block_table_size.toNat ∧
    (1 ≤ v'.m_table_width → 1 ≤ v'.m_table_height →
      v'.m_block_table_size = v'.m_table_height * v'.m_table_width) := by
  have hx : v.m_block_size.x ≠ 0 := by
    intro h0
    rw [(initTable_error cache v hc).1 (Or.inl h0)] at h
    exact absurd h (by simp)
  have hy : v.m_block_size.y ≠ 0 := by
    intro h0
    rw [(initTable_error cache v hc).1 (Or.inr h0)] at h
    exact absurd h (by simp)
  have halloc : ¬ maxArrayLength < wrapSize (wrap32
      ((Int.tdiv (v.rows - 1) v.m_block_size.y + 1) *
        (Int.tdiv (v.cols - 1) v.m_block_size.x + 1))) := by
    intro hbig
    rw [(initTable_error cache v hc).2 hx hy hbig] at h
    exact absurd h (by simp)
  rw [initTable_eq cache v hc hx hy halloc] at h
  obtain ⟨hP0, hP1, hS⟩ := tableSize_of_alloc halloc
  generalize hv0 : ({ v with
      m_table_width := Int.tdiv (v.cols - 1) v.m_block_size.x + 1
      m_table_height := Int.tdiv (v.rows - 1) v.m_block_size.y + 1
      m_block_table_size := wrapSize (wrap32
        ((Int.tdiv (v.rows - 1) v.m_block_size.y + 1) *
          (Int.tdiv (v.cols - 1) v.m_block_size.x + 1)))
      m_block_table := List.replicate (wrapSize (wrap32
        ((Int.tdiv (v.rows - 1) v.m_block_size.y + 1) *
          (Int.tdiv (v.cols - 1) v.m_block_size.x + 1)))).toNat default } :
      BlockRasterizeView α) = v0 at h
  have e1 : v0.m_child = v.m_child := by rw [← hv0]
  have e2 : v0.m_block_size = v.m_block_size := by rw [← hv0]
  have e3 : v0.m_num_threads = v.m_num_threads := by rw [← hv0]
  have e4 : v0.m_cache_ptr = v.m_cache_ptr := by rw [← hv0]
  have e5 : v0.m_table_width = Int.tdiv (v.cols - 1) v.m_block_size.x + 1 := by rw [← hv0]
  have e6 : v0.m_table_height = Int.tdiv (v.rows - 1) v.m_block_size.y + 1 := by rw [← hv0]
  have e7 : v0.m_block_table_size = wrap32 (v0.m_table_height * v0.m_table_width) := by
    rw [e5, e6, ← hS, ← hv0]
  have e8 : v0.m_block_table.length = v0.m_block_table_size.toNat := by
    rw [← hv0]
    simp only [List.length_replicate]
  have hth : (Int.tdiv (v.rows - 1) v.m_block_size.y + 1).toNat = v0.m_table_height.toNat := by
    rw [e6]
  rw [hth] at h
  obtain ⟨⟨h1, h2, h3, h4, h5, h6, h7⟩, h8⟩ := initRows_members cache _ 0 v0 v0 v'
    ⟨⟨rfl, rfl, rfl, rfl, rfl, rfl, rfl⟩, rfl⟩ h
  have hsize0 : 0 ≤ v0.m_block_table_size ∧ v0.m_block_table_size ≤ 2147483647 := by
    rw [e7, e6, e5]
    exact ⟨hP0, hP1⟩
  refine ⟨⟨hx, hy⟩, ⟨h1.trans e1, h2.trans e2, h3.trans e3, h4.trans e4⟩, h5.trans e5,
    h6.trans e6, ?_, ?_, ?_, ?_⟩
  · rw [h7, h6, h5]; exact e7
  · rw [h7]; exact hsize0
  · rw [h8, h7]; exact e8
  · intro hw hh
    rw [h5] at hw
    rw [h6] at hh
    have hslots := initLoops_slots cache v0 v' hw hh h
    rw [h7, h6, h5]
    rw [e8, Int.toNat_of_nonneg hsize0.1] at hslots
    have hpos : 1 ≤ v0.m_table_height * v0.m_table_width := by
      have := Int.mul_le_mul hh hw (by omega) (by omega)
      omega
    rw [e7] at hslots ⊢
    rw [e7] at hsize0
    generalize v0.m_table_height * v0.m_table_width = n at *
    have : wrap32 n = n := by
      apply wrap32_of_fits <;> omega
    exact this

/-- The second half of `initialize()` with a cache, over an image with a pixel,
with a positive block size and a number of blocks in the `int32` range: it
throws nothing and leaves a full table. -/
theorem initTable_some (cache : Cache) (v : BlockRasterizeView α)
    (hc : v.m_cache_ptr = some cache) (hcols : 1 ≤ v.cols) (hrows : 1 ≤ v.rows)
    (hx : 1 ≤ v.m_block_size.x) (hy : 1 ≤ v.m_block_size.y)
    (hfit : (Int.tdiv (v.rows - 1) v.m_block_size.y + 1) *
      (Int.tdiv (v.cols - 1) v.m_block_size.x + 1) ≤ 2147483647) :
    ∃ v', initTable v = .ok v' ∧ v'.m_child = v.m_child ∧
      v'.m_block_size = v.m_block_size ∧ v'.m_num_threads = v.m_num_threads ∧
      v'.m_cache_ptr = v.m_cache_ptr ∧ Built cache v' := by
  have hqx : 0 ≤ Int.tdiv (v.cols - 1) v.m_block_size.x := tdiv_nonneg (by omega) (by omega)
  have hqy : 0 ≤ Int.tdiv (v.rows - 1) v.m_block_size.y := tdiv_nonneg (by omega) (by omega)
  have hn0 : 0 ≤ (Int.tdiv (v.rows - 1) v.m_block_size.y + 1) *
      (Int.tdiv (v.cols - 1) v.m_block_size.x + 1) := Int.mul_nonneg (by omega) (by omega)
  obtain ⟨hS, halloc⟩ := tableSize_of_fits hn0 hfit
  obtain ⟨v', hf, hsame, hlen, hfill⟩ := initLoops_spec cache
    { v with
      m_table_width := Int.tdiv (v.cols - 1) v.m_block_size.x + 1
      m_table_height := Int.tdiv (v.rows - 1) v.m_block_size.y + 1
      m_block_table_size := wrapSize (wrap32 ((Int.tdiv (v.rows - 1) v.m_block_size.y + 1) *
        (Int.tdiv (v.cols - 1) v.m_block_size.x + 1)))
      m_block_table := List.replicate (wrapSize (wrap32
        ((Int.tdiv (v.rows - 1) v.m_block_size.y + 1) *
        (Int.tdiv (v.cols - 1) v.m_block_size.x + 1)))).toNat default }
    (by simp only [List.length_replicate, hS]) (by simp only; omega) (by simp only; omega)
  obtain ⟨hch, hbs, hnt, hcp, htw, hth, hsz⟩ := hsame
  simp only at hch hbs hnt hcp htw hth hsz hlen hfill
  refine ⟨v', ?_, hch, hbs, hnt, hcp, ?_⟩
  · rw [initTable_eq cache v hc (by omega) (by omega) halloc]
    exact hf
  · refine ⟨?_, ?_, ?_, ?_, ?_⟩
    · rw [htw]; simp only [cols, hch, hbs]
    · rw [hth]; simp only [rows, hch, hbs]
    · rw [hsz, htw, hth, hS]
    · rw [hlen, hsz]; simp
    · intro ix iy hx0 hx1 hy0 hy1
      rw [htw] at hx1 ⊢
      rw [hth] at hy1
      have hb : v'.blockBBox ix iy = v.blockBBox ix iy := by
        simp only [blockBBox, cols, rows, hch, hbs]
      rw [hch, hb]
      have := flat_lt hx0 hx1 hy0 hy1
      exact hfill ix iy hx0 hx1 hy0 hy1 this.2

/-- What the second half of `initialize()` returns with a cache over an image
with a pixel and with a positive block size: the number of blocks is in the
`int32` range and the table is full. -/
theorem initTable_built (cache : Cache) (v v' : BlockRasterizeView α)
    (hc : v.m_cache_ptr = some cache) (hcols : 1 ≤ v.cols) (hrows : 1 ≤ v.rows)
    (hx : 1 ≤ v.m_block_size.x) (hy : 1 ≤ v.m_block_size.y) (h : initTable v = .ok v') :
    (Int.tdiv (v.rows - 1) v.m_block_size.y + 1) *
      (Int.tdiv (v.cols - 1) v.m_block_size.x + 1) ≤ 2147483647 ∧
    v'.m_child = v.m_child ∧ v'.m_block_size = v.m_block_size ∧
    v'.m_num_threads = v.m_num_threads ∧ v'.m_cache_ptr = v.m_cache_ptr ∧ Built cache v' := by
  have hqx : 0 ≤ Int.tdiv (v.cols - 1) v.m_block_size.x := tdiv_nonneg (by omega) (by omega)
  have hqy : 0 ≤ Int.tdiv (v.rows - 1) v.m_block_size.y := tdiv_nonneg (by omega) (by omega)
  obtain ⟨-, -, htw, hth, -, hsize, -, hprod⟩ := initTable_core cache v v' hc h
  have hfit : (Int.tdiv (v.rows - 1) v.m_block_size.y + 1) *
      (Int.tdiv (v.cols - 1) v.m_block_size.x + 1) ≤ 2147483647 := by
    have := hprod (by omega) (by omega)
    rw [htw, hth] at this
    omega
  obtain ⟨v'', hv'', g⟩ := initTable_some cache v hc hcols hrows hx hy hfit
  rw [h] at hv''
  obtain rfl := Except.ok.inj hv''
  exact ⟨hfit, g⟩

/-- What the constructor returns over an image with a pixel: the child, thread
count and cache it was given, a positive block size, and with a cache the full
block table, without one no table. -/
theorem new_spec (sz : Int) (child : View α) (bs : Vector2i) (nt : Int)
    (cache : Option Cache) (v : BlockRasterizeView α) (hcols : 1 ≤ child.cols)
    (hrows : 1 ≤ child.rows) (h : BlockRasterizeView.new sz child bs nt cache = .ok v) :
    v.m_child = child ∧ v.m_num_threads = nt ∧ v.m_cache_ptr = cache ∧
    1 ≤ v.m_block_size.x ∧ 1 ≤ v.m_block_size.y ∧
    (1 ≤ bs.x → 1 ≤ bs.y → v.m_block_size = bs) ∧
    (∀ c, cache = some c → Built c v) ∧
    (cache = none → v.m_table_width = 0 ∧ v.m_table_height = 0 ∧
      v.m_block_table_size = 0 ∧ v.m_block_table = []) := by
  unfold BlockRasterizeView.new init at h
  cases h1 : initBlockSize sz ⟨child, bs, nt, cache, 0, 0, 0, []⟩ with
  | error e => rw [h1] at h; exact absurd h (by simp)
  | ok v1 =>
    rw [h1] at h
    simp only at h
    obtain ⟨⟨hch, hnt, hcp, htw, hth, hsz, htb⟩, hpos⟩ := initBlockSize_spec sz _ v1 h1
    simp only at hch hnt hcp htw hth hsz htb
    obtain ⟨hbx, hby⟩ := hpos hcols hrows
    have hbs : 1 ≤ bs.x → 1 ≤ bs.y → v1.m_block_size = bs := by
      intro hx hy
      have := initBlockSize_of_pos sz (⟨child, bs, nt, cache, 0, 0, 0, []⟩ :
        BlockRasterizeView α) (by simp only; omega) (by simp only; omega)
      rw [h1] at this
      rw [Except.ok.inj this]
    cases hcache : cache with
    | none =>
      have := initTable_none v1 (by rw [hcp, hcache])
      rw [h] at this
      obtain rfl := Except.ok.inj this
      exact ⟨hch, hnt, by rw [hcp, hcache], hbx, hby, hbs, fun c hc => by simp at hc,
        fun _ => ⟨htw, hth, hsz, htb⟩⟩
    | some c =>
      obtain ⟨-, hch', hbs', hnt', hcp', hbuilt⟩ := initTable_built c v1 v
        (by rw [hcp, hcache]) (by simp only [cols, hch]; exact hcols)
        (by simp only [rows, hch]; exact hrows) hbx hby h
      refine ⟨hch'.trans hch, hnt'.trans hnt, by rw [hcp', hcp, hcache], by rw [hbs']; exact hbx,
        by rw [hbs']; exact hby, fun hx hy => by rw [hbs']; exact hbs hx hy, ?_,
        fun hc => by simp at hc⟩
      intro c' hc'
      obtain rfl := Option.some.inj hc'
      exact hbuilt

/-- The constructor throws nothing over an image with a pixel when the block
size is positive and, with a cache, the number of blocks is in the `int32`
range. -/
theorem new_ok_of_pos (sz : Int) (child : View α) (bs : Vector2i) (nt : Int)
    (cache : Option Cache) (hcols : 1 ≤ child.cols) (hrows : 1 ≤ child.rows)
    (hx : 1 ≤ bs.x) (hy : 1 ≤ bs.y)
    (hfit : cache ≠ none → (Int.tdiv (child.rows - 1) bs.y + 1) *
      (Int.tdiv (child.cols - 1) bs.x + 1) ≤ 2147483647) :
    ∃ v, BlockRasterizeView.new sz child bs nt cache = .ok v := by
  unfold BlockRasterizeView.new init
  rw [initBlockSize_of_pos sz _ (by simp only; omega) (by simp only; omega)]
  simp only
  cases hcache : cache with
  | none => exact ⟨_, initTable_none _ rfl⟩
  | some c =>
    obtain ⟨v', hv', -⟩ := initTable_some c (⟨child, bs, nt, some c, 0, 0, 0, []⟩ :
      BlockRasterizeView α) rfl hcols hrows hx hy (hfit (by rw [hcache]; simp))
    exact ⟨v', hv'⟩

/-- The constructor with a cache returns over an image with a pixel and with a
positive block size only when the number of blocks is in the `int32` range. -/
theorem new_fits (sz : Int) (child : View α) (bs : Vector2i) (nt : Int)
    (cache : Cache) (v : BlockRasterizeView α) (hcols : 1 ≤ child.cols)
    (hrows : 1 ≤ child.rows) (hx : 1 ≤ bs.x) (hy : 1 ≤ bs.y)
    (h : BlockRasterizeView.new sz child bs nt (some cache) = .ok v) :
    (Int.tdiv (child.rows - 1) bs.y + 1) * (Int.tdiv (child.cols - 1) bs.x + 1) ≤
      2147483647 := by
  unfold BlockRasterizeView.new init at h
  rw [initBlockSize_of_pos sz _ (by simp only; omega) (by simp only; omega)] at h
  simp only at h
  exact (initTable_built cache (⟨child, bs, nt, some cache, 0, 0, 0, []⟩ :
    BlockRasterizeView α) v rfl hcols hrows hx hy h).1

/-- What the second half of `initialize()` returns, whatever the extents: with a
cache the table has `m_block_table_size` slots, and when there is a block at all
that is the product of the table extents. -/
theorem initTable_shape (v v' : BlockRasterizeView α) (h : initTable v = .ok v') :
    v'.m_child = v.m_child ∧ v'.m_block_size = v.m_block_size ∧
    v'.m_num_threads = v.m_num_threads ∧ v'.m_cache_ptr = v.m_cache_ptr ∧
    (v.m_cache_ptr = none → v' = v) ∧
    (v.m_cache_ptr ≠ none →
      (1 ≤ v'.m_table_width → 1 ≤ v'.m_table_height →
        v'.m_block_table_size = v'.m_table_height * v'.m_table_width) ∧
      v'.m_block_table.length = v'.m_block_table_size.toNat) := by
  cases hc : v.m_cache_ptr with
  | none =>
    rw [initTable_none v hc] at h
    obtain rfl := Except.ok.inj h
    exact ⟨rfl, rfl, rfl, hc, fun _ => rfl, fun hn => absurd rfl hn⟩
  | some c =>
    obtain ⟨-, ⟨h1, h2, h3, h4⟩, -, -, -, -, hlen, hprod⟩ := initTable_core c v v' hc h
    exact ⟨h1, h2, h3, h4.trans hc, fun hn => by simp at hn, fun _ => ⟨hprod, hlen⟩⟩

/-- What the constructor returns, whatever the image and the block size: the
child, thread count and cache it was given, no table without a cache, and with
a cache a table of `m_block_table_size` slots, the product of the table extents
when there is a block at all. -/
theorem new_shape (sz : Int) (child : View α) (bs : Vector2i) (nt : Int)
    (cache : Option Cache) (v : BlockRasterizeView α)
    (h : BlockRasterizeView.new sz child bs nt cache = .ok v) :
    v.m_child = child ∧ v.m_num_threads = nt ∧ v.m_cache_ptr = cache ∧
    (cache = none → v.m_table_width = 0 ∧ v.m_table_height = 0 ∧
      v.m_block_table_size = 0 ∧ v.m_block_table = []) ∧
    (cache ≠ none →
      (1 ≤ v.m_table_width → 1 ≤ v.m_table_height →
        v.m_block_table_size = v.m_table_height * v.m_table_width) ∧
      v.m_block_table.length = v.m_block_table_size.toNat) := by
  unfold BlockRasterizeView.new init at h
  cases h1 : initBlockSize sz ⟨child, bs, nt, cache, 0, 0, 0, []⟩ with
  | error e => rw [h1] at h; exact absurd h (by simp)
  | ok v1 =>
    rw [h1] at h
    simp only at h
    obtain ⟨⟨hch, hnt, hcp, htw, hth, hsz, htb⟩, -⟩ := initBlockSize_spec sz _ v1 h1
    simp only at hch hnt hcp htw hth hsz htb
    obtain ⟨g1, -, g3, g4, g5, g6⟩ := initTable_shape v1 v h
    refine ⟨g1.trans hch, g3.trans hnt, g4.trans hcp, ?_, ?_⟩
    · intro hn
      have := g5 (by rw [hcp, hn])
      subst this
      exact ⟨htw, hth, hsz, htb⟩
    · intro hn
      exact g6 (by rw [hcp]; exact hn)

/-- The table of a 65536 × 32768 image with 1 × 1 blocks has 2^31 blocks, a
negative `int`: the allocation throws. -/
theorem table_size_negative_throws :
    BlockRasterizeView.new 1 Example.large ⟨1, 1⟩ 0 (some vw_system_cache) =
      .error .BadAlloc :=
  rfl

/-- The table of a 65536 × 65536 image with 1 × 1 blocks has 2^32 blocks, zero
as an `int`: the table is allocated without a slot and the first assignment is
outside it. -/
theorem table_size_zero_faults :
    BlockRasterizeView.new 1 Example.huge ⟨1, 1⟩ 0 (some vw_system_cache) =
      .error .MemoryFault :=
  rfl

end Init

section Blocks

variable {α : Type}

open BlockRasterizeView

/-- In a built view `block( ix, iy )` throws nothing inside the table and
returns the handle of the generator of block `(ix, iy)`. -/
theorem block_of_built (cache : Cache) (v : BlockRasterizeView α) (hb : Built cache v)
    (ix iy : Int) (hx0 : 0 ≤ ix) (hx : ix < v.m_table_width) (hy0 : 0 ≤ iy)
    (hy : iy < v.m_table_height) :
    v.block ix iy = .ok (cache.insert ⟨v.m_child, v.blockBBox ix iy⟩) := by
  unfold block
  have hnot : ¬ v.outOfTable ix iy := by unfold outOfTable; omega
  rw [if_neg hnot, List.getD_eq_getElem?_getD, hb.2.2.2.2 ix iy hx0 hx hy0 hy]
  rfl

/-- The bounds of block `(ix, iy)`, for non-negative indices and a positive
block size. -/
theorem blockBBox_eq (v : BlockRasterizeView α) (ix iy : Int) (hx0 : 0 ≤ ix) (hy0 : 0 ≤ iy)
    (hbx : 1 ≤ v.m_block_size.x) (hby : 1 ≤ v.m_block_size.y) :
    v.blockBBox ix iy =
      ⟨⟨ix * v.m_block_size.x, iy * v.m_block_size.y⟩,
       ⟨min ((ix + 1) * v.m_block_size.x) v.cols, min ((iy + 1) * v.m_block_size.y) v.rows⟩⟩ := by
  have h1 : 0 ≤ ix * v.m_block_size.x := Int.mul_nonneg hx0 (by omega)
  have h2 : 0 ≤ iy * v.m_block_size.y := Int.mul_nonneg hy0 (by omega)
  have e1 : (ix + 1) * v.m_block_size.x = ix * v.m_block_size.x + v.m_block_size.x := by ring
  have e2 : (iy + 1) * v.m_block_size.y = iy * v.m_block_size.y + v.m_block_size.y := by ring
  simp only [blockBBox, BBox2i.crop, BBox2i.ofSize, zero_add, e1, e2]
  rw [if_neg (by omega), if_neg (by omega)]
  congr 2
  · split_ifs with h
    · rw [min_eq_right (by omega)]
    · rw [min_eq_left (by omega)]
  · split_ifs with h
    · rw [min_eq_right (by omega)]
    · rw [min_eq_left (by omega)]

/-- A pixel of the image lies in block `(ix, iy)` exactly when `(ix, iy)` is the
pair of quotients of its coordinates by the block size. -/
theorem blockBBox_contains_iff (v : BlockRasterizeView α) (ix iy x y : Int) (hx0 : 0 ≤ ix)
    (hy0 : 0 ≤ iy) (hbx : 1 ≤ v.m_block_size.x) (hby : 1 ≤ v.m_block_size.y)
    (hx : 0 ≤ x ∧ x < v.cols) (hy : 0 ≤ y ∧ y < v.rows) :
    (v.blockBBox ix iy).contains x y ↔
      Int.tdiv x v.m_block_size.x = ix ∧ Int.tdiv y v.m_block_size.y = iy := by
  rw [blockBBox_eq v ix iy hx0 hy0 hbx hby, tdiv_eq_iff hx.1 (by omega),
    tdiv_eq_iff hy.1 (by omega)]
  simp only [BBox2i.contains, lt_min_iff]
  constructor
  · rintro ⟨h1, ⟨h2, -⟩, h3, h4, -⟩
    exact ⟨⟨h1, h2⟩, h3, h4⟩
  · rintro ⟨⟨h1, h2⟩, h3, h4⟩
    exact ⟨h1, ⟨h2, hx.2⟩, h3, h4, hy.2⟩

/-- The block of a pixel of the image is inside the table. -/
theorem tdiv_in_table {n b x : Int} (hb : 1 ≤ b) (hx : 0 ≤ x ∧ x < n) :
    0 ≤ Int.tdiv x b ∧ Int.tdiv x b < Int.tdiv (n - 1) b + 1 := by
  refine ⟨tdiv_nonneg hx.1 (by omega), ?_⟩
  rw [lt_table_iff (by omega) (by omega)]
  have := ((tdiv_eq_iff hx.1 (show 0 < b by omega)).1 rfl).1
  omega

/-- A generator over a box with non-negative extents yields a buffer of the
extents of the box that holds the child's pixels of the box. -/
theorem generate_spec [Inhabited α] (g : BlockGenerator α) (hw : 0 ≤ g.m_bbox.width)
    (hh : 0 ≤ g.m_bbox.height) :
    ∃ img, g.generate = .ok img ∧ img.cols = g.m_bbox.width ∧ img.rows = g.m_bbox.height ∧
      img.planes = g.m_child.planes ∧
      ∀ c r p, 0 ≤ c → c < g.m_bbox.width → 0 ≤ r → r < g.m_bbox.height → 0 ≤ p →
        p < (tripCount g.m_child.planes : Int) →
        img.pix c r p = g.m_child.pix (g.m_bbox.min.x + c) (g.m_bbox.min.y + r) p := by
  have key := rasterize_ok (id : α → α) g.m_child
    (DestView.whole (ImageView.alloc g.m_bbox.width g.m_bbox.height g.m_child.planes : View α))
    g.m_bbox ⟨ImageView.alloc g.m_bbox.width g.m_bbox.height g.m_child.planes, []⟩ hw hh
    ⟨rfl, rfl, rfl⟩
  obtain ⟨hok, hpix, -, -⟩ := key
  have hext := planeLoop_extents (id : α → α) g.m_child g.m_bbox.width g.m_bbox.height
    (tripCount g.m_child.planes) (g.m_child.origin.advance g.m_bbox.min.x g.m_bbox.min.y)
    (DestView.whole (ImageView.alloc g.m_bbox.width g.m_bbox.height g.m_child.planes :
      View α)).origin
    ⟨ImageView.alloc g.m_bbox.width g.m_bbox.height g.m_child.planes, []⟩
  refine ⟨(rasterize (id : α → α) g.m_child
    (DestView.whole (ImageView.alloc g.m_bbox.width g.m_bbox.height g.m_child.planes : View α))
    g.m_bbox ⟨ImageView.alloc g.m_bbox.width g.m_bbox.height g.m_child.planes, []⟩).2.img,
    ?_, ?_, ?_, ?_, ?_⟩
  · unfold BlockGenerator.generate View.rasterize
    dsimp only
    split
    · rename_i heq
      rw [heq]
    · rename_i e m heq
      rw [heq] at hok
      exact absurd hok (by simp)
  · unfold rasterize; rw [if_pos ⟨rfl, rfl, rfl⟩]; exact hext.1
  · unfold rasterize; rw [if_pos ⟨rfl, rfl, rfl⟩]; exact hext.2.1
  · unfold rasterize; rw [if_pos ⟨rfl, rfl, rfl⟩]; exact hext.2.2
  · intro c r p hc0 hc1 hr0 hr1 hp0 hp1
    have := hpix c r p hc0 hc1 hr0 hr1 hp0 hp1
    simpa [DestView.pix, DestView.whole] using this

end Blocks

section Claims

variable {α β : Type}

open BlockRasterizeView

/-- C4: for every source view, every bounding box with non-negative width and
height and every destination whose extents are `(bbox.width, bbox.height,
src.planes)`, the default `vw::rasterize` returns without an exception and leaves
`dest(c, r, p)` equal to the conversion of `src(bbox.min.x + c, bbox.min.y + r, p)`
for every `0 ≤ c < width`, `0 ≤ r < height`, `0 ≤ p < planes`; the pixel stores it
makes are the destination pixels in scan order (planes outermost, then rows,
then columns), each destination pixel is among them, and none is stored twice. -/
theorem rasterize_default_fills_bbox (conv : α → β) (src : View α) (dest : DestView)
    (bbox : BBox2i) (m : Dest β) (hw : 0 ≤ bbox.width) (hh : 0 ≤ bbox.height)
    (hext : dest.cols = bbox.width ∧ dest.rows = bbox.height ∧ dest.planes = src.planes) :
    (rasterize conv src dest bbox m).1 = .ok () ∧
    (∀ c r p, 0 ≤ c → c < bbox.width → 0 ≤ r → r < bbox.height → 0 ≤ p → p < src.planes →
      dest.pix (rasterize conv src dest bbox m).2.img c r p =
        conv (src.pix (bbox.min.x + c) (bbox.min.y + r) p)) ∧
    (rasterize conv src dest bbox m).2.stores =
      m.stores ++ rasterOrder dest (tripCount src.planes) bbox.height.toNat bbox.width.toNat ∧
    (∀ c r p, 0 ≤ c → c < bbox.width → 0 ≤ r → r < bbox.height → 0 ≤ p → p < src.planes →
      (dest.ci + c, dest.cj + r, p) ∈
        rasterOrder dest (tripCount src.planes) bbox.height.toNat bbox.width.toNat) ∧
    (rasterOrder dest (tripCount src.planes) bbox.height.toNat bbox.width.toNat).Nodup := by
  obtain ⟨h1, h2, h3, -⟩ := rasterize_ok conv src dest bbox m hw hh hext
  refine ⟨h1, fun c r p hc0 hc1 hr0 hr1 hp0 hp1 => h2 c r p hc0 hc1 hr0 hr1 hp0
    (by rw [tripCount_of_nonneg (by omega)]; exact hp1), h3, ?_, rasterOrder_nodup _ _ _ _⟩
  intro c r p hc0 hc1 hr0 hr1 hp0 hp1
  rw [mem_rasterOrder]
  have hP : ((tripCount src.planes : Nat) : Int) = src.planes := tripCount_of_nonneg (by omega)
  have hW := Int.toNat_of_nonneg hw
  have hH := Int.toNat_of_nonneg hh
  simp only
  omega

theorem rasterize_default_fills_bbox_witness :
    (0 ≤ Example.box.width ∧ 0 ≤ Example.box.height) ∧
    (rasterize id Example.child (DestView.whole Example.dest.img) Example.box Example.dest).1
      = .ok () ∧
    (DestView.whole Example.dest.img).pix
      (rasterize id Example.child (DestView.whole Example.dest.img) Example.box
        Example.dest).2.img 1 0 1 = 112 :=
  have h := rasterize_default_fills_bbox id Example.child (DestView.whole Example.dest.img)
    Example.box Example.dest (by decide) (by decide) (by decide)
  ⟨⟨by decide, by decide⟩, h.1,
    h.2.1 1 0 1 (by decide) (by decide) (by decide) (by decide) (by decide) (by decide)⟩

/-- C8: the default `vw::rasterize` raises an argument error if and only if
`dest.cols ≠ bbox.width` or `dest.rows ≠ bbox.height` or `dest.planes ≠ src.planes`,
it raises no other exception, and when it raises the destination memory is as
it was: no pixel has been stored. -/
theorem rasterize_default_argument_error (conv : α → β) (src : View α) (dest : DestView)
    (bbox : BBox2i) (m : Dest β) :
    ((rasterize conv src dest bbox m).1 = .error .ArgumentErr ↔
      (dest.cols ≠ bbox.width ∨ dest.rows ≠ bbox.height ∨ dest.planes ≠ src.planes)) ∧
    ((rasterize conv src dest bbox m).1 ≠ .ok () →
      (rasterize conv src dest bbox m).1 = .error .ArgumentErr ∧
      (rasterize conv src dest bbox m).2 = m) := by
  unfold rasterize
  by_cases h : dest.cols = bbox.width ∧ dest.rows = bbox.height ∧ dest.planes = src.planes
  · rw [if_pos h]
    refine ⟨⟨fun h' => by simp at h', fun h' => ?_⟩, fun h' => absurd rfl h'⟩
    omega
  · rw [if_neg h]
    refine ⟨⟨fun _ => ?_, fun _ => rfl⟩, fun _ => ⟨rfl, rfl⟩⟩
    by_contra hc
    push_neg at hc
    exact h hc

end Claims

section ClaimsTable

variable {α β : Type}

open BlockRasterizeView

/-- The number of blocks along one axis is the ceiling of the quotient of the
image extent by the block extent. -/
theorem table_extent_eq_ceil {n b : Int} (hn : 1 ≤ n) (hb : 1 ≤ b) :
    Int.tdiv (n - 1) b + 1 = ⌈(n : ℚ) / (b : ℚ)⌉ := by
  symm
  rw [Int.ceil_eq_iff]
  have hbq : (0 : ℚ) < (b : ℚ) := by exact_mod_cast (show (0 : Int) < b by omega)
  obtain ⟨h1, h2⟩ := (tdiv_eq_iff (show 0 ≤ n - 1 by omega) (show 0 < b by omega)).1 rfl
  constructor
  · rw [lt_div_iff₀ hbq]
    have h3 : Int.tdiv (n - 1) b * b < n := by omega
    have h4 : ((Int.tdiv (n - 1) b * b : Int) : ℚ) < (n : ℚ) := by exact_mod_cast h3
    push_cast at h4 ⊢
    linarith
  · rw [div_le_iff₀ hbq]
    have h3 : n ≤ (Int.tdiv (n - 1) b + 1) * b := by omega
    have h4 : (n : ℚ) ≤ (((Int.tdiv (n - 1) b + 1) * b : Int) : ℚ) := by exact_mod_cast h3
    push_cast at h4 ⊢
    linarith

/-- C5: for every image with `cols ≥ 1` and `rows ≥ 1` and every block size with
`bw, bh ≥ 1`, the block table of every view that the constructor with a cache
returns has `table_width = (cols-1)/bw + 1 = ⌈cols/bw⌉`,
`table_height = (rows-1)/bh + 1 = ⌈rows/bh⌉` and `table_width * table_height`
slots, which is also the value of `m_block_table_size`; the constructor returns
such a view when the number of blocks `⌈cols/bw⌉ * ⌈rows/bh⌉` is in the `int32`
range; for a 1000 × 800 image with 256 × 256 blocks it returns, and the table is
a 4 × 4 grid of 16 blocks whose last column is 232 pixels wide and whose last
row is 32 pixels high. -/
theorem block_table_extents (sz : Int) (child : View α) (bw bh nt : Int) (cache : Cache)
    (hcols : 1 ≤ child.cols) (hrows : 1 ≤ child.rows) (hbw : 1 ≤ bw) (hbh : 1 ≤ bh) :
    (⌈(child.cols : ℚ) / (bw : ℚ)⌉ * ⌈(child.rows : ℚ) / (bh : ℚ)⌉ ≤ 2147483647 →
      ∃ v, BlockRasterizeView.new sz child ⟨bw, bh⟩ nt (some cache) = .ok v) ∧
    (child.cols = 1000 → child.rows = 800 → bw = 256 → bh = 256 →
      ∃ v, BlockRasterizeView.new sz child ⟨bw, bh⟩ nt (some cache) = .ok v) ∧
    ∀ v, BlockRasterizeView.new sz child ⟨bw, bh⟩ nt (some cache) = .ok v →
      v.m_table_width = Int.tdiv (child.cols - 1) bw + 1 ∧
      v.m_table_width = ⌈(child.cols : ℚ) / (bw : ℚ)⌉ ∧
      v.m_table_height = Int.tdiv (child.rows - 1) bh + 1 ∧
      v.m_table_height = ⌈(child.rows : ℚ) / (bh : ℚ)⌉ ∧
      v.m_block_table_size = v.m_table_width * v.m_table_height ∧
      (v.m_block_table.length : Int) = v.m_table_width * v.m_table_height ∧
      (child.cols = 1000 → child.rows = 800 → bw = 256 → bh = 256 →
        v.m_table_width = 4 ∧ v.m_table_height = 4 ∧ v.m_block_table.length = 16 ∧
        (∀ iy, 0 ≤ iy → iy < 4 → ∃ g : BlockGenerator α,
          v.block 3 iy = .ok ⟨some g⟩ ∧ g.m_bbox.width = 232) ∧
        (∀ ix, 0 ≤ ix → ix < 4 → ∃ g : BlockGenerator α,
          v.block ix 3 = .ok ⟨some g⟩ ∧ g.m_bbox.height = 32)) := by
  have hret : (Int.tdiv (child.rows - 1) bh + 1) * (Int.tdiv (child.cols - 1) bw + 1) ≤
        2147483647 →
      ∃ v, BlockRasterizeView.new sz child ⟨bw, bh⟩ nt (some cache) = .ok v :=
    fun hfit => new_ok_of_pos sz child ⟨bw, bh⟩ nt (some cache) hcols hrows hbw hbh
      (fun _ => hfit)
  refine ⟨?_, ?_, ?_⟩
  · intro hfit
    rw [← table_extent_eq_ceil hcols hbw, ← table_extent_eq_ceil hrows hbh, mul_comm] at hfit
    exact hret hfit
  · intro hc hr hb1 hb2
    subst hb1 hb2
    apply hret
    rw [hc, hr]
    decide
  intro v hv
  obtain ⟨hch, -, -, -, -, hbs, hbuilt, -⟩ := new_spec sz child ⟨bw, bh⟩ nt (some cache) v
    hcols hrows hv
  have hbs := hbs hbw hbh
  have hbuilt := hbuilt cache rfl
  have hbx : v.m_block_size.x = bw := by rw [hbs]
  have hby : v.m_block_size.y = bh := by rw [hbs]
  have hvc : v.cols = child.cols := by simp only [cols, hch]
  have hvr : v.rows = child.rows := by simp only [rows, hch]
  have htw : v.m_table_width = Int.tdiv (child.cols - 1) bw + 1 := by
    rw [hbuilt.1, hvc, hbx]
  have hth : v.m_table_height = Int.tdiv (child.rows - 1) bh + 1 := by
    rw [hbuilt.2.1, hvr, hby]
  have hw0 : 0 ≤ v.m_table_width := by
    have := tdiv_nonneg (show 0 ≤ child.cols - 1 by omega) (show 0 < bw by omega)
    omega
  have hh0 : 0 ≤ v.m_table_height := by
    have := tdiv_nonneg (show 0 ≤ child.rows - 1 by omega) (show 0 < bh by omega)
    omega
  have hsize : v.m_block_table_size = v.m_table_width * v.m_table_height := by
    rw [hbuilt.2.2.1, mul_comm]
  have hlen : (v.m_block_table.length : Int) = v.m_table_width * v.m_table_height := by
    rw [hbuilt.2.2.2.1, hsize, Int.toNat_of_nonneg (Int.mul_nonneg hw0 hh0)]
  refine ⟨htw, ?_, hth, ?_, hsize, hlen, ?_⟩
  · rw [htw]; exact table_extent_eq_ceil hcols hbw
  · rw [hth]; exact table_extent_eq_ceil hrows hbh
  · intro hc hr hb1 hb2
    subst hb1 hb2
    rw [hc] at htw
    rw [hr] at hth
    have e1 : Int.tdiv (1000 - 1) 256 + 1 = 4 := by decide
    have e2 : Int.tdiv (800 - 1) 256 + 1 = 4 := by decide
    rw [e1] at htw
    rw [e2] at hth
    refine ⟨htw, hth, ?_, ?_, ?_⟩
    · rw [htw, hth] at hlen
      omega
    · intro iy hy0 hy1
      refine ⟨⟨v.m_child, v.blockBBox 3 iy⟩,
        block_of_built cache v hbuilt 3 iy (by omega) (by omega) hy0 (by omega), ?_⟩
      rw [blockBBox_eq v 3 iy (by omega) hy0 (by omega) (by omega)]
      simp only [BBox2i.width, hbx, hvc, hc]
      decide
    · intro ix hx0 hx1
      refine ⟨⟨v.m_child, v.blockBBox ix 3⟩,
        block_of_built cache v hbuilt ix 3 hx0 (by omega) (by omega) (by omega), ?_⟩
      rw [blockBBox_eq v ix 3 hx0 (by omega) (by omega) (by omega)]
      simp only [BBox2i.height, hby, hvr, hr]
      decide

theorem block_table_extents_witness :
    (1 ≤ Example.child.cols ∧ 1 ≤ Example.child.rows ∧ (1 : Int) ≤ 2) ∧
    BlockRasterizeView.new 1 Example.child ⟨2, 2⟩ 0 (some vw_system_cache) =
      .ok Example.cachedView ∧
    Example.cachedView.m_table_width = Int.tdiv (Example.child.cols - 1) 2 + 1 ∧
    Example.cachedView.m_table_height = Int.tdiv (Example.child.rows - 1) 2 + 1 ∧
    Example.cachedView.m_block_table_size =
      Example.cachedView.m_table_width * Example.cachedView.m_table_height ∧
    (Example.cachedView.m_block_table.length : Int) =
      Example.cachedView.m_table_width * Example.cachedView.m_table_height :=
  have h := (block_table_extents 1 Example.child 2 2 0 vw_system_cache (by decide)
    (by decide) (by decide) (by decide)).2.2 Example.cachedView rfl
  ⟨by decide, rfl, h.1, h.2.2.1, h.2.2.2.2.1, h.2.2.2.2.2.1⟩

/-- After a successful first half, the second half of `initialize()` succeeds
over an image with a pixel, when without a cache or with a number of blocks in
the `int32` range, and keeps the block size. -/
theorem initTable_ok (sz : Int) (v0 v1 : BlockRasterizeView α) (hcols : 1 ≤ v0.cols)
    (hrows : 1 ≤ v0.rows) (h1 : initBlockSize sz v0 = .ok v1)
    (hfit : v0.m_cache_ptr ≠ none →
      (Int.tdiv (v0.rows - 1) v1.m_block_size.y + 1) *
        (Int.tdiv (v0.cols - 1) v1.m_block_size.x + 1) ≤ 2147483647) :
    ∃ v, initTable v1 = .ok v ∧ v.m_block_size = v1.m_block_size := by
  obtain ⟨⟨hch, -, hcp, -, -, -, -⟩, hpos⟩ := initBlockSize_spec sz v0 v1 h1
  obtain ⟨hbx, hby⟩ := hpos hcols hrows
  cases hc : v1.m_cache_ptr with
  | none => exact ⟨v1, initTable_none v1 hc, rfl⟩
  | some c =>
    obtain ⟨v, hv, -, hbs, -⟩ := initTable_some c v1 hc
      (by simp only [cols, hch]; exact hcols) (by simp only [rows, hch]; exact hrows) hbx hby
      (by
        simp only [cols, rows, hch]
        exact hfit (by rw [← hcp, hc]; simp))
    exact ⟨v, hv, hbs⟩

/-- C6: for every image with `cols, rows, planes ≥ 1` whose row byte size
`cols * planes * sizeof(pixel)` fits a 32-bit signed integer, when the requested
block size is unset (a component `≤ 0`) the constructor returns (with a cache: for
a row count in the `int32` range) and in every view it returns it has set the
block width to `cols` and the block height to the largest `h` with
`1 ≤ h ≤ rows` and `h * cols * planes * sizeof(pixel) ≤ 2*1024*1024`, or to 1 when
one row already exceeds that budget; when both requested components are
positive the constructor returns (with a cache: for a number of blocks in the
`int32` range) and in every view it returns the block size is left as
requested. -/
theorem default_block_size (sz : Int) (child : View α) (bs : Vector2i) (nt : Int)
    (cache : Option Cache) (hcols : 1 ≤ child.cols) (hrows : 1 ≤ child.rows)
    (hplanes : 1 ≤ child.planes) (hsz : 1 ≤ sz)
    (hfit : child.cols * child.planes * sz ≤ 2147483647) :
    (bs.x ≤ 0 ∨ bs.y ≤ 0 →
      ((cache ≠ none → child.rows ≤ 2147483647) →
        ∃ v, BlockRasterizeView.new sz child bs nt cache = .ok v) ∧
      ∀ v, BlockRasterizeView.new sz child bs nt cache = .ok v →
        v.m_block_size.x = child.cols ∧
        (2 * 1024 * 1024 < child.cols * child.planes * sz → v.m_block_size.y = 1) ∧
        (child.cols * child.planes * sz ≤ 2 * 1024 * 1024 →
          (1 ≤ v.m_block_size.y ∧ v.m_block_size.y ≤ child.rows ∧
            v.m_block_size.y * (child.cols * child.planes * sz) ≤ 2 * 1024 * 1024) ∧
          ∀ h : Int, 1 ≤ h → h ≤ child.rows →
            h * (child.cols * child.planes * sz) ≤ 2 * 1024 * 1024 → h ≤ v.m_block_size.y)) ∧
    (1 ≤ bs.x → 1 ≤ bs.y →
      ((cache ≠ none → (Int.tdiv (child.rows - 1) bs.y + 1) *
          (Int.tdiv (child.cols - 1) bs.x + 1) ≤ 2147483647) →
        ∃ v, BlockRasterizeView.new sz child bs nt cache = .ok v) ∧
      ∀ v, BlockRasterizeView.new sz child bs nt cache = .ok v → v.m_block_size = bs) := by
  constructor
  · intro hunset
    have hpc : 1 ≤ child.planes * child.cols := by
      have := Int.mul_le_mul hplanes hcols (by omega) (by omega)
      omega
    have hrb : child.planes * child.cols ≤ child.planes * child.cols * sz := by
      have := Int.mul_le_mul (le_refl (child.planes * child.cols)) hsz (by omega) (by omega)
      omega
    have hcomm : child.cols * child.planes * sz = child.planes * child.cols * sz := by ring
    rw [hcomm] at hfit ⊢
    generalize hR : child.planes * child.cols * sz = R at *
    have hRpos : 1 ≤ R := by omega
    have hw : wrap32 (wrap32 (child.planes * child.cols) * sz) = R := by
      have e1 : wrap32 (child.planes * child.cols) = child.planes * child.cols :=
        wrap32_of_fits (by omega) (by omega)
      rw [e1, hR]
      exact wrap32_of_fits (by omega) hfit
    obtain ⟨hq1, hq2⟩ := (tdiv_eq_iff (show (0 : Int) ≤ 2 * 1024 * 1024 by decide)
      (show 0 < R by omega)).1 rfl
    have hq0 : 0 ≤ Int.tdiv (2 * 1024 * 1024) R :=
      tdiv_nonneg (by decide) (by omega)
    generalize hq : Int.tdiv (2 * 1024 * 1024) R = q at *
    have h1 : initBlockSize sz (⟨child, bs, nt, cache, 0, 0, 0, []⟩ : BlockRasterizeView α) =
        .ok ⟨child, ⟨child.cols, if q < 1 then 1 else if q > child.rows then child.rows else q⟩,
          nt, cache, 0, 0, 0, []⟩ := by
      unfold initBlockSize
      rw [if_pos hunset]
      simp only [planes, cols, rows, hw, idiv, if_neg (show ¬ R = 0 by omega), hq]
    have hy1 : 1 ≤ (if q < 1 then 1 else if q > child.rows then child.rows else q) := by
      split_ifs <;> omega
    refine ⟨fun hrows32 => ?_, fun v hnew => ?_⟩
    · obtain ⟨v, hv, -⟩ := initTable_ok sz
        (⟨child, bs, nt, cache, 0, 0, 0, []⟩ : BlockRasterizeView α) _ hcols hrows h1
        (fun hne => by
          simp only [cols, rows]
          have e1 : Int.tdiv (child.cols - 1) child.cols = 0 :=
            (tdiv_eq_iff (by omega) (by omega)).2 ⟨by omega, by omega⟩
          have e2 := tdiv_nonneg (show 0 ≤ child.rows - 1 by omega) (show 0 <
            (if q < 1 then 1 else if q > child.rows then child.rows else q) by omega)
          have e3 : Int.tdiv (child.rows - 1)
              (if q < 1 then 1 else if q > child.rows then child.rows else q) ≤
              child.rows - 1 := by
            rw [Int.tdiv_eq_ediv (by omega) (by omega)]
            exact Int.ediv_le_self _ (by omega)
          have := hrows32 hne
          rw [e1]
          omega)
      refine ⟨v, ?_⟩
      unfold BlockRasterizeView.new init
      rw [h1]
      exact hv
    have hinit : initTable (⟨child, ⟨child.cols,
        if q < 1 then 1 else if q > child.rows then child.rows else q⟩,
        nt, cache, 0, 0, 0, []⟩ : BlockRasterizeView α) = .ok v := by
      unfold BlockRasterizeView.new init at hnew
      rw [h1] at hnew
      exact hnew
    have hbs : v.m_block_size = ⟨child.cols,
        if q < 1 then 1 else if q > child.rows then child.rows else q⟩ :=
      (initTable_shape _ v hinit).2.1
    refine ⟨?_, ?_, ?_⟩
    · rw [hbs]
    · intro hbig
      rw [hbs]
      have hq' : q < 1 := by
        by_contra hcon
        have : 1 * R ≤ q * R := Int.mul_le_mul_of_nonneg_right (by omega) (by omega)
        omega
      simp only [if_pos hq']
    · intro hsmall
      have hq' : ¬ q < 1 := by
        intro hcon
        have : q = 0 := by omega
        subst this
        omega
      rw [hbs]
      simp only [if_neg hq']
      constructor
      · split_ifs with hgt
        · refine ⟨hrows, le_refl _, ?_⟩
          have : child.rows * R ≤ q * R := Int.mul_le_mul_of_nonneg_right (by omega) (by omega)
          omega
        · exact ⟨by omega, by omega, hq1⟩
      · intro h hh1 hh2 hh3
        split_ifs with hgt
        · exact hh2
        · by_contra hcon
          have : (q + 1) * R ≤ h * R := Int.mul_le_mul_of_nonneg_right (by omega) (by omega)
          omega
  · intro hx hy
    exact ⟨fun htable => new_ok_of_pos sz child bs nt cache hcols hrows hx hy htable,
      fun v hv => (new_spec sz child bs nt cache v hcols hrows hv).2.2.2.2.2.1 hx hy⟩

theorem default_block_size_witness :
    (1 ≤ Example.child.cols ∧ 1 ≤ Example.child.rows ∧ 1 ≤ Example.child.planes ∧
      Example.child.cols * Example.child.planes * 1 ≤ 2147483647 ∧ (0 : Int) ≤ 0) ∧
    BlockRasterizeView.new 1 Example.child ⟨0, 0⟩ 0 none =
      .ok ⟨Example.child, ⟨5, 3⟩, 0, none, 0, 0, 0, []⟩ ∧
    (⟨Example.child, ⟨5, 3⟩, 0, none, 0, 0, 0, []⟩ : BlockRasterizeView Int).m_block_size.x =
      Example.child.cols ∧
    ∀ h : Int, 1 ≤ h → h ≤ Example.child.rows →
      h * (Example.child.cols * Example.child.planes * 1) ≤ 2 * 1024 * 1024 →
      h ≤ (⟨Example.child, ⟨5, 3⟩, 0, none, 0, 0, 0, []⟩ :
        BlockRasterizeView Int).m_block_size.y :=
  have h := ((default_block_size 1 Example.child ⟨0, 0⟩ 0 none (by decide) (by decide)
    (by decide) (by decide) (by decide)).1 (Or.inl (by decide))).2
    ⟨Example.child, ⟨5, 3⟩, 0, none, 0, 0, 0, []⟩ rfl
  ⟨by decide, rfl, h.1, (h.2.2 (by decide)).2⟩

/-- C7: in every view that the constructor returns, for every pair of integers
`(ix, iy)`, `block( ix, iy )` raises an argument error if and only if `ix < 0` or
`ix ≥ table_width` or `iy < 0` or `iy ≥ table_height`; otherwise it returns the
table entry at the flat index `ix + iy * table_width`, which is a valid index of
the block table: `0 ≤ index < block_table_size`, the number of slots. -/
theorem block_lookup (sz : Int) (child : View α) (bs : Vector2i) (nt : Int)
    (cache : Option Cache) (v : BlockRasterizeView α)
    (hv : BlockRasterizeView.new sz child bs nt cache = .ok v) (ix iy : Int) :
    (v.block ix iy = .error .ArgumentErr ↔
      (ix < 0 ∨ ix ≥ v.m_table_width ∨ iy < 0 ∨ iy ≥ v.m_table_height)) ∧
    (¬ (ix < 0 ∨ ix ≥ v.m_table_width ∨ iy < 0 ∨ iy ≥ v.m_table_height) →
      (0 ≤ ix + iy * v.m_table_width ∧ ix + iy * v.m_table_width < v.m_block_table_size) ∧
      (ix + iy * v.m_table_width).toNat < v.m_block_table.length ∧
      ∃ h, v.m_block_table[(ix + iy * v.m_table_width).toNat]? = some h ∧
        v.block ix iy = .ok h) := by
  constructor
  · unfold block outOfTable
    split_ifs with h
    · exact ⟨fun _ => h, fun _ => rfl⟩
    · exact ⟨fun h' => by simp at h', fun h' => absurd h' h⟩
  · intro hin
    obtain ⟨-, -, hcp, hnone, hsome⟩ := new_shape sz child bs nt cache v hv
    have hc : cache ≠ none := by
      intro hn
      obtain ⟨h1, -⟩ := hnone hn
      omega
    obtain ⟨hsize, hlen⟩ := hsome hc
    have hsize := hsize (by omega) (by omega)
    have hflat := flat_lt (show 0 ≤ ix by omega) (show ix < v.m_table_width by omega)
      (show 0 ≤ iy by omega) (show iy < v.m_table_height by omega)
    have hidx : (ix + iy * v.m_table_width).toNat < v.m_block_table.length := by
      rw [hlen, hsize]
      omega
    refine ⟨⟨hflat.1, by rw [hsize]; exact hflat.2⟩, hidx, ?_⟩
    refine ⟨v.m_block_table[(ix + iy * v.m_table_width).toNat], List.getElem?_eq_getElem hidx, ?_⟩
    unfold block
    rw [if_neg (by unfold outOfTable; exact hin), List.getD_eq_getElem?_getD,
      List.getElem?_eq_getElem hidx]
    rfl

theorem block_lookup_witness :
    BlockRasterizeView.new 1 Example.child ⟨2, 2⟩ 0 (some vw_system_cache) =
      .ok Example.cachedView ∧
    Example.cachedView.block 2 1 = .ok (Example.handle 4 2 5 3) ∧
    (Example.cachedView.block 3 1 = .error .ArgumentErr ↔
      ((3 : Int) < 0 ∨ 3 ≥ Example.cachedView.m_table_width ∨ (1 : Int) < 0 ∨
        1 ≥ Example.cachedView.m_table_height)) :=
  ⟨rfl, rfl,
    (block_lookup 1 Example.child ⟨2, 2⟩ 0 (some vw_system_cache) Example.cachedView rfl 3 1).1⟩

end ClaimsTable

section Pixel

variable {α β : Type}

open BlockRasterizeView

/-- Two positive integers whose product is one are both one. -/
theorem mul_eq_one_of_pos {a b : Int} (ha : 1 ≤ a) (hb : 1 ≤ b) (h : a * b = 1) :
    a = 1 ∧ b = 1 := by
  have h1 : a ≤ a * b := by nlinarith
  have h2 : b ≤ a * b := by nlinarith
  omega

/-- The buffer of block `(ix, iy)`, a block that starts inside the image: the
handle yields it without an exception, it has the extents of the block, and
its pixel at the block-local position of a pixel of the block is the child's
pixel. -/
theorem block_buffer_spec [Inhabited α] (cache : Cache) (v : BlockRasterizeView α)
    (ix iy : Int) (hx0 : 0 ≤ ix) (hy0 : 0 ≤ iy) (hbx : 1 ≤ v.m_block_size.x)
    (hby : 1 ≤ v.m_block_size.y) (hx2 : ix * v.m_block_size.x < v.cols)
    (hy2 : iy * v.m_block_size.y < v.rows) :
    ∃ img, (cache.insert ⟨v.m_child, v.blockBBox ix iy⟩).deref = .ok img ∧
      img.cols = (v.blockBBox ix iy).width ∧ img.rows = (v.blockBBox ix iy).height ∧
      img.planes = v.m_child.planes ∧
      ∀ x y p, (v.blockBBox ix iy).contains x y → 0 ≤ p →
        p < (tripCount v.m_child.planes : Int) →
        img.pix (x - ix * v.m_block_size.x) (y - iy * v.m_block_size.y) p =
          v.m_child.pix x y p := by
  have heq := blockBBox_eq v ix iy hx0 hy0 hbx hby
  have e1 : (ix + 1) * v.m_block_size.x = ix * v.m_block_size.x + v.m_block_size.x := by ring
  have e2 : (iy + 1) * v.m_block_size.y = iy * v.m_block_size.y + v.m_block_size.y := by ring
  have hw : 0 ≤ (v.blockBBox ix iy).width := by
    rw [heq]; simp only [BBox2i.width, sub_nonneg, le_min_iff]; omega
  have hh : 0 ≤ (v.blockBBox ix iy).height := by
    rw [heq]; simp only [BBox2i.height, sub_nonneg, le_min_iff]; omega
  obtain ⟨img, hg, hc, hr, hp, hpix⟩ := generate_spec
    (⟨v.m_child, v.blockBBox ix iy⟩ : BlockGenerator α) hw hh
  refine ⟨img, hg, hc, hr, hp, ?_⟩
  intro x y p hcon hp0 hp1
  have hmx : (v.blockBBox ix iy).min.x = ix * v.m_block_size.x := by rw [heq]
  have hmy : (v.blockBBox ix iy).min.y = iy * v.m_block_size.y := by rw [heq]
  obtain ⟨c1, c2, c3, c4⟩ := hcon
  have := hpix (x - ix * v.m_block_size.x) (y - iy * v.m_block_size.y) p
    (by rw [hmx] at c1; omega) (by simp only [BBox2i.width]; omega)
    (by rw [hmy] at c3; omega) (by simp only [BBox2i.height]; omega) hp0 hp1
  rw [this]
  simp only [hmx, hmy]
  congr 1 <;> ring

/-- Single-pixel access in a built view, at a coordinate inside the image: the
block of the pixel is in the table, its buffer has the block-local coordinate
in bounds and holds the child's pixel there, and `operator()` returns it. -/
theorem operatorCall_built [Inhabited α] (cache : Cache) (v : BlockRasterizeView α)
    (hc : v.m_cache_ptr = some cache) (hb : Built cache v) (hbx : 1 ≤ v.m_block_size.x)
    (hby : 1 ≤ v.m_block_size.y) (x y p : Int) (hin : v.m_child.inBounds x y p) :
    v.operatorCall x y p = .ok (v.m_child.pix x y p) ∧
    ∃ h img, v.block (Int.tdiv x v.m_block_size.x) (Int.tdiv y v.m_block_size.y) = .ok h ∧
      h.deref = .ok img ∧
      img.inBounds (x - Int.tdiv x v.m_block_size.x * v.m_block_size.x)
        (y - Int.tdiv y v.m_block_size.y * v.m_block_size.y) p ∧
      img.pix (x - Int.tdiv x v.m_block_size.x * v.m_block_size.x)
        (y - Int.tdiv y v.m_block_size.y * v.m_block_size.y) p = v.m_child.pix x y p := by
  obtain ⟨hx0, hx1, hy0, hy1, hp0, hp1⟩ := hin
  have hxr : 0 ≤ x ∧ x < v.cols := ⟨hx0, hx1⟩
  have hyr : 0 ≤ y ∧ y < v.rows := ⟨hy0, hy1⟩
  obtain ⟨htw, hth, hsize, hlen, hfill⟩ := hb
  have hix := tdiv_in_table hbx hxr
  have hiy := tdiv_in_table hby hyr
  rw [← htw] at hix
  rw [← hth] at hiy
  obtain ⟨hqx1, hqx2⟩ := (tdiv_eq_iff hx0 (show 0 < v.m_block_size.x by omega)).1 rfl
  obtain ⟨hqy1, hqy2⟩ := (tdiv_eq_iff hy0 (show 0 < v.m_block_size.y by omega)).1 rfl
  have hblock := block_of_built cache v ⟨htw, hth, hsize, hlen, hfill⟩ _ _ hix.1 hix.2
    hiy.1 hiy.2
  have hcon : (v.blockBBox (Int.tdiv x v.m_block_size.x)
      (Int.tdiv y v.m_block_size.y)).contains x y :=
    (blockBBox_contains_iff v _ _ x y hix.1 hiy.1 hbx hby hxr hyr).2 ⟨rfl, rfl⟩
  obtain ⟨img, hd, hic, hir, hip, hpix⟩ := block_buffer_spec cache v _ _ hix.1 hiy.1 hbx hby
    (by omega) (by omega)
  have hval := hpix x y p hcon hp0 (by rw [tripCount_of_nonneg (by omega)]; exact hp1)
  have hbounds : img.inBounds (x - Int.tdiv x v.m_block_size.x * v.m_block_size.x)
      (y - Int.tdiv y v.m_block_size.y * v.m_block_size.y) p := by
    have heq := blockBBox_eq v _ _ hix.1 hiy.1 hbx hby
    obtain ⟨c1, c2, c3, c4⟩ := hcon
    refine ⟨by omega, ?_, by omega, ?_, hp0, by rw [hip]; exact hp1⟩
    · rw [hic]; simp only [BBox2i.width]
      rw [heq] at c2 ⊢
      simp only at c2 ⊢
      omega
    · rw [hir]; simp only [BBox2i.height]
      rw [heq] at c4 ⊢
      simp only at c4 ⊢
      omega
  refine ⟨?_, _, img, hblock, hd, hbounds, hval⟩
  unfold operatorCall
  rw [hc]
  simp only
  split_ifs with h1
  · -- the single block is block (0, 0), and it is the whole image
    have hw1 : 1 ≤ v.m_table_width := by omega
    have hh1 : 1 ≤ v.m_table_height := by omega
    have hprod : v.m_table_height * v.m_table_width = 1 := by rw [← hsize]; exact h1
    obtain ⟨hth1, htw1⟩ := mul_eq_one_of_pos hh1 hw1 hprod
    have hqx : Int.tdiv x v.m_block_size.x = 0 := by omega
    have hqy : Int.tdiv y v.m_block_size.y = 0 := by omega
    have h0 := hfill 0 0 (le_refl 0) (by omega) (le_refl 0) (by omega)
    have e0 : ((0 : Int) + 0 * v.m_table_width).toNat = 0 := by simp
    rw [e0] at h0
    rw [List.getD_eq_getElem?_getD, h0]
    simp only [Option.getD_some]
    rw [hqx, hqy] at hd hval
    rw [hd]
    simp only [zero_mul, sub_zero] at hval
    simp only
    rw [hval]
  · simp only [idiv, if_neg (show ¬ v.m_block_size.x = 0 by omega),
      if_neg (show ¬ v.m_block_size.y = 0 by omega)]
    rw [hblock]
    simp only
    rw [hd]
    simp only
    rw [hval]

end Pixel

section ClaimsPixel

variable {α β : Type}

open BlockRasterizeView

/-- C3: for every view that the constructor returns over an image with
`cols, rows ≥ 1` and with a positive block size, and every in-bounds coordinate
`(x, y, p)`, single-pixel access returns the child's pixel `child(x, y, p)`,
without a cache (direct delegation) and with one alike; with a cache the block
index `(x div bw, y div bh)` is inside the table, so that `block` raises
nothing, the block-local coordinate `(x - ix*bw, y - iy*bh)` lies inside the
buffer of that block, and the buffer pixel there is the child's pixel at
`(x, y, p)`.  The constructor returns such a view without a cache always, and
with a cache when the number of blocks is in the `int32` range. -/
theorem pixel_access_returns_child_pixel [Inhabited α] (sz : Int) (child : View α)
    (bw bh nt : Int) (cache : Option Cache) (x y p : Int) (hcols : 1 ≤ child.cols)
    (hrows : 1 ≤ child.rows) (hbw : 1 ≤ bw) (hbh : 1 ≤ bh) (hin : child.inBounds x y p) :
    ((cache ≠ none → (Int.tdiv (child.rows - 1) bh + 1) *
        (Int.tdiv (child.cols - 1) bw + 1) ≤ 2147483647) →
      ∃ v, BlockRasterizeView.new sz child ⟨bw, bh⟩ nt cache = .ok v) ∧
    ∀ v, BlockRasterizeView.new sz child ⟨bw, bh⟩ nt cache = .ok v →
      v.operatorCall x y p = .ok (child.pix x y p) ∧
      (cache ≠ none →
        ((0 ≤ Int.tdiv x bw ∧ Int.tdiv x bw < v.m_table_width) ∧
          (0 ≤ Int.tdiv y bh ∧ Int.tdiv y bh < v.m_table_height)) ∧
        ∃ h img, v.block (Int.tdiv x bw) (Int.tdiv y bh) = .ok h ∧ h.deref = .ok img ∧
          img.inBounds (x - Int.tdiv x bw * bw) (y - Int.tdiv y bh * bh) p ∧
          img.pix (x - Int.tdiv x bw * bw) (y - Int.tdiv y bh * bh) p = child.pix x y p) := by
  refine ⟨fun hfit => new_ok_of_pos sz child ⟨bw, bh⟩ nt cache hcols hrows hbw hbh hfit, ?_⟩
  intro v hv
  obtain ⟨hch, -, hcp, -, -, hbs, hbuilt, -⟩ := new_spec sz child ⟨bw, bh⟩ nt cache v
    hcols hrows hv
  have hbs := hbs hbw hbh
  have hbx : v.m_block_size.x = bw := by rw [hbs]
  have hby : v.m_block_size.y = bh := by rw [hbs]
  have hvc : v.cols = child.cols := by simp only [cols, hch]
  have hvr : v.rows = child.rows := by simp only [rows, hch]
  refine ⟨?_, ?_⟩
  · cases hcache : cache with
    | none =>
      unfold operatorCall
      rw [hcp, hcache, hch]
    | some c =>
      have := (operatorCall_built c v (by rw [hcp, hcache]) (hbuilt c hcache)
        (by omega) (by omega) x y p (hch ▸ hin)).1
      rw [this, hch]
  · intro hne
    obtain ⟨c, hcache⟩ := Option.ne_none_iff_exists'.1 hne
    have hb := hbuilt c hcache
    obtain ⟨-, h, img, h1, h2, h3, h4⟩ := operatorCall_built c v (by rw [hcp, hcache]) hb
      (by omega) (by omega) x y p (hch ▸ hin)
    rw [hbx, hby] at h1 h3 h4
    rw [hch] at h4
    refine ⟨?_, h, img, h1, h2, h3, h4⟩
    rw [hb.1, hb.2.1, hvc, hvr, hbx, hby]
    exact ⟨tdiv_in_table hbw ⟨hin.1, hin.2.1⟩, tdiv_in_table hbh ⟨hin.2.2.1, hin.2.2.2.1⟩⟩

theorem pixel_access_returns_child_pixel_witness :
    (1 ≤ Example.child.cols ∧ 1 ≤ Example.child.rows ∧ (1 : Int) ≤ 2 ∧
      Example.child.inBounds 4 2 1) ∧
    BlockRasterizeView.new 1 Example.child ⟨2, 2⟩ 0 (some vw_system_cache) =
      .ok Example.cachedView ∧
    Example.cachedView.operatorCall 4 2 1 = .ok (Example.child.pix 4 2 1) :=
  ⟨by decide, rfl,
    ((pixel_access_returns_child_pixel 1 Example.child 2 2 0 (some vw_system_cache) 4 2 1
      (by decide) (by decide) (by decide) (by decide) (by decide)).2
      Example.cachedView rfl).1⟩

end ClaimsPixel

section ClaimsCache

variable {α β : Type}

open BlockRasterizeView

/-- C10, as stated, fails: `block_cache` with thread count 0 over the 5 × 3
example image returns a view that has the system cache and a block table of
six blocks; caching is enabled. -/
theorem thread_count_zero_keeps_cache :
    block_cache 1 Example.child ⟨2, 2⟩ 0 = .ok Example.cachedView ∧
    Example.cachedView.m_num_threads = 0 ∧
    Example.cachedView.m_cache_ptr = some vw_system_cache ∧
    Example.cachedView.m_block_table_size = 6 ∧
    Example.cachedView.m_block_table.length = 6 ∧
    Example.cachedView.block 0 0 = .ok (Example.handle 0 0 2 2) :=
  ⟨rfl, rfl, rfl, rfl, rfl, rfl⟩

/-- C10, amended: caching is disabled exactly in the views constructed without
a cache (as `block_rasterize` does), whatever the thread count: no block table
is built, single-pixel access delegates directly to the child and the
rasterization functor rasterizes the child directly.  A view constructed with a
cache keeps it whatever the thread count, 0 included, and over an image with a
pixel its block table has at least one block. -/
theorem caching_disabled_without_cache [Inhabited α] (sz : Int) (child : View α)
    (bs : Vector2i) (nt : Int) (cache : Option Cache) (v : BlockRasterizeView α)
    (hv : BlockRasterizeView.new sz child bs nt cache = .ok v) :
    (cache = none →
      v.m_cache_ptr = none ∧ v.m_table_width = 0 ∧ v.m_table_height = 0 ∧
      v.m_block_table_size = 0 ∧ v.m_block_table = [] ∧
      (∀ x y p, v.operatorCall x y p = .ok (child.pix x y p)) ∧
      (∀ (γ : Type) (lvl : Nat) (conv : α → γ) (dest : DestView) (off : Vector2i)
          (b : BBox2i) (m : Dest γ),
        RasterizeFunctor.operatorCall lvl conv ⟨v, dest, off⟩ b m =
          View.rasterize conv child (dest.crop (b.sub off)) b m)) ∧
    (cache ≠ none →
      v.m_cache_ptr = cache ∧
      (1 ≤ child.cols → 1 ≤ child.rows →
        1 ≤ v.m_block_table_size ∧ 1 ≤ v.m_block_table.length)) := by
  obtain ⟨hch, -, hcp, hnone, hsome⟩ := new_shape sz child bs nt cache v hv
  constructor
  · intro hn
    obtain ⟨h1, h2, h3, h4⟩ := hnone hn
    have hc : v.m_cache_ptr = none := by rw [hcp, hn]
    refine ⟨hc, h1, h2, h3, h4, ?_, ?_⟩
    · intro x y p
      unfold operatorCall
      rw [hc, hch]
    · intro γ lvl conv dest off b m
      unfold RasterizeFunctor.operatorCall
      simp only [hc, hch]
  · intro hne
    refine ⟨hcp, fun hcols hrows => ?_⟩
    obtain ⟨c, hc⟩ := Option.ne_none_iff_exists'.1 hne
    obtain ⟨-, -, -, hbx, hby, -, hbuilt, -⟩ := new_spec sz child bs nt cache v hcols hrows hv
    obtain ⟨htw, hth, hsize, hlen, -⟩ := hbuilt c hc
    have hvc : v.cols = child.cols := by simp only [cols, hch]
    have hvr : v.rows = child.rows := by simp only [rows, hch]
    have h1 := tdiv_nonneg (show 0 ≤ v.cols - 1 by omega) (show 0 < v.m_block_size.x by omega)
    have h2 := tdiv_nonneg (show 0 ≤ v.rows - 1 by omega) (show 0 < v.m_block_size.y by omega)
    have h3 : 1 ≤ v.m_table_height * v.m_table_width := by
      have := Int.mul_le_mul (show 1 ≤ v.m_table_height by omega)
        (show 1 ≤ v.m_table_width by omega) (by omega) (by omega)
      omega
    constructor
    · omega
    · omega

theorem caching_disabled_without_cache_witness :
    BlockRasterizeView.new 1 Example.child ⟨2, 2⟩ 4 none =
      .ok { Example.plainView with m_num_threads := 4 } ∧
    ({ Example.plainView with m_num_threads := 4 } : BlockRasterizeView Int).m_block_table
      = [] ∧
    ({ Example.plainView with m_num_threads := 4 } : BlockRasterizeView Int).operatorCall
      4 2 1 = .ok (Example.child.pix 4 2 1) :=
  have h := (caching_disabled_without_cache 1 Example.child ⟨2, 2⟩ 4 none
    { Example.plainView with m_num_threads := 4 } rfl).1 rfl
  ⟨rfl, h.2.2.2.2.1, h.2.2.2.2.2.1 4 2 1⟩

end ClaimsCache

section Functor

variable {α β : Type}

open BlockRasterizeView

/-- A column loop of no iteration, a row loop over empty rows and a plane loop
over empty planes leave the destination memory as it is. -/
theorem rowLoop_empty (conv : α → β) (src : View α) (width : Int) (n : Nat)
    (s d : PixelAccessor) (m : Dest β) (hw : tripCount width = 0) :
    rowLoop conv src width n s d m = m := by
  induction n generalizing s d m with
  | zero => rfl
  | succ n ih => simp only [rowLoop, hw, colLoop, ih]

theorem planeLoop_empty (conv : α → β) (src : View α) (width height : Int) (n : Nat)
    (s d : PixelAccessor) (m : Dest β) (h : tripCount width = 0 ∨ tripCount height = 0) :
    planeLoop conv src width height n s d m = m := by
  induction n generalizing s d m with
  | zero => rfl
  | succ n ih =>
    simp only [planeLoop]
    rcases h with hw | hh
    · rw [rowLoop_empty conv src width _ s d m hw, ih]
    · rw [hh]
      simp only [rowLoop, ih]

/-- Rasterizing over a box of no area stores nothing. -/
theorem rasterize_empty (conv : α → β) (src : View α) (dest : DestView) (bbox : BBox2i)
    (m : Dest β) (h : bbox.width = 0 ∨ bbox.height = 0) :
    (rasterize conv src dest bbox m).2 = m := by
  unfold rasterize
  split_ifs
  · simp only
    apply planeLoop_empty
    rcases h with h | h
    · left; rw [h]; rfl
    · right; rw [h]; rfl
  · rfl

/-- Two plane loops over the same destination range whose sources agree on the
pixels they read leave the same destination memory. -/
theorem planeLoop_congr (conv : α → β) (src1 src2 : View α) (width height : Int) (n : Nat)
    (s1 s2 d : PixelAccessor) (m : Dest β)
    (h : ∀ k j q : Int, 0 ≤ k → k < tripCount width → 0 ≤ j → j < tripCount height →
      0 ≤ q → q < n →
      src1.pix (s1.col + k) (s1.row + j) (s1.plane + q) =
        src2.pix (s2.col + k) (s2.row + j) (s2.plane + q)) :
    planeLoop conv src1 width height n s1 d m = planeLoop conv src2 width height n s2 d m := by
  have e1 := planeLoop_extents conv src1 width height n s1 d m
  have e2 := planeLoop_extents conv src2 width height n s2 d m
  have p1 := planeLoop_pix conv src1 width height n s1 d m
  have p2 := planeLoop_pix conv src2 width height n s2 d m
  have t1 := planeLoop_stores conv src1 width height n s1 d m
  have t2 := planeLoop_stores conv src2 width height n s2 d m
  generalize planeLoop conv src1 width height n s1 d m = r1 at *
  generalize planeLoop conv src2 width height n s2 d m = r2 at *
  obtain ⟨⟨c1, w1, l1, f1⟩, st1⟩ := r1
  obtain ⟨⟨c2, w2, l2, f2⟩, st2⟩ := r2
  simp only at e1 e2 p1 p2 t1 t2
  have hf : f1 = f2 := by
    funext c r p
    rw [p1, p2]
    split_ifs with hc
    · rw [h (c - d.col) (r - d.row) (p - d.plane) (by omega) (by omega) (by omega) (by omega)
        (by omega) (by omega)]
    · rfl
  rw [hf, t1, t2, e1.1, e1.2.1, e1.2.2, e2.1, e2.2.1, e2.2.2]

/-- Translating a box keeps its extents. -/
theorem sub_extents (b : BBox2i) (o : Vector2i) :
    (b.sub o).width = b.width ∧ (b.sub o).height = b.height := by
  simp only [BBox2i.sub, BBox2i.width, BBox2i.height]
  constructor <;> ring

/-- Rasterizing the buffer of a block over a box of the block, in block-local
coordinates, is rasterizing the child over the box. -/
theorem rasterize_block_buffer (conv : α → β) (child img : View α) (dc : DestView)
    (b : BBox2i) (o : Vector2i) (m : Dest β) (hw : 0 ≤ b.width) (hh : 0 ≤ b.height)
    (hp : img.planes = child.planes)
    (hpix : ∀ x y p, (b.min.x ≤ x ∧ x < b.max.x) → (b.min.y ≤ y ∧ y < b.max.y) → 0 ≤ p →
      p < (tripCount child.planes : Int) → img.pix (x - o.x) (y - o.y) p = child.pix x y p) :
    rasterize conv img dc (b.sub o) m = rasterize conv child dc b m := by
  obtain ⟨e1, e2⟩ := sub_extents b o
  unfold rasterize
  rw [e1, e2, hp]
  split_ifs with hc
  · congr 1
    apply planeLoop_congr
    intro k j q hk0 hk1 hj0 hj1 hq0 hq1
    rw [tripCount_of_nonneg hw] at hk1
    rw [tripCount_of_nonneg hh] at hj1
    simp only [View.origin, PixelAccessor.advance, BBox2i.sub, zero_add]
    simp only [BBox2i.width, BBox2i.height] at hk1 hj1
    have := hpix (b.min.x + k) (b.min.y + j) q (by omega) (by omega) hq0 hq1
    rw [← this]
    congr 1 <;> ring
  · rfl

/-- The rasterization functor of a built view, on a non-empty box inside block
`(ix, iy)` of the table: it fetches the handle of that block and rasterizes the
buffer of the block over the box less the block origin. -/
theorem functor_cached_buffer [Inhabited α] (lvl : Nat) (conv : α → β) (cache : Cache)
    (v : BlockRasterizeView α) (hc : v.m_cache_ptr = some cache) (hb : Built cache v)
    (hbx : 1 ≤ v.m_block_size.x) (hby : 1 ≤ v.m_block_size.y) (dest : DestView)
    (off : Vector2i) (b : BBox2i) (m : Dest β) (ix iy : Int) (hx0 : 0 ≤ ix)
    (hx1 : ix < v.m_table_width) (hy0 : 0 ≤ iy) (hy1 : iy < v.m_table_height)
    (hin : b.inside (v.blockBBox ix iy)) (hne : ¬ b.empty) :
    ∃ img, v.block ix iy = .ok (cache.insert ⟨v.m_child, v.blockBBox ix iy⟩) ∧
      (cache.insert ⟨v.m_child, v.blockBBox ix iy⟩).deref = .ok img ∧
      RasterizeFunctor.operatorCall lvl conv ⟨v, dest, off⟩ b m =
        View.rasterize conv img (dest.crop (b.sub off))
          (b.sub ⟨ix * v.m_block_size.x, iy * v.m_block_size.y⟩) m ∧
      img.planes = v.m_child.planes ∧
      ∀ x y p, (v.blockBBox ix iy).contains x y → 0 ≤ p →
        p < (tripCount v.m_child.planes : Int) →
        img.pix (x - ix * v.m_block_size.x) (y - iy * v.m_block_size.y) p =
          v.m_child.pix x y p := by
  have heq := blockBBox_eq v ix iy hx0 hy0 hbx hby
  rw [heq] at hin
  simp only [BBox2i.inside, le_min_iff] at hin
  simp only [BBox2i.empty, not_or, not_le, ge_iff_le] at hne
  obtain ⟨i1, ⟨i2, i3⟩, i4, i5, i6⟩ := hin
  have hx3 : 0 ≤ ix * v.m_block_size.x := Int.mul_nonneg hx0 (by omega)
  have hy3 : 0 ≤ iy * v.m_block_size.y := Int.mul_nonneg hy0 (by omega)
  have hqx : Int.tdiv b.min.x v.m_block_size.x = ix :=
    (tdiv_eq_iff (by omega) (by omega)).2 ⟨i1, by omega⟩
  have hqy : Int.tdiv b.min.y v.m_block_size.y = iy :=
    (tdiv_eq_iff (by omega) (by omega)).2 ⟨i4, by omega⟩
  have hmx : Int.tdiv (b.max.x - 1) v.m_block_size.x = ix :=
    (tdiv_eq_iff (by omega) (by omega)).2 ⟨by omega, by omega⟩
  have hmy : Int.tdiv (b.max.y - 1) v.m_block_size.y = iy :=
    (tdiv_eq_iff (by omega) (by omega)).2 ⟨by omega, by omega⟩
  have hblock := block_of_built cache v hb ix iy hx0 hx1 hy0 hy1
  obtain ⟨img, hd, -, -, hip, hpix⟩ := block_buffer_spec cache v ix iy hx0 hy0 hbx hby
    (by omega) (by omega)
  have hdebug : (if lvl > 1 then
        match idiv (b.max.x - 1) v.m_block_size.x with
        | .error e => .error e
        | .ok maxix =>
          match idiv (b.max.y - 1) v.m_block_size.y with
          | .error e => .error e
          | .ok maxiy => if maxix ≠ ix ∨ maxiy ≠ iy then .error .LogicErr else .ok ()
      else .ok ()) = (.ok () : Except Err Unit) := by
    split_ifs with hl
    · simp only [idiv, if_neg (show ¬ v.m_block_size.x = 0 by omega),
        if_neg (show ¬ v.m_block_size.y = 0 by omega), hmx, hmy]
      simp
    · rfl
  refine ⟨img, hblock, hd, ?_, hip, hpix⟩
  unfold RasterizeFunctor.operatorCall
  simp only [hc]
  simp only [withValue, idiv, if_neg (show ¬ v.m_block_size.x = 0 by omega),
    if_neg (show ¬ v.m_block_size.y = 0 by omega), hqx, hqy]
  simp only [idiv, if_neg (show ¬ v.m_block_size.x = 0 by omega),
    if_neg (show ¬ v.m_block_size.y = 0 by omega)] at hdebug
  rw [hdebug]
  simp only
  rw [hblock]
  simp only
  rw [hd]

/-- The rasterization functor of a built view, on a non-empty box inside one
block of the table: it does what rasterizing the child over the box does. -/
theorem functor_cached_eq [Inhabited α] (lvl : Nat) (conv : α → β) (cache : Cache)
    (v : BlockRasterizeView α) (hc : v.m_cache_ptr = some cache) (hb : Built cache v)
    (hbx : 1 ≤ v.m_block_size.x) (hby : 1 ≤ v.m_block_size.y) (dest : DestView)
    (off : Vector2i) (b : BBox2i) (m : Dest β) (ix iy : Int) (hx0 : 0 ≤ ix)
    (hx1 : ix < v.m_table_width) (hy0 : 0 ≤ iy) (hy1 : iy < v.m_table_height)
    (hin : b.inside (v.blockBBox ix iy)) (hne : ¬ b.empty) :
    RasterizeFunctor.operatorCall lvl conv ⟨v, dest, off⟩ b m =
      View.rasterize conv v.m_child (dest.crop (b.sub off)) b m := by
  obtain ⟨img, -, -, hcall, hip, hpix⟩ := functor_cached_buffer lvl conv cache v hc hb hbx hby
    dest off b m ix iy hx0 hx1 hy0 hy1 hin hne
  rw [hcall]
  have heq := blockBBox_eq v ix iy hx0 hy0 hbx hby
  rw [heq] at hin
  simp only [BBox2i.inside, le_min_iff] at hin
  simp only [BBox2i.empty, not_or, not_le, ge_iff_le] at hne
  obtain ⟨i1, ⟨i2, i3⟩, i4, i5, i6⟩ := hin
  simp only [View.rasterize]
  apply rasterize_block_buffer conv v.m_child img _ b
    ⟨ix * v.m_block_size.x, iy * v.m_block_size.y⟩ m
    (by simp only [BBox2i.width]; omega) (by simp only [BBox2i.height]; omega) hip
  intro x y p hx hy hp0 hp1
  apply hpix x y p _ hp0 hp1
  rw [heq]
  simp only [BBox2i.contains, lt_min_iff]
  omega

/-- On a box of no area the rasterization functor stores nothing, whatever
its outcome. -/
theorem functor_empty [Inhabited α] (lvl : Nat) (conv : α → β) (f : RasterizeFunctor α)
    (b : BBox2i) (m : Dest β) (h : b.width = 0 ∨ b.height = 0) :
    (RasterizeFunctor.operatorCall lvl conv f b m).2 = m := by
  unfold RasterizeFunctor.operatorCall
  split
  · simp only [withValue]
    split
    · rfl
    · split
      · rfl
      · split
        · rfl
        · split
          · rfl
          · split
            · rfl
            · apply rasterize_empty
              obtain ⟨e1, e2⟩ := sub_extents b
                ⟨_ * f.m_view.m_block_size.x, _ * f.m_view.m_block_size.y⟩
              rw [e1, e2]
              exact h
  · exact rasterize_empty conv _ _ b m h

/-- Every block box lies inside the image. -/
theorem blockBBox_in_image (v : BlockRasterizeView α) (ix iy : Int) :
    (0 ≤ (v.blockBBox ix iy).min.x ∧ (v.blockBBox ix iy).max.x ≤ v.cols) ∧
    (0 ≤ (v.blockBBox ix iy).min.y ∧ (v.blockBBox ix iy).max.y ≤ v.rows) := by
  simp only [blockBBox, BBox2i.crop, BBox2i.ofSize, zero_add]
  refine ⟨⟨?_, ?_⟩, ?_, ?_⟩ <;> split_ifs <;> omega

end Functor

section ClaimsFunctor

variable {α β : Type}

open BlockRasterizeView

/-- C2: for every child view, block size, destination and region offset, and
every sub-box `b` (with `min ≤ max`) inside one block `(ix, iy)` of the table,
hence inside the image, the rasterization functor leaves the same destination
memory with a cache as without one.  When `b` is not empty the two outcomes are
the same as well: with a cache the functor rasterizes the generated buffer of
block `(ix, iy)` over `b` less the block origin `(ix*bw, iy*bh)`, without one it
rasterizes the child over `b`; and when moreover the destination has the planes
of the child neither raises and destination pixel `(b.min - offset + (c, r), p)`
holds the converted child pixel `(b.min + (c, r), p)` for every `(c, r)` inside
the extents of `b` and every plane `p`. -/
theorem rasterize_functor_cached_eq_uncached [Inhabited α] (sz : Int) (child : View α)
    (bs : Vector2i) (nt : Int) (cache : Cache) (vc vu : BlockRasterizeView α) (lvl : Nat)
    (conv : α → β) (dest : DestView) (off : Vector2i) (b : BBox2i) (m : Dest β)
    (ix iy : Int)
    (hvc : BlockRasterizeView.new sz child bs nt (some cache) = .ok vc)
    (hvu : BlockRasterizeView.new sz child bs nt none = .ok vu)
    (hwf : b.min.x ≤ b.max.x ∧ b.min.y ≤ b.max.y)
    (htab : (0 ≤ ix ∧ ix < vc.m_table_width) ∧ (0 ≤ iy ∧ iy < vc.m_table_height))
    (hin : b.inside (vc.blockBBox ix iy)) :
    (RasterizeFunctor.operatorCall lvl conv ⟨vc, dest, off⟩ b m).2 =
      (RasterizeFunctor.operatorCall lvl conv ⟨vu, dest, off⟩ b m).2 ∧
    (¬ b.empty →
      RasterizeFunctor.operatorCall lvl conv ⟨vc, dest, off⟩ b m =
        RasterizeFunctor.operatorCall lvl conv ⟨vu, dest, off⟩ b m) ∧
    (¬ b.empty →
      (∃ h img, vc.block ix iy = .ok h ∧ h.deref = .ok img ∧
        RasterizeFunctor.operatorCall lvl conv ⟨vc, dest, off⟩ b m =
          View.rasterize conv img (dest.crop (b.sub off))
            (b.sub ⟨ix * vc.m_block_size.x, iy * vc.m_block_size.y⟩) m) ∧
      RasterizeFunctor.operatorCall lvl conv ⟨vu, dest, off⟩ b m =
        View.rasterize conv child (dest.crop (b.sub off)) b m) ∧
    (¬ b.empty → dest.planes = child.planes →
      (RasterizeFunctor.operatorCall lvl conv ⟨vc, dest, off⟩ b m).1 = .ok () ∧
      (RasterizeFunctor.operatorCall lvl conv ⟨vu, dest, off⟩ b m).1 = .ok () ∧
      ∀ c r p, 0 ≤ c → c < b.width → 0 ≤ r → r < b.height → 0 ≤ p → p < child.planes →
        dest.pix (RasterizeFunctor.operatorCall lvl conv ⟨vc, dest, off⟩ b m).2.img
            (b.min.x - off.x + c) (b.min.y - off.y + r) p =
          conv (child.pix (b.min.x + c) (b.min.y + r) p) ∧
        dest.pix (RasterizeFunctor.operatorCall lvl conv ⟨vu, dest, off⟩ b m).2.img
            (b.min.x - off.x + c) (b.min.y - off.y + r) p =
          conv (child.pix (b.min.x + c) (b.min.y + r) p)) := by
  -- the view without a cache rasterizes the child
  obtain ⟨huch, -, hucp, -, -⟩ := new_shape sz child bs nt none vu hvu
  have hu : RasterizeFunctor.operatorCall lvl conv ⟨vu, dest, off⟩ b m =
      View.rasterize conv child (dest.crop (b.sub off)) b m := by
    unfold RasterizeFunctor.operatorCall
    simp only [hucp, huch]
  -- the view with a cache, on a box that is not empty
  have hfull : ¬ b.empty →
      RasterizeFunctor.operatorCall lvl conv ⟨vc, dest, off⟩ b m =
        View.rasterize conv child (dest.crop (b.sub off)) b m ∧
      ∃ h img, vc.block ix iy = .ok h ∧ h.deref = .ok img ∧
        RasterizeFunctor.operatorCall lvl conv ⟨vc, dest, off⟩ b m =
          View.rasterize conv img (dest.crop (b.sub off))
            (b.sub ⟨ix * vc.m_block_size.x, iy * vc.m_block_size.y⟩) m := by
    intro hne
    have hne' := hne
    simp only [BBox2i.empty, not_or, not_le, ge_iff_le] at hne'
    obtain ⟨⟨g1, g2⟩, g3, g4⟩ := blockBBox_in_image vc ix iy
    obtain ⟨i1, i2, i3, i4⟩ := hin
    have hcch : vc.m_child = child := (new_shape sz child bs nt (some cache) vc hvc).1
    have hcols : 1 ≤ child.cols := by
      have : vc.cols = child.cols := by simp only [cols, hcch]
      omega
    have hrows : 1 ≤ child.rows := by
      have : vc.rows = child.rows := by simp only [rows, hcch]
      omega
    obtain ⟨-, -, hcp, hbx, hby, -, hbuilt, -⟩ := new_spec sz child bs nt (some cache) vc
      hcols hrows hvc
    have := functor_cached_eq lvl conv cache vc hcp (hbuilt cache rfl) hbx hby dest off b m
      ix iy htab.1.1 htab.1.2 htab.2.1 htab.2.2 ⟨i1, i2, i3, i4⟩ hne
    obtain ⟨img, g1, g2, g3, -⟩ := functor_cached_buffer lvl conv cache vc hcp
      (hbuilt cache rfl) hbx hby dest off b m ix iy htab.1.1 htab.1.2 htab.2.1 htab.2.2
      ⟨i1, i2, i3, i4⟩ hne
    exact ⟨by rw [this, hcch], _, img, g1, g2, g3⟩
  refine ⟨?_, ?_, ?_, ?_⟩
  · by_cases hne : b.empty
    · have h0 : b.width = 0 ∨ b.height = 0 := by
        simp only [BBox2i.empty, ge_iff_le] at hne
        simp only [BBox2i.width, BBox2i.height]
        omega
      rw [functor_empty lvl conv _ b m h0, functor_empty lvl conv _ b m h0]
    · rw [(hfull hne).1, hu]
  · intro hne
    rw [(hfull hne).1, hu]
  · intro hne
    exact ⟨(hfull hne).2, hu⟩
  · intro hne hpl
    rw [(hfull hne).1, hu]
    simp only [BBox2i.empty, not_or, not_le, ge_iff_le] at hne
    obtain ⟨e1, e2⟩ := sub_extents b off
    obtain ⟨hok, hpix, -, -⟩ := rasterize_ok conv child (dest.crop (b.sub off)) b m
      (by simp only [BBox2i.width]; omega) (by simp only [BBox2i.height]; omega)
      ⟨e1, e2, hpl⟩
    refine ⟨hok, hok, ?_⟩
    intro c r p hc0 hc1 hr0 hr1 hp0 hp1
    have := hpix c r p hc0 hc1 hr0 hr1 hp0 (by rw [tripCount_of_nonneg (by omega)]; exact hp1)
    simp only [DestView.pix, DestView.crop, BBox2i.sub, View.rasterize] at this ⊢
    simp only [← add_assoc]
    exact ⟨this, this⟩

theorem rasterize_functor_cached_eq_uncached_witness :
    (BlockRasterizeView.new 1 Example.child ⟨2, 2⟩ 0 (some vw_system_cache) =
        .ok Example.cachedView ∧
      BlockRasterizeView.new 1 Example.child ⟨2, 2⟩ 0 none = .ok Example.plainView ∧
      Example.subBox.inside (Example.cachedView.blockBBox 1 0)) ∧
    (RasterizeFunctor.operatorCall 2 id
        ⟨Example.cachedView, DestView.whole Example.dest.img, Example.subBox.min⟩
        Example.subBox Example.dest).2 =
      (RasterizeFunctor.operatorCall 2 id
        ⟨Example.plainView, DestView.whole Example.dest.img, Example.subBox.min⟩
        Example.subBox Example.dest).2 :=
  ⟨⟨rfl, rfl, by decide⟩,
    (rasterize_functor_cached_eq_uncached 1 Example.child ⟨2, 2⟩ 0 vw_system_cache
      Example.cachedView Example.plainView 2 id (DestView.whole Example.dest.img)
      Example.subBox.min Example.subBox Example.dest 1 0 rfl rfl (by decide) (by decide)
      (by decide)).1⟩

end ClaimsFunctor

section Processor

variable {α β : Type}

open BlockRasterizeView

/-- A point lies in a cropped box exactly when it lies in the box and in the
box it was cropped to. -/
theorem crop_contains_iff (b c : BBox2i) (x y : Int) :
    (b.crop c).contains x y ↔ b.contains x y ∧ c.contains x y := by
  simp only [BBox2i.crop, BBox2i.contains]
  constructor
  · rintro ⟨h1, h2, h3, h4⟩
    split_ifs at h1 h2 h3 h4 <;> omega
  · rintro ⟨⟨h1, h2, h3, h4⟩, h5, h6, h7, h8⟩
    split_ifs <;> omega

/-- The grid cells that `BlockProcessor` visits along one axis: the quotients
of the points of the half-open range. -/
theorem ediv_range {lo hi b x : Int} (hb : 1 ≤ b) (hx : lo ≤ x ∧ x < hi) :
    lo / b ≤ x / b ∧ x / b ≤ (hi - 1) / b :=
  ⟨Int.ediv_le_ediv (by omega) hx.1, Int.ediv_le_ediv (by omega) (by omega)⟩

/-- Every sub-box of `BlockProcessor` is a grid cell between the cell of the
first and the cell of the last pixel of the region, cropped to the region. -/
theorem blocks_mem (bs : Vector2i) (bbox b : BBox2i) (h : b ∈ BlockProcessor.blocks bs bbox) :
    ¬ bbox.empty ∧
    ∃ k l : Int, (bbox.min.x / bs.x ≤ k ∧ k ≤ (bbox.max.x - 1) / bs.x) ∧
      (bbox.min.y / bs.y ≤ l ∧ l ≤ (bbox.max.y - 1) / bs.y) ∧
      b = (BBox2i.ofSize (k * bs.x) (l * bs.y) bs.x bs.y).crop bbox := by
  unfold BlockProcessor.blocks at h
  split_ifs at h with he
  · exact absurd h (by simp)
  · refine ⟨he, ?_⟩
    simp only [List.mem_flatMap, List.mem_map, List.mem_range] at h
    obtain ⟨j, hj, i, hi, rfl⟩ := h
    exact ⟨bbox.min.x / bs.x + i, bbox.min.y / bs.y + j, by omega, by omega, rfl⟩

/-- Every pixel of the region lies in a sub-box of `BlockProcessor`. -/
theorem blocks_cover (bs : Vector2i) (bbox : BBox2i) (hbx : 1 ≤ bs.x) (hby : 1 ≤ bs.y)
    (x y : Int) (h : bbox.contains x y) :
    ∃ b ∈ BlockProcessor.blocks bs bbox, b.contains x y := by
  have hne : ¬ bbox.empty := by
    simp only [BBox2i.empty, BBox2i.contains] at h ⊢
    omega
  obtain ⟨h1, h2, h3, h4⟩ := h
  obtain ⟨a1, a2⟩ := ediv_range hbx ⟨h1, h2⟩
  obtain ⟨a3, a4⟩ := ediv_range hby ⟨h3, h4⟩
  refine ⟨(BBox2i.ofSize (x / bs.x * bs.x) (y / bs.y * bs.y) bs.x bs.y).crop bbox, ?_, ?_⟩
  · unfold BlockProcessor.blocks
    rw [if_neg hne]
    simp only [List.mem_flatMap, List.mem_map, List.mem_range]
    refine ⟨(y / bs.y - bbox.min.y / bs.y).toNat, by omega,
      (x / bs.x - bbox.min.x / bs.x).toNat, by omega, ?_⟩
    rw [Int.toNat_of_nonneg (by omega), Int.toNat_of_nonneg (by omega)]
    congr 2 <;> ring
  · rw [crop_contains_iff]
    refine ⟨?_, h1, h2, h3, h4⟩
    have c1 := Int.ediv_mul_le x (show bs.x ≠ 0 by omega)
    have c2 := Int.lt_ediv_add_one_mul_self x (show 0 < bs.x by omega)
    have c3 := Int.ediv_mul_le y (show bs.y ≠ 0 by omega)
    have c4 := Int.lt_ediv_add_one_mul_self y (show 0 < bs.y by omega)
    have e1 : (x / bs.x + 1) * bs.x = x / bs.x * bs.x + bs.x := by ring
    have e2 : (y / bs.y + 1) * bs.y = y / bs.y * bs.y + bs.y := by ring
    simp only [BBox2i.ofSize, BBox2i.contains]
    omega

/-- A sub-box of `BlockProcessor` over a region inside the image: it is not
empty, lies inside the region and inside one block of the table. -/
theorem blocks_good (v : BlockRasterizeView α) (bbox b : BBox2i)
    (hbx : 1 ≤ v.m_block_size.x) (hby : 1 ≤ v.m_block_size.y)
    (hin : bbox.inside (BBox2i.ofSize 0 0 v.cols v.rows))
    (h : b ∈ BlockProcessor.blocks v.m_block_size bbox) :
    ¬ b.empty ∧ b.inside bbox ∧
    ∃ k l : Int, (0 ≤ k ∧ k * v.m_block_size.x < v.cols) ∧
      (0 ≤ l ∧ l * v.m_block_size.y < v.rows) ∧ b.inside (v.blockBBox k l) := by
  obtain ⟨hne, k, l, ⟨k1, k2⟩, ⟨l1, l2⟩, rfl⟩ := blocks_mem v.m_block_size bbox b h
  simp only [BBox2i.empty, not_or, not_le, ge_iff_le] at hne
  simp only [BBox2i.inside, BBox2i.ofSize, zero_add] at hin
  obtain ⟨i1, i2, i3, i4⟩ := hin
  have hk := (Int.le_ediv_iff_mul_le (show 0 < v.m_block_size.x by omega)).1 k2
  have hl := (Int.le_ediv_iff_mul_le (show 0 < v.m_block_size.y by omega)).1 l2
  have hk0 : 0 ≤ k := le_trans (Int.ediv_nonneg i1 (by omega)) k1
  have hl0 : 0 ≤ l := le_trans (Int.ediv_nonneg i3 (by omega)) l1
  have hk' : bbox.min.x < (k + 1) * v.m_block_size.x := by
    have := Int.lt_ediv_add_one_mul_self bbox.min.x (show 0 < v.m_block_size.x by omega)
    have := Int.mul_le_mul_of_nonneg_right (show bbox.min.x / v.m_block_size.x + 1 ≤ k + 1
      by omega) (show 0 ≤ v.m_block_size.x by omega)
    omega
  have hl' : bbox.min.y < (l + 1) * v.m_block_size.y := by
    have := Int.lt_ediv_add_one_mul_self bbox.min.y (show 0 < v.m_block_size.y by omega)
    have := Int.mul_le_mul_of_nonneg_right (show bbox.min.y / v.m_block_size.y + 1 ≤ l + 1
      by omega) (show 0 ≤ v.m_block_size.y by omega)
    omega
  have e1 : (k + 1) * v.m_block_size.x = k * v.m_block_size.x + v.m_block_size.x := by ring
  have e2 : (l + 1) * v.m_block_size.y = l * v.m_block_size.y + v.m_block_size.y := by ring
  have hk3 : 0 ≤ k * v.m_block_size.x := Int.mul_nonneg hk0 (by omega)
  have hl3 : 0 ≤ l * v.m_block_size.y := Int.mul_nonneg hl0 (by omega)
  refine ⟨?_, ?_, k, l, ⟨hk0, by omega⟩, ⟨hl0, by omega⟩, ?_⟩
  · simp only [BBox2i.empty, BBox2i.crop, BBox2i.ofSize, not_or, not_le, ge_iff_le]
    constructor <;> split_ifs <;> omega
  · simp only [BBox2i.inside, BBox2i.crop, BBox2i.ofSize]
    refine ⟨?_, ?_, ?_, ?_⟩ <;> split_ifs <;> omega
  · rw [blockBBox_eq v k l hk0 hl0 hbx hby]
    simp only [BBox2i.inside, BBox2i.crop, BBox2i.ofSize, le_min_iff]
    refine ⟨?_, ⟨?_, ?_⟩, ?_, ?_, ?_⟩ <;> split_ifs <;> omega

/-- Applying, box after box, a functor that rasterizes the child over its box
into the destination at the box less the offset: nothing is raised, the
extents of the buffer stay, every pixel of a box holds the converted child
pixel, and every pixel of no box is as it was. -/
theorem run_spec (conv : α → β) (child : View α) (dest : DestView) (off : Vector2i)
    (f : BBox2i → Dest β → Except Err Unit × Dest β) (hpl : dest.planes = child.planes)
    (l : List BBox2i) (m : Dest β)
    (hf : ∀ b ∈ l, ∀ m, f b m = rasterize conv child (dest.crop (b.sub off)) b m)
    (hl : ∀ b ∈ l, 0 ≤ b.width ∧ 0 ≤ b.height) :
    ∃ m', BlockProcessor.run f l m = (.ok (), m') ∧
      (m'.img.cols = m.img.cols ∧ m'.img.rows = m.img.rows ∧
        m'.img.planes = m.img.planes) ∧
      ∀ x y p, 0 ≤ p → p < (tripCount child.planes : Int) →
        ((∃ b ∈ l, b.contains x y) →
          m'.img.pix (dest.ci + (x - off.x)) (dest.cj + (y - off.y)) p =
            conv (child.pix x y p)) ∧
        ((∀ b ∈ l, ¬ b.contains x y) →
          m'.img.pix (dest.ci + (x - off.x)) (dest.cj + (y - off.y)) p =
            m.img.pix (dest.ci + (x - off.x)) (dest.cj + (y - off.y)) p) := by
  induction l generalizing m with
  | nil =>
    refine ⟨m, rfl, ⟨rfl, rfl, rfl⟩, fun x y p _ _ => ⟨?_, fun _ => rfl⟩⟩
    rintro ⟨b, hb, -⟩
    exact absurd hb (by simp)
  | cons b rest ih =>
    obtain ⟨hw, hh⟩ := hl b (by simp)
    obtain ⟨e1, e2⟩ := sub_extents b off
    obtain ⟨hok, hpix, -, hframe⟩ := rasterize_ok conv child (dest.crop (b.sub off)) b m hw hh
      ⟨e1, e2, hpl⟩
    have hext : (rasterize conv child (dest.crop (b.sub off)) b m).2.img.cols = m.img.cols ∧
        (rasterize conv child (dest.crop (b.sub off)) b m).2.img.rows = m.img.rows ∧
        (rasterize conv child (dest.crop (b.sub off)) b m).2.img.planes = m.img.planes := by
      unfold rasterize
      rw [if_pos ⟨e1, e2, hpl⟩]
      exact planeLoop_extents _ _ _ _ _ _ _ _
    generalize hm1 : (rasterize conv child (dest.crop (b.sub off)) b m).2 = m1 at *
    have hfb : f b m = (.ok (), m1) := by
      rw [hf b (by simp) m]
      exact Prod.ext hok hm1
    obtain ⟨m', hrun, hext', hrest⟩ := ih m1 (fun b' hb' => hf b' (by simp [hb']))
      (fun b' hb' => hl b' (by simp [hb']))
    refine ⟨m', ?_, ⟨hext'.1.trans hext.1, hext'.2.1.trans hext.2.1,
      hext'.2.2.trans hext.2.2⟩, ?_⟩
    · simp only [BlockProcessor.run, hfb]
      exact hrun
    · intro x y p hp0 hp1
      obtain ⟨r1, r2⟩ := hrest x y p hp0 hp1
      -- the pixel in the buffer after the first box
      have hfirst : b.contains x y →
          m1.img.pix (dest.ci + (x - off.x)) (dest.cj + (y - off.y)) p =
            conv (child.pix x y p) := by
        rintro ⟨c1, c2, c3, c4⟩
        have := hpix (x - b.min.x) (y - b.min.y) p (by omega)
          (by simp only [BBox2i.width]; omega) (by omega)
          (by simp only [BBox2i.height]; omega) hp0 hp1
        simp only [DestView.pix, DestView.crop, BBox2i.sub] at this
        have ex : dest.ci + (b.min.x - off.x) + (x - b.min.x) = dest.ci + (x - off.x) := by ring
        have ey : dest.cj + (b.min.y - off.y) + (y - b.min.y) = dest.cj + (y - off.y) := by ring
        have ex' : b.min.x + (x - b.min.x) = x := by ring
        have ey' : b.min.y + (y - b.min.y) = y := by ring
        rw [ex, ey, ex', ey'] at this
        exact this
      have hother : ¬ b.contains x y →
          m1.img.pix (dest.ci + (x - off.x)) (dest.cj + (y - off.y)) p =
            m.img.pix (dest.ci + (x - off.x)) (dest.cj + (y - off.y)) p := by
        intro hnot
        apply hframe
        rw [mem_rasterOrder]
        simp only [DestView.crop, BBox2i.sub]
        intro hmem
        apply hnot
        have hW := Int.toNat_of_nonneg hw
        have hH := Int.toNat_of_nonneg hh
        simp only [BBox2i.width, BBox2i.height] at hW hH
        simp only [BBox2i.contains]
        simp only [BBox2i.width, BBox2i.height] at hmem
        omega
      constructor
      · rintro ⟨b', hb', hcon⟩
        by_cases hr : ∃ b'' ∈ rest, b''.contains x y
        · exact r1 hr
        · have hb'' : b' = b := by
            rcases List.mem_cons.1 hb' with h | h
            · exact h
            · exact absurd ⟨b', h, hcon⟩ hr
          subst hb''
          rw [r2 (fun b'' h'' hc'' => hr ⟨b'', h'', hc''⟩)]
          exact hfirst hcon
      · intro hnone
        rw [r2 (fun b'' h'' => hnone b'' (by simp [h''])), hother (hnone b (by simp))]

end Processor

section ClaimsPrerasterize

variable {α β : Type}

open BlockRasterizeView

/-- C9: for every view that the constructor returns, every schedule of the
thread pool (a permutation of the sub-boxes) and every bounding box (with
`min ≤ max`) inside the image, `prerasterize( bbox )` raises nothing, allocates
a buffer of extents `(bbox.width, bbox.height, planes)` and returns a view that
reports the `cols()` and `rows()` of the original view and whose pixel at every
`(x, y, p)` with `(x, y)` in `bbox` is the buffer pixel
`(x - bbox.min.x, y - bbox.min.y, p)`, which is the child's pixel at `(x, y, p)`
and what single-pixel access to the original view returns. -/
theorem prerasterize_holds_child_pixels [Inhabited α] (sz : Int) (child : View α)
    (bs : Vector2i) (nt : Int) (cache : Option Cache) (v : BlockRasterizeView α) (lvl : Nat)
    (sched : List BBox2i → List BBox2i) (bbox : BBox2i)
    (hv : BlockRasterizeView.new sz child bs nt cache = .ok v)
    (hsched : ∀ l, (sched l).Perm l)
    (hwf : bbox.min.x ≤ bbox.max.x ∧ bbox.min.y ≤ bbox.max.y)
    (hin : bbox.inside child.bounds) :
    ∃ cv, v.prerasterize lvl sched bbox = .ok cv ∧
      (cv.child.cols = bbox.width ∧ cv.child.rows = bbox.height ∧
        cv.child.planes = v.planes) ∧
      (cv.cols = v.cols ∧ cv.rows = v.rows) ∧
      ∀ x y p, bbox.contains x y → 0 ≤ p → p < v.planes →
        cv.operatorCall x y p = cv.child.pix (x - bbox.min.x) (y - bbox.min.y) p ∧
        cv.operatorCall x y p = child.pix x y p ∧
        v.operatorCall x y p = .ok (cv.operatorCall x y p) := by
  obtain ⟨hch, hnt, hcp, -, -⟩ := new_shape sz child bs nt cache v hv
  have hvc : v.cols = child.cols := by simp only [cols, hch]
  have hvr : v.rows = child.rows := by simp only [rows, hch]
  have hvp : v.planes = child.planes := by simp only [planes, hch]
  -- the list of sub-boxes that the processor walks
  have hlist : ∀ b, b ∈ (if v.m_num_threads ≤ 1 then BlockProcessor.blocks v.m_block_size bbox
      else sched (BlockProcessor.blocks v.m_block_size bbox)) ↔
      b ∈ BlockProcessor.blocks v.m_block_size bbox := by
    intro b
    split_ifs
    · rfl
    · exact (hsched _).mem_iff
  generalize hL : (if v.m_num_threads ≤ 1 then BlockProcessor.blocks v.m_block_size bbox
      else sched (BlockProcessor.blocks v.m_block_size bbox)) = L at hlist
  have hpre : ∀ m', BlockProcessor.run (RasterizeFunctor.operatorCall lvl (id : α → α)
        ⟨v, DestView.whole (ImageView.alloc bbox.width bbox.height v.planes : View α),
          bbox.min⟩) L
        ⟨ImageView.alloc bbox.width bbox.height v.planes, []⟩ = (.ok (), m') →
      v.prerasterize lvl sched bbox = .ok (CropView.ofBBox m'.img
        (BBox2i.ofSize (-bbox.min.x) (-bbox.min.y) v.cols v.rows)) := by
    intro m' hm'
    unfold prerasterize BlockRasterizeView.rasterize BlockProcessor.operatorCall
    simp only [hL, hm']
  have hcvc : ∀ img : View α, (CropView.ofBBox img
      (BBox2i.ofSize (-bbox.min.x) (-bbox.min.y) v.cols v.rows)).cols = v.cols ∧
      (CropView.ofBBox img
        (BBox2i.ofSize (-bbox.min.x) (-bbox.min.y) v.cols v.rows)).rows = v.rows := by
    intro img
    simp only [CropView.cols, CropView.rows, CropView.ofBBox, BBox2i.ofSize, BBox2i.width,
      BBox2i.height]
    constructor <;> ring
  by_cases hne : bbox.empty
  · -- a region of no area has no sub-box
    have hnil : L = [] := by
      apply List.eq_nil_iff_forall_not_mem.2
      intro b hb
      have := (hlist b).1 hb
      unfold BlockProcessor.blocks at this
      rw [if_pos hne] at this
      exact absurd this (by simp)
    subst hnil
    refine ⟨_, hpre _ rfl, ⟨rfl, rfl, rfl⟩, hcvc _, ?_⟩
    intro x y p hcon
    simp only [BBox2i.empty, BBox2i.contains] at hne hcon
    omega
  · have hne' := hne
    simp only [BBox2i.empty, not_or, not_le, ge_iff_le] at hne'
    have hin' := hin
    simp only [BBox2i.inside, View.bounds, BBox2i.ofSize, zero_add] at hin'
    obtain ⟨i1, i2, i3, i4⟩ := hin'
    have hcols : 1 ≤ child.cols := by omega
    have hrows : 1 ≤ child.rows := by omega
    obtain ⟨-, -, -, hbx, hby, -, hbuilt, -⟩ := new_spec sz child bs nt cache v hcols hrows hv
    have hinv : bbox.inside (BBox2i.ofSize 0 0 v.cols v.rows) := by
      rw [hvc, hvr]; exact hin
    -- on every sub-box the functor rasterizes the child
    have hf : ∀ b ∈ L, ∀ m, RasterizeFunctor.operatorCall lvl (id : α → α)
        ⟨v, DestView.whole (ImageView.alloc bbox.width bbox.height v.planes : View α),
          bbox.min⟩ b m =
        rasterize id child ((DestView.whole
          (ImageView.alloc bbox.width bbox.height v.planes : View α)).crop (b.sub bbox.min))
          b m := by
      intro b hb m
      obtain ⟨hbne, -, k, l, ⟨k0, k1⟩, ⟨l0, l1⟩, hbin⟩ := blocks_good v bbox b hbx hby hinv
        ((hlist b).1 hb)
      cases hcache : cache with
      | none =>
        unfold RasterizeFunctor.operatorCall
        simp only [hcp, hcache, hch, View.rasterize]
      | some c =>
        have hb' := hbuilt c hcache
        have := functor_cached_eq lvl (id : α → α) c v (by rw [hcp, hcache]) hb' hbx hby
          (DestView.whole (ImageView.alloc bbox.width bbox.height v.planes : View α))
          bbox.min b m k l k0
          (by rw [hb'.1]; exact (lt_table_iff (by omega) (by omega)).2 k1) l0
          (by rw [hb'.2.1]; exact (lt_table_iff (by omega) (by omega)).2 l1) hbin hbne
        rw [this, hch]
        rfl
    have hl : ∀ b ∈ L, 0 ≤ b.width ∧ 0 ≤ b.height := by
      intro b hb
      obtain ⟨hbne, -⟩ := blocks_good v bbox b hbx hby hinv ((hlist b).1 hb)
      simp only [BBox2i.empty, not_or, not_le, ge_iff_le] at hbne
      simp only [BBox2i.width, BBox2i.height]
      omega
    obtain ⟨m', hrun, hext, hpix⟩ := run_spec (id : α → α) child
      (DestView.whole (ImageView.alloc bbox.width bbox.height v.planes : View α)) bbox.min
      _ (by simp only [DestView.whole, ImageView.alloc, hvp]) L
      ⟨ImageView.alloc bbox.width bbox.height v.planes, []⟩ hf hl
    refine ⟨_, hpre m' hrun, hext, hcvc _, ?_⟩
    intro x y p hcon hp0 hp1
    obtain ⟨b, hb, hbc⟩ := blocks_cover v.m_block_size bbox hbx hby x y hcon
    have hval := (hpix x y p hp0 (by rw [tripCount_of_nonneg (by omega)]; omega)).1
      ⟨b, (hlist b).2 hb, hbc⟩
    simp only [DestView.whole, ImageView.alloc, zero_add, id] at hval
    have e1 : (CropView.ofBBox m'.img
        (BBox2i.ofSize (-bbox.min.x) (-bbox.min.y) v.cols v.rows)).operatorCall x y p =
        m'.img.pix (x - bbox.min.x) (y - bbox.min.y) p := by
      simp only [CropView.operatorCall, CropView.ofBBox, BBox2i.ofSize]
      congr 1
    refine ⟨e1, e1.trans hval, ?_⟩
    rw [e1, hval]
    obtain ⟨c1, c2, c3, c4⟩ := hcon
    have hib : v.m_child.inBounds x y p := by
      rw [hch]
      exact ⟨by omega, by omega, by omega, by omega, hp0, by omega⟩
    cases hcache : cache with
    | none =>
      unfold operatorCall
      rw [hcp, hcache, hch]
    | some c =>
      rw [(operatorCall_built c v (by rw [hcp, hcache]) (hbuilt c hcache) hbx hby x y p hib).1,
        hch]

theorem prerasterize_holds_child_pixels_witness :
    (BlockRasterizeView.new 1 Example.child ⟨2, 2⟩ 0 (some vw_system_cache) =
        .ok Example.cachedView ∧
      Example.box.inside Example.child.bounds) ∧
    ∃ cv, Example.cachedView.prerasterize 2 id Example.box = .ok cv ∧
      cv.cols = Example.cachedView.cols ∧ cv.operatorCall 2 2 1 = Example.child.pix 2 2 1 :=
  ⟨⟨rfl, by decide⟩,
    (prerasterize_holds_child_pixels 1 Example.child ⟨2, 2⟩ 0 (some vw_system_cache)
      Example.cachedView 2 id Example.box rfl (fun _ => List.Perm.refl _) (by decide)
      (by decide)).imp
      (fun _ h => ⟨h.1, h.2.2.1.1,
        (h.2.2.2 2 2 1 (by decide) (by decide) (by decide)).2.1⟩)⟩

end ClaimsPrerasterize

section ClaimsZeroArea

variable {α β : Type}

/-- C14: for every source view and every bounding box of no area (width 0 or
height 0) with a destination of matching extents, the default `vw::rasterize`
returns without an exception and stores no pixel: the destination memory,
pixels and store log, is as it was. -/
theorem rasterize_zero_area_noop (conv : α → β) (src : View α) (dest : DestView)
    (bbox : BBox2i) (m : Dest β) (harea : bbox.width = 0 ∨ bbox.height = 0)
    (hext : dest.cols = bbox.width ∧ dest.rows = bbox.height ∧ dest.planes = src.planes) :
    (rasterize conv src dest bbox m).1 = .ok () ∧
    (rasterize conv src dest bbox m).2 = m ∧
    (rasterize conv src dest bbox m).2.stores = m.stores ∧
    ∀ x y p, (rasterize conv src dest bbox m).2.img.pix x y p = m.img.pix x y p := by
  have h2 := rasterize_empty conv src dest bbox m harea
  refine ⟨?_, h2, by rw [h2], fun x y p => by rw [h2]⟩
  unfold rasterize
  rw [if_pos hext]

theorem rasterize_zero_area_noop_witness :
    ((BBox2i.ofSize 1 1 0 2).width = 0 ∧
      (DestView.mk 0 0 0 2 2).planes = Example.child.planes) ∧
    (rasterize id Example.child ⟨0, 0, 0, 2, 2⟩ (BBox2i.ofSize 1 1 0 2) Example.dest).1
      = .ok () ∧
    (rasterize id Example.child ⟨0, 0, 0, 2, 2⟩ (BBox2i.ofSize 1 1 0 2) Example.dest).2
      = Example.dest :=
  have h := rasterize_zero_area_noop id Example.child ⟨0, 0, 0, 2, 2⟩ (BBox2i.ofSize 1 1 0 2)
    Example.dest (Or.inl (by decide)) (by decide)
  ⟨⟨by decide, by decide⟩, h.1, h.2.1⟩

end ClaimsZeroArea

section FastPath

variable {α β : Type}

open BlockRasterizeView

/-- With a cache `operator()` is the early-out when the table has one block and
the general path otherwise. -/
theorem operatorCall_cached [Inhabited α] (v : BlockRasterizeView α) (cache : Cache)
    (hc : v.m_cache_ptr = some cache) (x y p : Int) :
    v.operatorCall x y p =
      if v.m_block_table_size = 1 then v.fastPath x y p else v.generalPath x y p := by
  unfold operatorCall fastPath generalPath
  rw [hc]

/-- The general cached path in a built view, at a coordinate inside the image,
returns the child's pixel. -/
theorem generalPath_built [Inhabited α] (cache : Cache) (v : BlockRasterizeView α)
    (hb : Built cache v) (hbx : 1 ≤ v.m_block_size.x) (hby : 1 ≤ v.m_block_size.y)
    (x y p : Int) (hin : v.m_child.inBounds x y p) :
    v.generalPath x y p = .ok (v.m_child.pix x y p) := by
  obtain ⟨hx0, hx1, hy0, hy1, hp0, hp1⟩ := hin
  have hxr : 0 ≤ x ∧ x < v.cols := ⟨hx0, hx1⟩
  have hyr : 0 ≤ y ∧ y < v.rows := ⟨hy0, hy1⟩
  have hix := tdiv_in_table hbx hxr
  have hiy := tdiv_in_table hby hyr
  rw [← hb.1] at hix
  rw [← hb.2.1] at hiy
  have hblock := block_of_built cache v hb _ _ hix.1 hix.2 hiy.1 hiy.2
  have hcon : (v.blockBBox (Int.tdiv x v.m_block_size.x)
      (Int.tdiv y v.m_block_size.y)).contains x y :=
    (blockBBox_contains_iff v _ _ x y hix.1 hiy.1 hbx hby hxr hyr).2 ⟨rfl, rfl⟩
  obtain ⟨hqx1, hqx2⟩ := (tdiv_eq_iff hx0 (show 0 < v.m_block_size.x by omega)).1 rfl
  obtain ⟨hqy1, hqy2⟩ := (tdiv_eq_iff hy0 (show 0 < v.m_block_size.y by omega)).1 rfl
  obtain ⟨img, hd, -, -, -, hpix⟩ := block_buffer_spec cache v _ _ hix.1 hiy.1 hbx hby
    (by omega) (by omega)
  have hval := hpix x y p hcon hp0 (by rw [tripCount_of_nonneg (by omega)]; exact hp1)
  unfold generalPath
  simp only [idiv, if_neg (show ¬ v.m_block_size.x = 0 by omega),
    if_neg (show ¬ v.m_block_size.y = 0 by omega)]
  rw [hblock]
  simp only
  rw [hd]
  simp only
  rw [hval]

/-- The early-out in a built view whose image is no larger than one block, at a
coordinate inside the image: slot 0 holds the handle of block `(0, 0)`, whose
buffer is the image, and the value read is the child's pixel. -/
theorem fastPath_built [Inhabited α] (cache : Cache) (v : BlockRasterizeView α)
    (hb : Built cache v) (hcols : v.cols ≤ v.m_block_size.x)
    (hrows : v.rows ≤ v.m_block_size.y) (x y p : Int) (hin : v.m_child.inBounds x y p) :
    v.m_block_table.getD 0 default = cache.insert ⟨v.m_child, v.blockBBox 0 0⟩ ∧
    v.blockBBox 0 0 = ⟨⟨0, 0⟩, ⟨v.cols, v.rows⟩⟩ ∧
    v.fastPath x y p = .ok (v.m_child.pix x y p) := by
  obtain ⟨hx0, hx1, hy0, hy1, hp0, hp1⟩ := hin
  have hc1 : 1 ≤ v.cols := by simp only [cols]; omega
  have hr1 : 1 ≤ v.rows := by simp only [rows]; omega
  have hbx : 1 ≤ v.m_block_size.x := by omega
  have hby : 1 ≤ v.m_block_size.y := by omega
  have hw : 0 < v.m_table_width := by
    rw [hb.1]
    have := tdiv_nonneg (show 0 ≤ v.cols - 1 by omega) (show 0 < v.m_block_size.x by omega)
    omega
  have hh : 0 < v.m_table_height := by
    rw [hb.2.1]
    have := tdiv_nonneg (show 0 ≤ v.rows - 1 by omega) (show 0 < v.m_block_size.y by omega)
    omega
  have h0 := hb.2.2.2.2 0 0 (le_refl 0) hw (le_refl 0) hh
  have e0 : ((0 : Int) + 0 * v.m_table_width).toNat = 0 := by simp
  rw [e0] at h0
  have hslot : v.m_block_table.getD 0 default = cache.insert ⟨v.m_child, v.blockBBox 0 0⟩ := by
    rw [List.getD_eq_getElem?_getD, h0]
    rfl
  have hbox : v.blockBBox 0 0 = ⟨⟨0, 0⟩, ⟨v.cols, v.rows⟩⟩ := by
    rw [blockBBox_eq v 0 0 (le_refl 0) (le_refl 0) hbx hby]
    simp only [zero_mul, zero_add, one_mul]
    rw [min_eq_right hcols, min_eq_right hrows]
  obtain ⟨img, hd, -, -, -, hpix⟩ := block_buffer_spec cache v 0 0 (le_refl 0) (le_refl 0)
    hbx hby (by omega) (by omega)
  have hcon : (v.blockBBox 0 0).contains x y := by
    rw [hbox]
    exact ⟨hx0, hx1, hy0, hy1⟩
  have hval := hpix x y p hcon hp0 (by rw [tripCount_of_nonneg (by omega)]; exact hp1)
  simp only [zero_mul, sub_zero] at hval
  refine ⟨hslot, hbox, ?_⟩
  unfold fastPath
  rw [hslot, hd]
  simp only
  rw [hval]

end FastPath

section ClaimsFastPath

variable {α β : Type}

open BlockRasterizeView

/-- C11: for every cached view whose image is no larger than one block
(`1 ≤ cols ≤ bw` and `1 ≤ rows ≤ bh`) the block table has exactly one entry, so
that `operator()` takes the early-out, and for every in-bounds coordinate
`(x, y, p)` the early-out (handle 0 read at `(x, y, p)`) returns what the general
path returns, the child's pixel: the block index `(x div bw, y div bh)` is
`(0, 0)` and the block-local coordinate is `(x, y)`. -/
theorem single_block_fast_path_eq_general (sz : Int) [Inhabited α] (child : View α)
    (bw bh nt : Int) (cache : Cache) (hcols : 1 ≤ child.cols ∧ child.cols ≤ bw)
    (hrows : 1 ≤ child.rows ∧ child.rows ≤ bh) :
    ∃ v, BlockRasterizeView.new sz child ⟨bw, bh⟩ nt (some cache) = .ok v ∧
      (v.m_table_width = 1 ∧ v.m_table_height = 1 ∧ v.m_block_table_size = 1 ∧
        v.m_block_table.length = 1) ∧
      ∀ x y p, child.inBounds x y p →
        v.operatorCall x y p = v.fastPath x y p ∧
        v.fastPath x y p = v.generalPath x y p ∧
        v.fastPath x y p = .ok (child.pix x y p) ∧
        (Int.tdiv x bw = 0 ∧ Int.tdiv y bh = 0) ∧
        (x - Int.tdiv x bw * bw = x ∧ y - Int.tdiv y bh * bh = y) := by
  have hbw : 1 ≤ bw := by omega
  have hbh : 1 ≤ bh := by omega
  have hqc : Int.tdiv (child.cols - 1) bw = 0 :=
    (tdiv_eq_iff (by omega) (by omega)).2 ⟨by omega, by omega⟩
  have hqr : Int.tdiv (child.rows - 1) bh = 0 :=
    (tdiv_eq_iff (by omega) (by omega)).2 ⟨by omega, by omega⟩
  obtain ⟨v, hv⟩ := new_ok_of_pos sz child ⟨bw, bh⟩ nt (some cache) hcols.1 hrows.1 hbw hbh
    (fun _ => by
      simp only [hqc, hqr]
      decide)
  obtain ⟨hch, -, hcp, -, -, hbs, hbuilt, -⟩ := new_spec sz child ⟨bw, bh⟩ nt (some cache) v
    hcols.1 hrows.1 hv
  have hbs := hbs hbw hbh
  have hb := hbuilt cache rfl
  have hbx : v.m_block_size.x = bw := by rw [hbs]
  have hby : v.m_block_size.y = bh := by rw [hbs]
  have hvc : v.cols = child.cols := by simp only [cols, hch]
  have hvr : v.rows = child.rows := by simp only [rows, hch]
  have htw : v.m_table_width = 1 := by rw [hb.1, hvc, hbx, hqc]; rfl
  have hth : v.m_table_height = 1 := by rw [hb.2.1, hvr, hby, hqr]; rfl
  have hsize : v.m_block_table_size = 1 := by rw [hb.2.2.1, htw, hth]; rfl
  have hlen : v.m_block_table.length = 1 := by rw [hb.2.2.2.1, hsize]; rfl
  refine ⟨v, hv, ⟨htw, hth, hsize, hlen⟩, ?_⟩
  intro x y p hin
  have hin' : v.m_child.inBounds x y p := hch ▸ hin
  obtain ⟨-, -, hfast⟩ := fastPath_built cache v hb (by omega) (by omega) x y p hin'
  have hgen := generalPath_built cache v hb (by omega) (by omega) x y p hin'
  obtain ⟨hx0, hx1, hy0, hy1, -, -⟩ := hin
  have hqx : Int.tdiv x bw = 0 := (tdiv_eq_iff hx0 (by omega)).2 ⟨by omega, by omega⟩
  have hqy : Int.tdiv y bh = 0 := (tdiv_eq_iff hy0 (by omega)).2 ⟨by omega, by omega⟩
  refine ⟨?_, by rw [hfast, hgen], by rw [hfast, hch], ⟨hqx, hqy⟩, ?_⟩
  · rw [operatorCall_cached v cache hcp, if_pos hsize]
  · rw [hqx, hqy]
    omega

theorem single_block_fast_path_eq_general_witness :
    ((1 ≤ Example.child.cols ∧ Example.child.cols ≤ 8) ∧
      (1 ≤ Example.child.rows ∧ Example.child.rows ≤ 4) ∧ Example.child.inBounds 4 2 1) ∧
    ∃ v, BlockRasterizeView.new 1 Example.child ⟨8, 4⟩ 0 (some vw_system_cache) = .ok v ∧
      v.m_block_table.length = 1 ∧ v.fastPath 4 2 1 = v.generalPath 4 2 1 :=
  ⟨by decide,
    (single_block_fast_path_eq_general 1 Example.child 8 4 0 vw_system_cache (by decide)
      (by decide)).imp
      (fun _ h => ⟨h.1, h.2.1.2.2.2, (h.2.2 4 2 1 (by decide)).2.1⟩)⟩

end ClaimsFastPath

section Debug

variable {α β : Type}

open BlockRasterizeView

/-- The default rasterization function raises nothing but an argument error. -/
theorem rasterize_outcome (conv : α → β) (src : View α) (dest : DestView) (bbox : BBox2i)
    (m : Dest β) :
    (rasterize conv src dest bbox m).1 = .ok () ∨
      (rasterize conv src dest bbox m).1 = .error .ArgumentErr := by
  unfold rasterize
  split_ifs
  · exact Or.inl rfl
  · exact Or.inr rfl

/-- Dereferencing a handle raises no logic error. -/
theorem deref_ne_logicErr [Inhabited α] (h : Handle α) : h.deref ≠ .error .LogicErr := by
  unfold Handle.deref
  split
  · simp
  · rename_i g _
    unfold BlockGenerator.generate View.rasterize
    dsimp only
    split
    · simp
    · rename_i e m heq
      have := rasterize_outcome (id : α → α) g.m_child
        (DestView.whole (ImageView.alloc g.m_bbox.width g.m_bbox.height g.m_child.planes :
          View α)) g.m_bbox ⟨ImageView.alloc g.m_bbox.width g.m_bbox.height g.m_child.planes, []⟩
      rw [heq] at this
      rcases this with h1 | h1
      · exact absurd h1 (by simp)
      · simp only [Except.error.injEq] at h1
        subst h1
        simp

/-- The quotient by a positive block extent does not decrease. -/
theorem tdiv_mono {x y b : Int} (hx : 0 ≤ x) (hxy : x ≤ y) (hb : 1 ≤ b) :
    Int.tdiv x b ≤ Int.tdiv y b := by
  rw [Int.tdiv_eq_ediv hx (by omega), Int.tdiv_eq_ediv (by omega) (by omega)]
  exact Int.ediv_le_ediv (by omega) hxy

/-- With debug checking and a cache, a positive block size: the functor raises a
logic error exactly when the quotients of the first and of the last pixel of
the box differ. -/
theorem functor_logicErr_iff [Inhabited α] (lvl : Nat) (conv : α → β) (cache : Cache)
    (v : BlockRasterizeView α) (hc : v.m_cache_ptr = some cache)
    (hbx : 1 ≤ v.m_block_size.x) (hby : 1 ≤ v.m_block_size.y) (dest : DestView)
    (off : Vector2i) (b : BBox2i) (m : Dest β) (hlvl : 1 < lvl) :
    (RasterizeFunctor.operatorCall lvl conv ⟨v, dest, off⟩ b m).1 = .error .LogicErr ↔
      (Int.tdiv (b.max.x - 1) v.m_block_size.x ≠ Int.tdiv b.min.x v.m_block_size.x ∨
        Int.tdiv (b.max.y - 1) v.m_block_size.y ≠ Int.tdiv b.min.y v.m_block_size.y) := by
  unfold RasterizeFunctor.operatorCall
  simp only [hc, withValue, idiv, if_neg (show ¬ v.m_block_size.x = 0 by omega),
    if_neg (show ¬ v.m_block_size.y = 0 by omega), if_pos (show lvl > 1 from hlvl)]
  by_cases hspan : Int.tdiv (b.max.x - 1) v.m_block_size.x ≠ Int.tdiv b.min.x v.m_block_size.x ∨
      Int.tdiv (b.max.y - 1) v.m_block_size.y ≠ Int.tdiv b.min.y v.m_block_size.y
  · rw [if_pos hspan]
    exact ⟨fun _ => hspan, fun _ => rfl⟩
  · rw [if_neg hspan]
    refine ⟨fun h => ?_, fun h => absurd h hspan⟩
    exfalso
    simp only at h
    split at h
    · rename_i e he
      simp only [Except.error.injEq] at h
      subst h
      unfold block at he
      split_ifs at he
      simp at he
    · rename_i handle _
      split at h
      · rename_i e he
        simp only [Except.error.injEq] at h
        subst h
        exact deref_ne_logicErr handle he
      · rename_i img _
        have := rasterize_outcome conv img (dest.crop (b.sub off))
          (b.sub ⟨Int.tdiv b.min.x v.m_block_size.x * v.m_block_size.x,
            Int.tdiv b.min.y v.m_block_size.y * v.m_block_size.y⟩) m
        simp only [View.rasterize] at h
        rw [h] at this
        simp at this

/-- Along one axis, for a non-empty range of non-negative coordinates: the
quotients of the first and of the last coordinate differ exactly when two
coordinates of the range have different quotients. -/
theorem span_axis_iff {lo hi b : Int} (hlo : 0 ≤ lo) (hne : lo < hi) (hb : 1 ≤ b) :
    Int.tdiv (hi - 1) b ≠ Int.tdiv lo b ↔
      ∃ x x', (lo ≤ x ∧ x < hi) ∧ (lo ≤ x' ∧ x' < hi) ∧ Int.tdiv x b ≠ Int.tdiv x' b := by
  constructor
  · intro h
    exact ⟨hi - 1, lo, ⟨by omega, by omega⟩, ⟨by omega, by omega⟩, h⟩
  · rintro ⟨x, x', ⟨h1, h2⟩, ⟨h3, h4⟩, hd⟩ heq
    have a1 := tdiv_mono hlo h1 hb
    have a2 := tdiv_mono (show 0 ≤ x by omega) (show x ≤ hi - 1 by omega) hb
    have a3 := tdiv_mono hlo h3 hb
    have a4 := tdiv_mono (show 0 ≤ x' by omega) (show x' ≤ hi - 1 by omega) hb
    omega

end Debug

section ClaimsDebug

variable {α β : Type}

open BlockRasterizeView

/-- C13: with debug checking (`VW_DEBUG_LEVEL > 1`) and a cache, in a view of
positive block size, for every non-empty sub-box `b` with non-negative
coordinates the rasterization functor raises a logic error if and only if
`(b.max.x - 1) div bw ≠ b.min.x div bw` or `(b.max.y - 1) div bh ≠ b.min.y div bh`,
which is to say if and only if `b` spans more than one block: two of its pixels
have different block indices.  A sub-box all of whose pixels lie in one block
never raises it. -/
theorem debug_check_raises_iff_spans_blocks [Inhabited α] (lvl : Nat) (conv : α → β)
    (cache : Cache) (v : BlockRasterizeView α) (dest : DestView) (off : Vector2i)
    (b : BBox2i) (m : Dest β) (hc : v.m_cache_ptr = some cache)
    (hbx : 1 ≤ v.m_block_size.x) (hby : 1 ≤ v.m_block_size.y) (hlvl : 1 < lvl)
    (hne : ¬ b.empty) (hpos : 0 ≤ b.min.x ∧ 0 ≤ b.min.y) :
    ((RasterizeFunctor.operatorCall lvl conv ⟨v, dest, off⟩ b m).1 = .error .LogicErr ↔
      (Int.tdiv (b.max.x - 1) v.m_block_size.x ≠ Int.tdiv b.min.x v.m_block_size.x ∨
        Int.tdiv (b.max.y - 1) v.m_block_size.y ≠ Int.tdiv b.min.y v.m_block_size.y)) ∧
    ((RasterizeFunctor.operatorCall lvl conv ⟨v, dest, off⟩ b m).1 = .error .LogicErr ↔
      ∃ x y x' y', b.contains x y ∧ b.contains x' y' ∧
        (Int.tdiv x v.m_block_size.x ≠ Int.tdiv x' v.m_block_size.x ∨
          Int.tdiv y v.m_block_size.y ≠ Int.tdiv y' v.m_block_size.y)) ∧
    (∀ ix iy : Int,
      (∀ x y, b.contains x y →
        Int.tdiv x v.m_block_size.x = ix ∧ Int.tdiv y v.m_block_size.y = iy) →
      (RasterizeFunctor.operatorCall lvl conv ⟨v, dest, off⟩ b m).1 ≠ .error .LogicErr) := by
  have key := functor_logicErr_iff lvl conv cache v hc hbx hby dest off b m hlvl
  simp only [BBox2i.empty, not_or, not_le, ge_iff_le] at hne
  have hx := span_axis_iff hpos.1 hne.1 hbx
  have hy := span_axis_iff hpos.2 hne.2 hby
  have hsem : (Int.tdiv (b.max.x - 1) v.m_block_size.x ≠ Int.tdiv b.min.x v.m_block_size.x ∨
        Int.tdiv (b.max.y - 1) v.m_block_size.y ≠ Int.tdiv b.min.y v.m_block_size.y) ↔
      ∃ x y x' y', b.contains x y ∧ b.contains x' y' ∧
        (Int.tdiv x v.m_block_size.x ≠ Int.tdiv x' v.m_block_size.x ∨
          Int.tdiv y v.m_block_size.y ≠ Int.tdiv y' v.m_block_size.y) := by
    constructor
    · rintro (h | h)
      · obtain ⟨x, x', h1, h2, hd⟩ := hx.1 h
        exact ⟨x, b.min.y, x', b.min.y, ⟨h1.1, h1.2, le_refl _, hne.2⟩,
          ⟨h2.1, h2.2, le_refl _, hne.2⟩, Or.inl hd⟩
      · obtain ⟨y, y', h1, h2, hd⟩ := hy.1 h
        exact ⟨b.min.x, y, b.min.x, y', ⟨le_refl _, hne.1, h1.1, h1.2⟩,
          ⟨le_refl _, hne.1, h2.1, h2.2⟩, Or.inr hd⟩
    · rintro ⟨x, y, x', y', ⟨c1, c2, c3, c4⟩, ⟨d1, d2, d3, d4⟩, hd | hd⟩
      · exact Or.inl (hx.2 ⟨x, x', ⟨c1, c2⟩, ⟨d1, d2⟩, hd⟩)
      · exact Or.inr (hy.2 ⟨y, y', ⟨c3, c4⟩, ⟨d3, d4⟩, hd⟩)
  refine ⟨key, key.trans hsem, ?_⟩
  intro ix iy hall hraise
  obtain ⟨x, y, x', y', hc1, hc2, hd⟩ := (key.trans hsem).1 hraise
  obtain ⟨e1, e2⟩ := hall x y hc1
  obtain ⟨e3, e4⟩ := hall x' y' hc2
  rcases hd with hd | hd
  · exact hd (e1.trans e3.symm)
  · exact hd (e2.trans e4.symm)

theorem debug_check_raises_iff_spans_blocks_witness :
    (Example.cachedView.m_cache_ptr = some vw_system_cache ∧
      1 ≤ Example.cachedView.m_block_size.x ∧ ¬ Example.box.empty ∧
      0 ≤ Example.box.min.x) ∧
    ((RasterizeFunctor.operatorCall 2 id
        ⟨Example.cachedView, DestView.whole Example.dest.img, Example.box.min⟩
        Example.box Example.dest).1 = .error .LogicErr ↔
      (Int.tdiv (Example.box.max.x - 1) Example.cachedView.m_block_size.x ≠
          Int.tdiv Example.box.min.x Example.cachedView.m_block_size.x ∨
        Int.tdiv (Example.box.max.y - 1) Example.cachedView.m_block_size.y ≠
          Int.tdiv Example.box.min.y Example.cachedView.m_block_size.y)) :=
  ⟨⟨rfl, by decide, by decide, by decide⟩,
    (debug_check_raises_iff_spans_blocks 2 id vw_system_cache Example.cachedView
      (DestView.whole Example.dest.img) Example.box.min Example.box Example.dest rfl
      (by decide) (by decide) (by decide) (by decide) (by decide)).1⟩

end ClaimsDebug

section Slots

variable {α β : Type}

open BlockRasterizeView

/-- Every flat index below `H * W` is the slot of a block of the `W × H` grid. -/
theorem flat_surj {W H k : Int} (hW : 1 ≤ W) (hk0 : 0 ≤ k) (hk : k < H * W) :
    ∃ ix iy : Int, (0 ≤ ix ∧ ix < W) ∧ (0 ≤ iy ∧ iy < H) ∧ ix + iy * W = k := by
  refine ⟨k % W, k / W, ⟨Int.emod_nonneg k (by omega), Int.emod_lt_of_pos k (by omega)⟩,
    ⟨Int.ediv_nonneg hk0 (by omega), ?_⟩, ?_⟩
  · exact (Int.ediv_lt_iff_lt_mul (by omega)).2 hk
  · have := Int.emod_add_ediv k W
    rw [mul_comm]
    exact this

/-- The list `0, 1, …, n - 1` of integers. -/
theorem rangeInt_succ (n : Nat) :
    (List.range (n + 1)).map (fun (k : Nat) => (k : Int)) =
      (List.range n).map (fun (k : Nat) => (k : Int)) ++ [(n : Int)] := by
  rw [List.range_succ, List.map_append]
  rfl

/-- One pass of the logged loop body fills the next slot and logs its index. -/
theorem initBlockLogged_step (cache : Cache) (v0 : BlockRasterizeView α) (ix iy : Int)
    (s : BlockRasterizeView α × List Int)
    (hlen : v0.m_block_table.length = (v0.m_table_height * v0.m_table_width).toNat)
    (hx0 : 0 ≤ ix) (hx : ix < v0.m_table_width) (hy0 : 0 ≤ iy) (hy : iy < v0.m_table_height)
    (hv : FilledUpTo cache v0 s.1 (ix + iy * v0.m_table_width) ∧
      s.2 = (List.range (ix + iy * v0.m_table_width).toNat).map (fun (k : Nat) => (k : Int))) :
    ∃ s', initBlockLogged cache iy ix s = .ok s' ∧
      FilledUpTo cache v0 s'.1 (ix + 1 + iy * v0.m_table_width) ∧
      s'.2 = (List.range (ix + 1 + iy * v0.m_table_width).toNat).map
        (fun (k : Nat) => (k : Int)) := by
  obtain ⟨hfill, hlog⟩ := hv
  obtain ⟨v', hv', hfill'⟩ := initBlock_step cache v0 s.1 ix iy hlen hx0 hx hy0 hy hfill
  have htw : s.1.m_table_width = v0.m_table_width := hfill.1.2.2.2.2.1
  have hk := (flat_lt hx0 hx hy0 hy).1
  refine ⟨(v', s.2 ++ [ix + iy * s.1.m_table_width]), ?_, hfill', ?_⟩
  · simp only [initBlockLogged, hv']
  · have e : (ix + 1 + iy * v0.m_table_width).toNat =
        (ix + iy * v0.m_table_width).toNat + 1 := by omega
    simp only
    rw [e, rangeInt_succ, hlog, htw, Int.toNat_of_nonneg hk]

/-- The two logged loops fill the whole table, throw nothing, and log the slots
`0, 1, …, H * W - 1` in that order. -/
theorem initLoopsLogged_spec (cache : Cache) (v0 : BlockRasterizeView α)
    (hlen : v0.m_block_table.length = (v0.m_table_height * v0.m_table_width).toNat)
    (hw : 0 ≤ v0.m_table_width) (hh : 0 ≤ v0.m_table_height) :
    ∃ v log, initLoopsLogged cache v0 = .ok (v, log) ∧
      FilledUpTo cache v0 v (v0.m_table_height * v0.m_table_width) ∧
      log = (List.range (v0.m_table_height * v0.m_table_width).toNat).map
        (fun (k : Nat) => (k : Int)) := by
  have key := forUp_inv
    (fun iy (s : BlockRasterizeView α × List Int) =>
      forUp (initBlockLogged cache iy) s.1.m_table_width.toNat 0 s)
    (fun iy s => FilledUpTo cache v0 s.1 (iy * v0.m_table_width) ∧
      s.2 = (List.range (iy * v0.m_table_width).toNat).map (fun (k : Nat) => (k : Int)))
    v0.m_table_height.toNat 0 (v0, [])
    ⟨⟨⟨rfl, rfl, rfl, rfl, rfl, rfl, rfl⟩, rfl, fun ix iy h1 h2 h3 h4 h5 => by
      have := (flat_lt h1 h2 h3 h4).1
      omega⟩, by simp⟩
    (fun iy s hy0 hy hs => by
      have htw : s.1.m_table_width = v0.m_table_width := hs.1.1.2.2.2.2.1
      have hy' : iy < v0.m_table_height := by
        have := Int.toNat_of_nonneg hh
        omega
      have inner := forUp_inv (initBlockLogged cache iy)
        (fun ix s => FilledUpTo cache v0 s.1 (ix + iy * v0.m_table_width) ∧
          s.2 = (List.range (ix + iy * v0.m_table_width).toNat).map
            (fun (k : Nat) => (k : Int)))
        v0.m_table_width.toNat 0 s (by simpa using hs)
        (fun ix s hx0 hx hs => by
          have hx' : ix < v0.m_table_width := by
            have := Int.toNat_of_nonneg hw
            omega
          exact initBlockLogged_step cache v0 ix iy s hlen hx0 hx' hy0 hy' hs)
      obtain ⟨s', hf, hP⟩ := inner
      refine ⟨s', ?_, ?_⟩
      · simp only [htw]; exact hf
      · have e : (0 : Int) + (v0.m_table_width.toNat : Int) + iy * v0.m_table_width =
            (iy + 1) * v0.m_table_width := by
          rw [Int.toNat_of_nonneg hw]; ring
        show FilledUpTo cache v0 s'.1 ((iy + 1) * v0.m_table_width) ∧
          s'.2 = (List.range ((iy + 1) * v0.m_table_width).toNat).map
            (fun (k : Nat) => (k : Int))
        rw [← e]; exact hP)
  obtain ⟨s, hf, hP⟩ := key
  have e : ((0 : Int) + (v0.m_table_height.toNat : Int)) * v0.m_table_width =
      v0.m_table_height * v0.m_table_width := by
    rw [Int.toNat_of_nonneg hh]; ring
  refine ⟨s.1, s.2, hf, ?_, ?_⟩
  · rw [← e]; exact hP.1
  · rw [← e]; exact hP.2

/-- Two views with the members of `v0` and a full table are the same view. -/
theorem filled_unique (cache : Cache) (v0 v v' : BlockRasterizeView α)
    (hW : 1 ≤ v0.m_table_width)
    (hlen : v0.m_block_table.length = (v0.m_table_height * v0.m_table_width).toNat)
    (h1 : FilledUpTo cache v0 v (v0.m_table_height * v0.m_table_width))
    (h2 : FilledUpTo cache v0 v' (v0.m_table_height * v0.m_table_width)) : v = v' := by
  obtain ⟨⟨a1, a2, a3, a4, a5, a6, a7⟩, a8, a9⟩ := h1
  obtain ⟨⟨b1, b2, b3, b4, b5, b6, b7⟩, b8, b9⟩ := h2
  have htab : v.m_block_table = v'.m_block_table := by
    apply List.ext_getElem?
    intro n
    by_cases hn : n < v0.m_block_table.length
    · have hk : ((n : Nat) : Int) < v0.m_table_height * v0.m_table_width := by
        rw [hlen] at hn
        omega
      obtain ⟨ix, iy, hx, hy, he⟩ := flat_surj hW (Int.ofNat_nonneg n) hk
      have c1 := a9 ix iy hx.1 hx.2 hy.1 hy.2 (by omega)
      have c2 := b9 ix iy hx.1 hx.2 hy.1 hy.2 (by omega)
      have en : (ix + iy * v0.m_table_width).toNat = n := by omega
      rw [en] at c1 c2
      rw [c1, c2]
    · rw [List.getElem?_eq_none (by omega), List.getElem?_eq_none (by omega)]
  cases v
  cases v'
  simp only at a1 a2 a3 a4 a5 a6 a7 b1 b2 b3 b4 b5 b6 b7 htab
  simp only [BlockRasterizeView.mk.injEq]
  exact ⟨a1.trans b1.symm, a2.trans b2.symm, a3.trans b3.symm, a4.trans b4.symm,
    a5.trans b5.symm, a6.trans b6.symm, a7.trans b7.symm, htab⟩

end Slots

section ClaimsSlots

variable {α β : Type}

open BlockRasterizeView

/-- C12: for every block table of width `W ≥ 1` and height `H ≥ 1` (a view as
`initialize()` has it before its loops, the table allocated with `H * W` slots),
the slot assignment `(ix, iy) ↦ ix + iy * W` maps the grid one-to-one onto the
flat indices `0 … W*H - 1`; the two loops of `initialize()` throw nothing, assign
the slots `0, 1, …, W*H - 1` in that order, none twice, and afterwards every slot
holds the handle of the generator of its own block, which is what `block()`
returns for that block. -/
theorem slot_assignment_bijection (cache : Cache) (v0 : BlockRasterizeView α) (W H : Int)
    (hW : 1 ≤ W) (hH : 1 ≤ H) (htw : v0.m_table_width = W) (hth : v0.m_table_height = H)
    (hlen : v0.m_block_table.length = (H * W).toNat) :
    (∀ ix iy : Int, 0 ≤ ix → ix < W → 0 ≤ iy → iy < H →
      0 ≤ ix + iy * W ∧ ix + iy * W < H * W) ∧
    (∀ ix iy jx jy : Int, (0 ≤ ix ∧ ix < W) → (0 ≤ jx ∧ jx < W) →
      ix + iy * W = jx + jy * W → ix = jx ∧ iy = jy) ∧
    (∀ k : Int, 0 ≤ k → k < H * W →
      ∃ ix iy : Int, (0 ≤ ix ∧ ix < W) ∧ (0 ≤ iy ∧ iy < H) ∧ ix + iy * W = k) ∧
    ∃ v log,
      forUp (fun iy v => forUp (initBlock cache iy) v.m_table_width.toNat 0 v)
        v0.m_table_height.toNat 0 v0 = .ok v ∧
      initLoopsLogged cache v0 = .ok (v, log) ∧
      log = (List.range (H * W).toNat).map (fun (k : Nat) => (k : Int)) ∧
      log.Nodup ∧ (∀ k : Int, k ∈ log ↔ 0 ≤ k ∧ k < H * W) ∧
      v.m_block_table.length = (H * W).toNat ∧
      ∀ ix iy : Int, 0 ≤ ix → ix < W → 0 ≤ iy → iy < H →
        v.m_block_table[(ix + iy * W).toNat]? =
          some (cache.insert ⟨v0.m_child, v0.blockBBox ix iy⟩) ∧
        v.block ix iy = .ok (cache.insert ⟨v0.m_child, v0.blockBBox ix iy⟩) := by
  subst htw hth
  refine ⟨fun ix iy h1 h2 h3 h4 => flat_lt h1 h2 h3 h4,
    fun ix iy jx jy h1 h2 h => flat_inj h1.1 h1.2 h2.1 h2.2 h,
    fun k h1 h2 => flat_surj hW h1 h2, ?_⟩
  obtain ⟨v, log, hrun, hfill, hlog⟩ := initLoopsLogged_spec cache v0 hlen (by omega) (by omega)
  obtain ⟨v', hrun', hfill'⟩ := initLoops_spec cache v0 hlen (by omega) (by omega)
  have hvv := filled_unique cache v0 v' v hW hlen hfill' hfill
  subst hvv
  have hprod : 0 ≤ v0.m_table_height * v0.m_table_width := Int.mul_nonneg (by omega) (by omega)
  refine ⟨v', log, hrun', hrun, hlog, ?_, ?_, hfill.2.1.trans hlen, ?_⟩
  · rw [hlog]
    exact (List.nodup_range _).map (fun a b h => by simpa using h)
  · intro k
    rw [hlog]
    simp only [List.mem_map, List.mem_range]
    constructor
    · rintro ⟨n, hn, rfl⟩
      omega
    · rintro ⟨h1, h2⟩
      exact ⟨k.toNat, by omega, by omega⟩
  · intro ix iy h1 h2 h3 h4
    have hflat := flat_lt h1 h2 h3 h4
    have hentry := hfill.2.2 ix iy h1 h2 h3 h4 hflat.2
    refine ⟨hentry, ?_⟩
    obtain ⟨-, -, -, -, e5, e6, -⟩ := hfill.1
    unfold block
    have hnot : ¬ v'.outOfTable ix iy := by
      unfold outOfTable
      rw [e5, e6]
      omega
    rw [if_neg hnot, List.getD_eq_getElem?_getD, e5, hentry]
    rfl

theorem slot_assignment_bijection_witness :
    (Example.cachedView.unfilled.m_table_width = 3 ∧
      Example.cachedView.unfilled.m_table_height = 2 ∧
      Example.cachedView.unfilled.m_block_table.length = ((2 : Int) * 3).toNat) ∧
    ∃ v log, initLoopsLogged vw_system_cache Example.cachedView.unfilled = .ok (v, log) ∧
      log.Nodup ∧ v.block 2 1 = .ok (vw_system_cache.insert
        ⟨Example.cachedView.unfilled.m_child, Example.cachedView.unfilled.blockBBox 2 1⟩) :=
  ⟨⟨rfl, rfl, rfl⟩,
    (slot_assignment_bijection vw_system_cache Example.cachedView.unfilled 3 2 (by decide)
      (by decide) rfl rfl rfl).2.2.2.imp
      (fun _ h => h.imp (fun _ g => ⟨g.2.1, g.2.2.2.1,
        (g.2.2.2.2.2.2 2 1 (by decide) (by decide) (by decide) (by decide)).2⟩))⟩

end ClaimsSlots

section Queue

variable {τ : Type}

open ThreadQueue

/-- Pushing a list behind the items of a queue. -/
theorem pushAll_items (q : ThreadQueue τ) (xs : List τ) :
    (q.pushAll xs).items = q.items ++ xs := by
  induction xs generalizing q with
  | nil => simp [pushAll]
  | cons x xs ih =>
    have : q.pushAll (x :: xs) = (q.push x).pushAll xs := rfl
    rw [this, ih]
    simp [push]

/-- Popping as many items as a queue holds returns them from the oldest on. -/
theorem popN_items (xs ys : List τ) :
    popN xs.length (⟨xs ++ ys⟩ : ThreadQueue τ) = some (xs, ⟨ys⟩) := by
  induction xs with
  | nil => rfl
  | cons x xs ih =>
    simp only [List.length_cons, popN, wait_pop, List.cons_append]
    rw [ih]

end Queue

section ClaimsQueue

variable {τ : Type}

open ThreadQueue

/-- C18: for every finite sequence of items pushed into an empty queue by one
thread, successive `wait_pop` calls return the items in exactly the order they
were pushed, the oldest first; `empty()` is true before the first push, false
once an item is pushed and false as long as pushed items remain unpopped.  The
run of `TEST(ThreadQueue, Basic)`, 50 pushes of `0 … 49`, is an instance. -/
theorem thread_queue_fifo (xs : List τ) :
    (ThreadQueue.new : ThreadQueue τ).empty = true ∧
    popN xs.length ((ThreadQueue.new : ThreadQueue τ).pushAll xs) =
      some (xs, ThreadQueue.new) ∧
    (∀ k, k < xs.length →
      ∃ q, popN k ((ThreadQueue.new : ThreadQueue τ).pushAll xs) = some (xs.take k, q) ∧
        q.empty = false ∧ q.wait_pop.map Prod.fst = xs[k]?) ∧
    (xs ≠ [] → ((ThreadQueue.new : ThreadQueue τ).pushAll xs).empty = false) ∧
    popN 50 ((ThreadQueue.new : ThreadQueue Nat).pushAll (List.range 50)) =
      some (List.range 50, ThreadQueue.new) := by
  have hq : ∀ (σ : Type) (l : List σ), (ThreadQueue.new : ThreadQueue σ).pushAll l = ⟨l⟩ := by
    intro σ l
    have := pushAll_items (ThreadQueue.new : ThreadQueue σ) l
    cases h : (ThreadQueue.new : ThreadQueue σ).pushAll l
    rw [h] at this
    simp only [ThreadQueue.new, List.nil_append] at this
    rw [this]
  refine ⟨rfl, ?_, ?_, ?_, ?_⟩
  · rw [hq]
    have := popN_items xs []
    simpa [ThreadQueue.new] using this
  · intro k hk
    rw [hq]
    refine ⟨⟨xs.drop k⟩, ?_, ?_, ?_⟩
    · have h1 := popN_items (xs.take k) (xs.drop k)
      rw [List.take_append_drop, List.length_take, min_eq_left hk.le] at h1
      exact h1
    · rw [List.drop_eq_getElem_cons hk]
      rfl
    · rw [List.drop_eq_getElem_cons hk, List.getElem?_eq_getElem hk]
      rfl
  · intro hne
    rw [hq]
    cases xs with
    | nil => exact absurd rfl hne
    | cons x xs => rfl
  · rw [hq]
    have := popN_items (List.range 50) []
    simpa [ThreadQueue.new] using this

end ClaimsQueue

section CacheStoreLemmas

variable {γ : Type}

open CacheStore

/-- Eviction changes no pin count. -/
theorem evict_unpinned (c : CacheStore γ) (h : Nat) : (c.evict h).unpinned = c.unpinned := by
  funext k
  unfold evict
  cases he : c.entries[h]? with
  | none => rfl
  | some e =>
    simp only [unpinned]
    by_cases hk : h = k
    · subst hk
      have hlt : h < c.entries.length := by
        rcases Nat.lt_or_ge h c.entries.length with hl | hl
        · exact hl
        · rw [List.getElem?_eq_none hl] at he
          cases he
      rw [List.getElem?_set_self hlt, he]
    · rw [List.getElem?_set_ne hk]

/-- Eviction touches the entry of its handle only. -/
theorem evict_entries_ne (c : CacheStore γ) (h k : Nat) (hk : h ≠ k) :
    (c.evict h).entries[k]? = c.entries[k]? := by
  unfold evict
  cases he : c.entries[h]? with
  | none => rfl
  | some e => exact List.getElem?_set_ne hk

/-- The log of an eviction. -/
theorem evict_evicted_count (c : CacheStore γ) (h k : Nat) (hk : h ≠ k) :
    (c.evict h).evicted.count k = c.evicted.count k := by
  unfold evict
  cases c.entries[h]? with
  | none => rfl
  | some e =>
    simp only [List.count_append]
    rw [List.count_singleton]
    simp [hk]

/-- The loop of the eviction pass leaves a pinned entry as it is and never logs
it. -/
theorem evictLoop_pinned (n : Nat) (c : CacheStore γ) (h : Nat) (hp : c.unpinned h = false) :
    (evictLoop n c).entries[h]? = c.entries[h]? ∧
      (evictLoop n c).evicted.count h = c.evicted.count h := by
  induction n generalizing c with
  | zero => exact ⟨rfl, rfl⟩
  | succ n ih =>
    unfold evictLoop
    split
    · exact ⟨rfl, rfl⟩
    · split
      · exact ⟨rfl, rfl⟩
      · rename_i k hk
        have hku : c.unpinned k = true := List.find?_some hk
        have hne : k ≠ h := by
          intro heq
          rw [heq, hp] at hku
          cases hku
        have := ih (c.evict k) (by rw [evict_unpinned]; exact hp)
        rw [this.1, this.2, evict_entries_ne c k h hne, evict_evicted_count c k h hne]
        exact ⟨rfl, rfl⟩

/-- A handle that refers to an entry is below the length of the table. -/
theorem lt_of_entry (c : CacheStore γ) (h : Nat) (e : CacheEntry γ)
    (he : c.entries[h]? = some e) : h < c.entries.length := by
  rcases Nat.lt_or_ge h c.entries.length with hl | hl
  · exact hl
  · rw [List.getElem?_eq_none hl] at he
    cases he

/-- One operation on the cache leaves a Valid entry with an unreleased handle in
place: its state, value, generator and size stay, its pin count drops by the
releases of its handle, and no eviction pass removes it. -/
theorem step_pinned (c : CacheStore γ) (op : CacheOp γ) (h : Nat) (e : CacheEntry γ)
    (he : c.entries[h]? = some e) (hv : e.state = .Valid)
    (hp : releases h [op] < e.pin_count) :
    ∃ e', (c.step op).entries[h]? = some e' ∧ e'.state = .Valid ∧ e'.value = e.value ∧
      e'.generator = e.generator ∧ e'.size = e.size ∧
      e'.pin_count = e.pin_count - releases h [op] ∧
      (c.step op).evicted.count h = c.evicted.count h := by
  have hlt := lt_of_entry c h e he
  cases op with
  | insert g =>
    refine ⟨e, ?_, hv, rfl, rfl, rfl, rfl, rfl⟩
    show (c.entries ++ _)[h]? = _
    rw [List.getElem?_append_left hlt, he]
  | release k =>
    have hev : (c.step (.release k)).evicted.count h = c.evicted.count h := by
      show (c.release k).evicted.count h = _
      unfold release
      cases c.entries[k]? <;> rfl
    cases hk : c.entries[k]? with
    | none =>
      have hne : k ≠ h := by
        intro heq
        rw [heq, he] at hk
        cases hk
      have hr : c.step (.release k) = c := by
        show c.release k = c
        unfold release
        rw [hk]
      exact ⟨e, by rw [hr]; exact he, hv, rfl, rfl, rfl, by simp [releases, hne], hev⟩
    | some ek =>
      have hr : (c.step (.release k)).entries =
          c.entries.set k { ek with pin_count := ek.pin_count - 1 } := by
        show (c.release k).entries = _
        unfold release
        rw [hk]
      by_cases hkh : k = h
      · subst hkh
        rw [he] at hk
        cases hk
        refine ⟨{ e with pin_count := e.pin_count - 1 }, ?_, hv, rfl, rfl, rfl, ?_, hev⟩
        · rw [hr, List.getElem?_set_self hlt]
        · simp [releases]
      · refine ⟨e, ?_, hv, rfl, rfl, rfl, by simp [releases, hkh], hev⟩
        rw [hr, List.getElem?_set_ne hkh, he]
  | deref k =>
    have hrel : releases h [(CacheOp.deref k : CacheOp γ)] = 0 := rfl
    rw [hrel] at hp ⊢
    cases hk : c.entries[k]? with
    | none =>
      have hr : c.step (.deref k) = c := by
        show (c.deref k).2 = c
        unfold deref
        rw [hk]
      rw [hr]
      exact ⟨e, he, hv, rfl, rfl, rfl, rfl, rfl⟩
    | some ek =>
      cases hs : ek.state with
      | Valid =>
        have hr : c.step (.deref k) = c.used k ek := by
          show (c.deref k).2 = _
          unfold deref
          rw [hk]
          simp only [hs]
        rw [hr]
        by_cases hkh : k = h
        · subst hkh
          rw [he] at hk
          cases hk
          refine ⟨{ e with recency := c.clock }, ?_, hv, rfl, rfl, rfl, rfl, rfl⟩
          show (c.entries.set k _)[k]? = _
          rw [List.getElem?_set_self hlt]
        · refine ⟨e, ?_, hv, rfl, rfl, rfl, rfl, rfl⟩
          show (c.entries.set k _)[h]? = _
          rw [List.getElem?_set_ne hkh, he]
      | Generating =>
        have hr : c.step (.deref k) = c := by
          show (c.deref k).2 = c
          unfold deref
          rw [hk]
          simp only [hs]
        rw [hr]
        exact ⟨e, he, hv, rfl, rfl, rfl, rfl, rfl⟩
      | Empty =>
        have hr : c.step (.deref k) = (c.generated k ek).evictionPass := by
          show (c.deref k).2 = _
          unfold deref
          rw [hk]
          simp only [hs]
        rw [hr]
        have hkh : k ≠ h := by
          intro heq
          rw [heq, he] at hk
          cases hk
          rw [hv] at hs
          cases hs
        have hg : (c.generated k ek).entries[h]? = some e := by
          show (c.entries.set k _)[h]? = _
          rw [List.getElem?_set_ne hkh, he]
        have hu : (c.generated k ek).unpinned h = false := by
          unfold unpinned
          rw [hg]
          simp
          omega
        have := evictLoop_pinned (c.generated k ek).lru.length (c.generated k ek) h hu
        unfold evictionPass
        rw [this.1, this.2, hg]
        exact ⟨e, rfl, hv, rfl, rfl, rfl, rfl, rfl⟩

/-- The releases of a handle in a sequence of operations, operation by
operation. -/
theorem releases_cons (h : Nat) (op : CacheOp γ) (ops : List (CacheOp γ)) :
    releases h (op :: ops) = releases h [op] + releases h ops := by
  cases op <;> simp [releases]

/-- A prefix of a sequence of operations holds no more releases than the
sequence. -/
theorem releases_take_le (h : Nat) (ops : List (CacheOp γ)) (n : Nat) :
    releases h (ops.take n) ≤ releases h ops := by
  induction ops generalizing n with
  | nil => simp [releases]
  | cons op ops ih =>
    cases n with
    | zero => simp [releases]
    | succ n =>
      rw [List.take_succ_cons, releases_cons h op ops, releases_cons h op (ops.take n)]
      have := ih n
      omega

/-- A sequence of operations leaves a Valid entry in place as long as its handle
is released fewer times than its pin count. -/
theorem run_pinned (ops : List (CacheOp γ)) (c : CacheStore γ) (h : Nat) (e : CacheEntry γ)
    (he : c.entries[h]? = some e) (hv : e.state = .Valid)
    (hp : releases h ops < e.pin_count) :
    ∃ e', (c.run ops).entries[h]? = some e' ∧ e'.state = .Valid ∧ e'.value = e.value ∧
      e'.generator = e.generator ∧ e'.size = e.size ∧
      e'.pin_count = e.pin_count - releases h ops ∧
      (c.run ops).evicted.count h = c.evicted.count h := by
  induction ops generalizing c e with
  | nil => exact ⟨e, he, hv, rfl, rfl, rfl, rfl, rfl⟩
  | cons op ops ih =>
    rw [releases_cons] at hp
    obtain ⟨e1, h1, hv1, g1, g2, g3, g4, g5⟩ := step_pinned c op h e he hv (by omega)
    obtain ⟨e2, h2, hv2, k1, k2, k3, k4, k5⟩ := ih (c.step op) e1 h1 hv1 (by rw [g4]; omega)
    refine ⟨e2, h2, hv2, k1.trans g1, k2.trans g2, k3.trans g3, ?_, k5.trans g5⟩
    rw [k4, g4, releases_cons h op ops]
    omega

end CacheStoreLemmas

section CacheStoreInvariant

variable {γ : Type}

open CacheStore

end CacheStoreInvariant

section ClaimsCacheStore

variable {γ : Type}

open CacheStore

/-- C15: for every cache state and every sequence of operations (insert,
dereference, release) on it, a Valid entry whose handle is released fewer times
than its pin count stays pinned all along: after every prefix of the sequence
the entry is Valid and holds the same stored value, its pin count is the
original one less the releases so far and is positive, and no eviction pass has
removed it.  Nothing is assumed of the resident size, which may exceed the
configured maximum. -/
theorem pinned_entry_never_evicted (c : CacheStore γ) (ops : List (CacheOp γ)) (h : Nat)
    (e : CacheEntry γ) (he : c.entries[h]? = some e) (hv : e.state = .Valid)
    (hp : releases h ops < e.pin_count) :
    ∀ n, ∃ e', (c.run (ops.take n)).entries[h]? = some e' ∧
      e'.state = .Valid ∧ e'.value = e.value ∧ e'.generator = e.generator ∧
      e'.size = e.size ∧
      e'.pin_count = e.pin_count - releases h (ops.take n) ∧ 0 < e'.pin_count ∧
      (c.run (ops.take n)).evicted.count h = c.evicted.count h := by
  intro n
  have hle := releases_take_le h ops n
  obtain ⟨e', h1, h2, h3, h4, h5, h6, h7⟩ := run_pinned (ops.take n) c h e he hv (by omega)
  refine ⟨e', h1, h2, h3, h4, h5, h6, ?_, h7⟩
  rw [h6]
  omega

/-- C15 at a cache of maximum size 1: the entry of handle 0, of size 1, is
pinned; a second entry of size 1 is inserted and generated, the resident size
is 2, and the entry of handle 0 still holds its value. -/
theorem pinned_entry_never_evicted_witness :
    Example.pinnedStore.entries[0]? = some Example.pinnedEntry ∧
    Example.pinnedEntry.state = .Valid ∧
    releases 0 Example.laterOps < Example.pinnedEntry.pin_count ∧
    (Example.pinnedStore.run Example.laterOps).max_size = 1 ∧
    (Example.pinnedStore.run Example.laterOps).resident = 2 ∧
    ∃ e', (Example.pinnedStore.run Example.laterOps).entries[0]? = some e' ∧
      e'.state = .Valid ∧ e'.value = some 7 :=
  ⟨rfl, rfl, by decide, rfl, rfl,
    (pinned_entry_never_evicted Example.pinnedStore Example.laterOps 0 Example.pinnedEntry
      rfl rfl (by decide) 2).imp fun _ h => ⟨h.1, h.2.1, h.2.2.1⟩⟩

end ClaimsCacheStore

section Inpaint

variable {α : Type} {σ : Type}

/-- A buffer constructed from a view with non-negative extents has the extents
of the view and holds its pixels. -/
theorem ofView_spec [Inhabited α] (view : View α) (hw : 0 ≤ view.cols) (hh : 0 ≤ view.rows) :
    ∃ img, ImageView.ofView view = .ok img ∧ img.cols = view.cols ∧ img.rows = view.rows ∧
      img.planes = view.planes ∧
      ∀ c r p, 0 ≤ c → c < view.cols → 0 ≤ r → r < view.rows → 0 ≤ p →
        p < (tripCount view.planes : Int) → img.pix c r p = view.pix c r p := by
  have hbw : view.bounds.width = view.cols := by
    simp [View.bounds, BBox2i.ofSize, BBox2i.width]
  have hbh : view.bounds.height = view.rows := by
    simp [View.bounds, BBox2i.ofSize, BBox2i.height]
  have hext : (DestView.whole (ImageView.alloc view.cols view.rows view.planes : View α)).cols =
        view.bounds.width ∧
      (DestView.whole (ImageView.alloc view.cols view.rows view.planes : View α)).rows =
        view.bounds.height ∧
      (DestView.whole (ImageView.alloc view.cols view.rows view.planes : View α)).planes =
        view.planes := ⟨hbw.symm, hbh.symm, rfl⟩
  have key := rasterize_ok (id : α → α) view
    (DestView.whole (ImageView.alloc view.cols view.rows view.planes : View α))
    view.bounds ⟨ImageView.alloc view.cols view.rows view.planes, []⟩
    (by rw [hbw]; exact hw) (by rw [hbh]; exact hh) hext
  obtain ⟨hok, hpix, -, -⟩ := key
  have hpl := planeLoop_extents (id : α → α) view view.bounds.width view.bounds.height
    (tripCount view.planes) (view.origin.advance view.bounds.min.x view.bounds.min.y)
    (DestView.whole (ImageView.alloc view.cols view.rows view.planes : View α)).origin
    ⟨ImageView.alloc view.cols view.rows view.planes, []⟩
  refine ⟨(rasterize (id : α → α) view
    (DestView.whole (ImageView.alloc view.cols view.rows view.planes : View α))
    view.bounds ⟨ImageView.alloc view.cols view.rows view.planes, []⟩).2.img,
    ?_, ?_, ?_, ?_, ?_⟩
  · unfold ImageView.ofView View.rasterize
    dsimp only
    split
    · rename_i heq
      rw [heq]
    · rename_i e m heq
      rw [heq] at hok
      exact absurd hok (by simp)
  · unfold rasterize; rw [if_pos hext]; exact hpl.1
  · unfold rasterize; rw [if_pos hext]; exact hpl.2.1
  · unfold rasterize; rw [if_pos hext]; exact hpl.2.2
  · intro c r p hc0 hc1 hr0 hr1 hp0 hp1
    have := hpix c r p hc0 (by rw [hbw]; exact hc1) hr0 (by rw [hbh]; exact hr1) hp0 hp1
    simpa [DestView.pix, DestView.whole, View.bounds, BBox2i.ofSize] using this

/-- Two loop bodies that agree on the indices of the loop give the same loop. -/
theorem loopUp_congr (f g : Int → σ → σ) (n : Nat) (lo : Int) (s : σ)
    (h : ∀ c, lo ≤ c → c < lo + (n : Int) → ∀ t, f c t = g c t) :
    loopUp f n lo s = loopUp g n lo s := by
  induction n generalizing lo s with
  | zero => rfl
  | succ n ih =>
    simp only [loopUp]
    rw [h lo (le_refl _) (by push_cast; omega)]
    apply ih
    intro c hc1 hc2 t
    exact h c (by omega) (by push_cast; omega) t

/-- Two filters with the same kernel size and extents whose children agree on
the window around a pixel compute the same sum and count there. -/
theorem window_congr (ops : PixelOps α) (v w : FillNoDataWithAvg α) (c0 r0 : Int)
    (hk : w.m_kernel_size = v.m_kernel_size) (hc : w.m_img.cols = v.m_img.cols)
    (hr : w.m_img.rows = v.m_img.rows)
    (hpix : ∀ c r, max 0 (c0 - Int.tdiv v.m_kernel_size 2) ≤ c →
      c ≤ min (v.m_img.cols - 1) (c0 + Int.tdiv v.m_kernel_size 2) →
      max 0 (r0 - Int.tdiv v.m_kernel_size 2) ≤ r →
      r ≤ min (v.m_img.rows - 1) (r0 + Int.tdiv v.m_kernel_size 2) →
      w.m_img.pix c r 0 = v.m_img.pix c r 0) :
    w.window ops c0 r0 = v.window ops c0 r0 := by
  unfold FillNoDataWithAvg.window
  simp only [hk, hc, hr]
  apply loopUp_congr
  intro c hc1 hc2 t
  apply loopUp_congr
  intro r hr1 hr2 t2
  unfold FillNoDataWithAvg.accumulate
  rw [hpix c r hc1 (by omega) hr1 (by omega)]

end Inpaint

section ClaimsInpaint

variable {α : Type}

/-- The bounds of the biased box, for a box inside the image. -/
theorem biased_box_eq (img : View α) (k : Int) (bbox : BBox2i) :
    (FillNoDataWithAvg.biased_box ⟨img, k⟩ bbox).min.x = max 0 (bbox.min.x - Int.tdiv k 2) ∧
    (FillNoDataWithAvg.biased_box ⟨img, k⟩ bbox).min.y = max 0 (bbox.min.y - Int.tdiv k 2) ∧
    (FillNoDataWithAvg.biased_box ⟨img, k⟩ bbox).max.x =
      min img.cols (bbox.max.x + Int.tdiv k 2) ∧
    (FillNoDataWithAvg.biased_box ⟨img, k⟩ bbox).max.y =
      min img.rows (bbox.max.y + Int.tdiv k 2) := by
  simp only [FillNoDataWithAvg.biased_box, BBox2i.crop, BBox2i.expand, View.bounds,
    BBox2i.ofSize]
  refine ⟨?_, ?_, ?_, ?_⟩ <;> split_ifs <;> omega

/-- C20: for every masked image with a plane 0, every odd positive kernel size
`k`, every box `bbox` inside the image and every pixel `(i, j)` of `bbox`:
`prerasterize( bbox )` returns a view `pre` over a buffer `dest` that is the copy
of the image over the biased box (`bbox` expanded by `k/2` and cropped to the
image), every pixel that the averaging window around `(i, j)` reads lies in the
biased box, where `pre` shows the pixel of the image, and `pre( i, j )` is the
value of `operator()( i, j )` on the original image. -/
theorem fill_nodata_prerasterize_eq_operator [Inhabited α] (ops : PixelOps α) (img : View α)
    (k : Int) (bbox : BBox2i) (i j : Nat)
    (hk : 0 < k) (hodd : k % 2 = 1) (hpl : 1 ≤ img.planes)
    (hin : bbox.inside img.bounds) (hij : bbox.contains i j) :
    ∃ v pre dest, FillNoDataWithAvg.new img k = .ok v ∧ v.prerasterize bbox = .ok pre ∧
      ImageView.ofView (CropView.ofBBox img (v.biased_box bbox)).toView = .ok dest ∧
      pre.m_img = (CropView.mk dest (-(v.biased_box bbox).min.x) (-(v.biased_box bbox).min.y)
        img.cols img.rows).toView ∧
      pre.m_kernel_size = k ∧
      v.biased_box bbox = (bbox.expand (Int.tdiv k 2)).crop img.bounds ∧
      (v.biased_box bbox).inside img.bounds ∧
      dest.cols = (v.biased_box bbox).width ∧ dest.rows = (v.biased_box bbox).height ∧
      dest.planes = img.planes ∧
      (∀ c r p, (v.biased_box bbox).contains c r → 0 ≤ p → p < img.planes →
        dest.pix (c - (v.biased_box bbox).min.x) (r - (v.biased_box bbox).min.y) p =
          img.pix c r p) ∧
      (∀ c r, max 0 ((i : Int) - Int.tdiv k 2) ≤ c →
        c ≤ min (img.cols - 1) ((i : Int) + Int.tdiv k 2) →
        max 0 ((j : Int) - Int.tdiv k 2) ≤ r →
        r ≤ min (img.rows - 1) ((j : Int) + Int.tdiv k 2) →
        (v.biased_box bbox).contains c r ∧ pre.m_img.pix c r 0 = img.pix c r 0) ∧
      ∀ p, pre.operatorCall ops i j p = v.operatorCall ops i j p := by
  have hcond : Int.tmod k 2 = 1 ∧ k > 0 := by
    refine ⟨?_, hk⟩
    rw [Int.tmod_eq_emod (by omega) (by norm_num)]
    exact hodd
  have hk2 : 0 ≤ Int.tdiv k 2 := Int.tdiv_nonneg (by omega) (by norm_num)
  obtain ⟨hbx, hby, hBx, hBy⟩ := biased_box_eq img k bbox
  simp only [BBox2i.inside, View.bounds, BBox2i.ofSize] at hin
  simp only [BBox2i.contains] at hij
  have hw : 0 ≤ (FillNoDataWithAvg.biased_box ⟨img, k⟩ bbox).width := by
    unfold BBox2i.width
    rw [hbx, hBx]
    omega
  have hh : 0 ≤ (FillNoDataWithAvg.biased_box ⟨img, k⟩ bbox).height := by
    unfold BBox2i.height
    rw [hby, hBy]
    omega
  obtain ⟨dest, hdest, hdc, hdr, hdp, hdpix⟩ :=
    ofView_spec (CropView.ofBBox img (FillNoDataWithAvg.biased_box ⟨img, k⟩ bbox)).toView hw hh
  have hcopy : ∀ c r p, (FillNoDataWithAvg.biased_box ⟨img, k⟩ bbox).contains c r → 0 ≤ p →
      p < img.planes →
      dest.pix (c - (FillNoDataWithAvg.biased_box ⟨img, k⟩ bbox).min.x)
        (r - (FillNoDataWithAvg.biased_box ⟨img, k⟩ bbox).min.y) p = img.pix c r p := by
    intro c r p hc hp0 hp1
    simp only [BBox2i.contains] at hc
    have htc : (tripCount img.planes : Int) = img.planes := tripCount_of_nonneg (by omega)
    have := hdpix (c - (FillNoDataWithAvg.biased_box ⟨img, k⟩ bbox).min.x)
      (r - (FillNoDataWithAvg.biased_box ⟨img, k⟩ bbox).min.y) p (by omega)
      (by show _ < BBox2i.width _; unfold BBox2i.width; omega) (by omega)
      (by show _ < BBox2i.height _; unfold BBox2i.height; omega) hp0
      (by show p < (tripCount img.planes : Int); rw [htc]; exact hp1)
    rw [this]
    show img.pix _ _ p = _
    simp only [CropView.ofBBox, sub_add_cancel]
  have hwin : ∀ c r, max 0 ((i : Int) - Int.tdiv k 2) ≤ c →
      c ≤ min (img.cols - 1) ((i : Int) + Int.tdiv k 2) →
      max 0 ((j : Int) - Int.tdiv k 2) ≤ r →
      r ≤ min (img.rows - 1) ((j : Int) + Int.tdiv k 2) →
      (FillNoDataWithAvg.biased_box ⟨img, k⟩ bbox).contains c r ∧
      (CropView.mk dest (-(FillNoDataWithAvg.biased_box ⟨img, k⟩ bbox).min.x)
        (-(FillNoDataWithAvg.biased_box ⟨img, k⟩ bbox).min.y)
        img.cols img.rows).toView.pix c r 0 = img.pix c r 0 := by
    intro c r hc1 hc2 hr1 hr2
    have hcont : (FillNoDataWithAvg.biased_box ⟨img, k⟩ bbox).contains c r := by
      simp only [BBox2i.contains]
      rw [hbx, hby, hBx, hBy]
      omega
    refine ⟨hcont, ?_⟩
    have := hcopy c r 0 hcont (le_refl _) (by omega)
    show dest.pix (c + -_) (r + -_) 0 = _
    rw [← sub_eq_add_neg, ← sub_eq_add_neg]
    exact this
  refine ⟨⟨img, k⟩, ⟨(CropView.mk dest (-(FillNoDataWithAvg.biased_box ⟨img, k⟩ bbox).min.x)
        (-(FillNoDataWithAvg.biased_box ⟨img, k⟩ bbox).min.y) img.cols img.rows).toView, k⟩,
    dest, ?_, ?_, hdest, rfl, rfl, rfl, ?_, hdc, hdr, hdp, hcopy, hwin, ?_⟩
  · unfold FillNoDataWithAvg.new
    rw [if_pos hcond]
  · unfold FillNoDataWithAvg.prerasterize
    rw [hdest]
    show FillNoDataWithAvg.new _ k = _
    unfold FillNoDataWithAvg.new
    rw [if_pos hcond]
    rfl
  · simp only [BBox2i.inside, View.bounds, BBox2i.ofSize]
    rw [hbx, hby, hBx, hBy]
    omega
  · intro p
    have hself := (hwin i j (by omega) (by omega) (by omega) (by omega)).2
    unfold FillNoDataWithAvg.operatorCall
    simp only
    rw [hself]
    have hwd := window_congr ops ⟨img, k⟩
      ⟨(CropView.mk dest (-(FillNoDataWithAvg.biased_box ⟨img, k⟩ bbox).min.x)
        (-(FillNoDataWithAvg.biased_box ⟨img, k⟩ bbox).min.y) img.cols img.rows).toView, k⟩
      i j rfl rfl rfl (fun c r h1 h2 h3 h4 => (hwin c r h1 h2 h3 h4).2)
    rw [hwd]

/-- C20 at the 4 × 3 masked image, kernel size 3, the box `[2, 4) × [1, 3)` and
its invalid pixel `(2, 1)`. -/
theorem fill_nodata_prerasterize_eq_operator_witness :
    (0 : Int) < 3 ∧ (3 : Int) % 2 = 1 ∧ 1 ≤ Example.masked.planes ∧
    Example.fillBox.inside Example.masked.bounds ∧
    Example.fillBox.contains ((2 : Nat) : Int) ((1 : Nat) : Int) ∧
    ∃ v pre, FillNoDataWithAvg.new Example.masked 3 = .ok v ∧
      v.prerasterize Example.fillBox = .ok pre ∧
      pre.operatorCall Example.maskedOps 2 1 0 = v.operatorCall Example.maskedOps 2 1 0 :=
  ⟨by decide, by decide, by decide, by decide, by decide,
    match fill_nodata_prerasterize_eq_operator Example.maskedOps Example.masked 3
      Example.fillBox 2 1 (by decide) (by decide) (by decide) (by decide) (by decide) with
    | ⟨v, pre, _, h1, h2, _, _, _, _, _, _, _, _, _, _, h3⟩ => ⟨v, pre, h1, h2, h3 0⟩⟩

end ClaimsInpaint

section LogRules

/-- A string holds exactly one `*`, neither first nor last, exactly when it is
`a ++ "*" ++ b` with `a` and `b` non-empty and free of `*`. -/
theorem star_inside_iff (ns : List Char) :
    (ns.count '*' = 1 ∧ ns.head? ≠ some '*' ∧ ns.getLast? ≠ some '*') ↔
      ∃ a b, ns = a ++ '*' :: b ∧ a ≠ [] ∧ b ≠ [] ∧ '*' ∉ a ∧ '*' ∉ b := by
  constructor
  · rintro ⟨hc, hh, hl⟩
    have hmem : '*' ∈ ns := by
      apply List.count_pos_iff.1
      omega
    obtain ⟨a, b, rfl⟩ := List.append_of_mem hmem
    rw [List.count_append, List.count_cons_self] at hc
    have ha : '*' ∉ a := List.count_eq_zero.1 (by omega)
    have hb : '*' ∉ b := List.count_eq_zero.1 (by omega)
    refine ⟨a, b, rfl, ?_, ?_, ha, hb⟩
    · rintro rfl
      exact hh rfl
    · rintro rfl
      apply hl
      simp
  · rintro ⟨a, b, rfl, ha, hb, hna, hnb⟩
    refine ⟨?_, ?_, ?_⟩
    · rw [List.count_append, List.count_cons_self, List.count_eq_zero.2 hna,
        List.count_eq_zero.2 hnb]
    · cases a with
      | nil => exact absurd rfl ha
      | cons x a =>
        simp only [List.cons_append, List.head?_cons, ne_eq, Option.some.injEq]
        rintro rfl
        exact hna (List.mem_cons_self _ _)
    · have hb2 : ('*' :: b) ≠ [] := by simp
      rw [List.getLast?_append_of_ne_nil _ hb2]
      cases b with
      | nil => exact absurd rfl hb
      | cons y b =>
        rw [List.getLast?_cons_cons]
        intro h
        exact hnb (List.mem_of_getLast?_eq_some h)

/-- C24: for every level and every namespace string `ns`, `add_rule( level, ns )`
raises an argument error if and only if `ns` holds more than one `*`, or exactly
one `*` that is neither its first nor its last character (`ns` is
`a ++ "*" ++ b` with `a`, `b` non-empty and free of `*`); when it raises the rule
list is unchanged, and otherwise the rule `(level, lower-case of ns)` is put at
the front of the list, before the other rules in their order. -/
theorem add_rule_raises_iff (rs : LogRuleSet) (level : Int) (ns : List Char) :
    ((rs.add_rule level ns).1 = .error .ArgumentErr ↔
      (1 < ns.count '*' ∨
        ∃ a b, ns = a ++ '*' :: b ∧ a ≠ [] ∧ b ≠ [] ∧ '*' ∉ a ∧ '*' ∉ b)) ∧
    ((rs.add_rule level ns).1 = .error .ArgumentErr → (rs.add_rule level ns).2 = rs) ∧
    ((rs.add_rule level ns).1 ≠ .error .ArgumentErr →
      (rs.add_rule level ns).1 = .ok () ∧
      (rs.add_rule level ns).2.m_rules = (level, to_lower_copy ns) :: rs.m_rules) := by
  rw [← star_inside_iff]
  unfold LogRuleSet.add_rule
  simp only
  by_cases h1 : ns.count '*' > 1
  · rw [if_pos h1]
    exact ⟨⟨fun _ => Or.inl h1, fun _ => rfl⟩, fun _ => rfl, fun h => absurd rfl h⟩
  · rw [if_neg h1]
    by_cases h2 : ns.count '*' = 1 ∧ ns.head? ≠ some '*' ∧ ns.getLast? ≠ some '*'
    · rw [if_pos h2]
      exact ⟨⟨fun _ => Or.inr h2, fun _ => rfl⟩, fun _ => rfl, fun h => absurd rfl h⟩
    · rw [if_neg h2]
      refine ⟨⟨fun h => (by cases h), fun h => ?_⟩, fun h => (by cases h), fun _ => ⟨rfl, rfl⟩⟩
      rcases h with h | h
      · exact absurd h h1
      · exact absurd h h2

/-- A pattern without `*` matches the string equal to it only. -/
theorem wildcard_match_plain (pattern s : List Char) (h : '*' ∉ pattern) :
    wildcard_match pattern s = true ↔ s = pattern := by
  unfold wildcard_match
  have h1 : pattern ≠ ['*'] := by
    rintro rfl
    exact h (List.mem_singleton.2 rfl)
  rw [if_neg h1]
  simp only
  rw [if_pos (List.indexOf_eq_length.2 h)]
  simp only [decide_eq_true_eq]
  exact eq_comm

/-- A pattern `*T` matches the strings that end with `T`. -/
theorem wildcard_match_leading (T s : List Char) :
    wildcard_match ('*' :: T) s = true ↔ T <:+ s := by
  unfold wildcard_match
  by_cases h1 : ('*' :: T) = ['*']
  · rw [if_pos h1]
    simp only [List.cons.injEq, true_and] at h1
    subst h1
    simp
  · rw [if_neg h1]
    simp only
    rw [List.indexOf_cons_self, if_neg (by simp), if_pos rfl]
    simp

/-- A pattern `P*` matches the strings that start with `P`, and when `P` is `Q.`
the string `Q` too. -/
theorem wildcard_match_trailing (P s : List Char) (hP : P ≠ []) (hs : '*' ∉ P) :
    wildcard_match (P ++ ['*']) s = true ↔ (P <+: s ∨ ∃ Q, P = Q ++ ['.'] ∧ s = Q) := by
  unfold wildcard_match
  have hlen : 0 < P.length := List.length_pos.2 hP
  have h1 : P ++ ['*'] ≠ ['*'] := by
    intro h
    have := congrArg List.length h
    simp only [List.length_append, List.length_singleton] at this
    omega
  have hidx : List.indexOf '*' (P ++ ['*']) = P.length := by
    rw [List.indexOf_append_of_not_mem hs, List.indexOf_cons_self]
    rfl
  rw [if_neg h1]
  simp only
  rw [hidx, if_neg (by simp), if_neg (by omega)]
  have hget : (P ++ ['*'])[P.length - 1]? = P.getLast? := by
    rw [List.getElem?_append_left (by omega), List.getLast?_eq_getElem?]
  have htake : List.take (P.length - 1) (P ++ ['*']) = P.dropLast := by
    rw [List.take_append_of_le_length (by omega), List.dropLast_eq_take]
  have htake2 : List.take P.length (P ++ ['*']) = P := List.take_left P ['*']
  rw [hget, htake, htake2]
  have hdot : (P.getLast? = some '.' ∧ s = P.dropLast) ↔ ∃ Q, P = Q ++ ['.'] ∧ s = Q := by
    constructor
    · rintro ⟨h2, h3⟩
      refine ⟨P.dropLast, ?_, h3⟩
      exact (List.dropLast_append_getLast? '.' h2).symm
    · rintro ⟨Q, hQ, hsQ⟩
      rw [hQ, hsQ]
      exact ⟨List.getLast?_concat Q, List.dropLast_concat.symm⟩
  by_cases hc : (P ++ ['*']).length > 1 ∧ P.getLast? = some '.' ∧ s = P.dropLast
  · rw [if_pos hc]
    exact ⟨fun _ => Or.inr (hdot.1 hc.2), fun _ => rfl⟩
  · rw [if_neg hc]
    rw [List.isPrefixOf_iff_prefix]
    constructor
    · exact Or.inl
    · rintro (h | h)
      · exact h
      · exfalso
        apply hc
        refine ⟨?_, hdot.2 h⟩
        simp
        omega

/-- A pattern with at most one `*`, first or last, is plain, `*T` or `P*`. -/
theorem pattern_shape (pattern : List Char) (hcount : pattern.count '*' ≤ 1)
    (hpos : pattern.count '*' = 1 →
      pattern.head? = some '*' ∨ pattern.getLast? = some '*') :
    '*' ∉ pattern ∨ (∃ T, pattern = '*' :: T ∧ '*' ∉ T) ∨
      (∃ P, pattern = P ++ ['*'] ∧ P ≠ [] ∧ '*' ∉ P) := by
  by_cases hmem : '*' ∈ pattern
  · right
    have hc1 : pattern.count '*' = 1 := by
      have := List.count_pos_iff.2 hmem
      omega
    obtain ⟨a, b, rfl⟩ := List.append_of_mem hmem
    rw [List.count_append, List.count_cons_self] at hc1
    have ha : '*' ∉ a := List.count_eq_zero.1 (by omega)
    have hb : '*' ∉ b := List.count_eq_zero.1 (by omega)
    cases a with
    | nil => exact Or.inl ⟨b, rfl, hb⟩
    | cons x a =>
      right
      have hx : x ≠ '*' := fun h => ha (h ▸ List.mem_cons_self _ _)
      have hpos2 := hpos (by rw [List.count_append, List.count_cons_self]; omega)
      rcases hpos2 with h | h
      · simp only [List.cons_append, List.head?_cons, Option.some.injEq] at h
        exact absurd h hx
      · cases b with
        | nil => exact ⟨x :: a, rfl, by simp, ha⟩
        | cons y b =>
          exfalso
          rw [List.getLast?_append_of_ne_nil _ (by simp), List.getLast?_cons_cons] at h
          exact hb (List.mem_of_getLast?_eq_some h)
  · exact Or.inl hmem

/-- C22: for every pattern with at most one `*`, which is its first or last
character, and every string `s`, `wildcard_match` is as documented: `*` matches
every `s`; the pattern is without `*` and matches only `s` equal to it, or it is
`*T` and matches exactly the `s` that end with `T`, or it is `P*` and matches
exactly the `s` that start with `P`, and, when `P` is `Q.`, the string `Q`
itself.  So `*.a` matches `first.a` and `second.a`, and `a.*` matches `a`,
`a.first` and `a.first.second`. -/
theorem wildcard_match_as_documented (pattern s : List Char)
    (hcount : pattern.count '*' ≤ 1)
    (hpos : pattern.count '*' = 1 →
      pattern.head? = some '*' ∨ pattern.getLast? = some '*') :
    wildcard_match ['*'] s = true ∧
    (('*' ∉ pattern ∧ (wildcard_match pattern s = true ↔ s = pattern)) ∨
      (∃ T, pattern = '*' :: T ∧ '*' ∉ T ∧ (wildcard_match pattern s = true ↔ T <:+ s)) ∨
      (∃ P, pattern = P ++ ['*'] ∧ P ≠ [] ∧ '*' ∉ P ∧
        (wildcard_match pattern s = true ↔ (P <+: s ∨ ∃ Q, P = Q ++ ['.'] ∧ s = Q)))) ∧
    wildcard_match "*.a".toList "first.a".toList = true ∧
    wildcard_match "*.a".toList "second.a".toList = true ∧
    wildcard_match "a.*".toList "a".toList = true ∧
    wildcard_match "a.*".toList "a.first".toList = true ∧
    wildcard_match "a.*".toList "a.first.second".toList = true := by
  refine ⟨rfl, ?_, by decide, by decide, by decide, by decide, by decide⟩
  rcases pattern_shape pattern hcount hpos with h | ⟨T, rfl, hT⟩ | ⟨P, rfl, hP, hs⟩
  · exact Or.inl ⟨h, wildcard_match_plain pattern s h⟩
  · exact Or.inr (Or.inl ⟨T, rfl, hT, wildcard_match_leading T s⟩)
  · exact Or.inr (Or.inr ⟨P, rfl, hP, hs, wildcard_match_trailing P s hP hs⟩)

/-- C22 at the pattern `a.*` and the string `a`: the pattern is `P*` with `P`
the string `a.`, and it matches. -/
theorem wildcard_match_as_documented_witness :
    "a.*".toList.count '*' ≤ 1 ∧
    ("a.*".toList.count '*' = 1 →
      "a.*".toList.head? = some '*' ∨ "a.*".toList.getLast? = some '*') ∧
    wildcard_match "a.*".toList "a".toList = true :=
  ⟨by decide, fun _ => Or.inr (by decide),
    (wildcard_match_as_documented "a.*".toList "a".toList (by decide)
      (fun _ => Or.inr (by decide))).2.2.2.2.1⟩

end LogRules

section LogDecision

open LogRuleSet

/-- Whether `add_rule` raises does not depend on the rule set. -/
theorem add_rule_outcome (rs rs' : LogRuleSet) (level : Int) (ns : List Char) :
    (rs.add_rule level ns).1 = (rs'.add_rule level ns).1 := by
  unfold LogRuleSet.add_rule
  simp only
  split_ifs <;> rfl

/-- A call of `add_rule` puts its rule at the front or leaves the rules as they
are. -/
theorem add_rule_rules (rs : LogRuleSet) (level : Int) (ns : List Char) :
    ((rs.add_rule level ns).1 = .ok () ∧
      (rs.add_rule level ns).2.m_rules = (level, to_lower_copy ns) :: rs.m_rules) ∨
    ((rs.add_rule level ns).1 ≠ .ok () ∧ (rs.add_rule level ns).2 = rs) := by
  unfold LogRuleSet.add_rule
  simp only
  split_ifs with h1 h2
  · exact Or.inr ⟨by simp, rfl⟩
  · exact Or.inr ⟨by simp, rfl⟩
  · exact Or.inl ⟨rfl, rfl⟩

/-- A sequence of `add_rule` calls puts rules in front of the rules already
there: those of its calls that do not raise. -/
theorem addRules_rules (calls : List (Int × List Char)) (rs : LogRuleSet) :
    ∃ pre, (rs.addRules calls).m_rules = pre ++ rs.m_rules ∧
      ∀ r ∈ pre, ∃ c ∈ calls, (rs.add_rule c.1 c.2).1 = .ok () ∧
        r = (c.1, to_lower_copy c.2) := by
  induction calls generalizing rs with
  | nil => exact ⟨[], rfl, fun r hr => absurd hr (List.not_mem_nil r)⟩
  | cons c calls ih =>
    obtain ⟨pre, hpre, hall⟩ := ih (rs.add_rule c.1 c.2).2
    have hstep : rs.addRules (c :: calls) = (rs.add_rule c.1 c.2).2.addRules calls := rfl
    rcases add_rule_rules rs c.1 c.2 with ⟨hok, hr⟩ | ⟨hno, hr⟩
    · refine ⟨pre ++ [(c.1, to_lower_copy c.2)], ?_, ?_⟩
      · rw [hstep, hpre, hr]
        simp
      · intro r hrm
        rcases List.mem_append.1 hrm with h | h
        · obtain ⟨c', hc', h1, h2⟩ := hall r h
          exact ⟨c', List.mem_cons_of_mem _ hc',
            (add_rule_outcome _ _ _ _).trans h1, h2⟩
        · rw [List.mem_singleton] at h
          exact ⟨c, List.mem_cons_self _ _, hok, h⟩
    · refine ⟨pre, ?_, ?_⟩
      · rw [hstep, hpre, hr]
      · intro r hrm
        obtain ⟨c', hc', h1, h2⟩ := hall r hrm
        exact ⟨c', List.mem_cons_of_mem _ hc', (add_rule_outcome _ _ _ _).trans h1, h2⟩

/-- Two sequences of `add_rule` calls, one after the other. -/
theorem addRules_append (rs : LogRuleSet) (a b : List (Int × List Char)) :
    rs.addRules (a ++ b) = (rs.addRules a).addRules b := by
  unfold addRules
  rw [List.foldl_append]

/-- The loop over the rules stops at the first rule that matches. -/
theorem rulesLoop_first (lv : MessageLevel) (log_level : Int) (lower_namespace : List Char)
    (pre post : List (Int × List Char)) (level : Int) (pat : List Char)
    (hpre : ∀ r ∈ pre, wildcard_match r.2 lower_namespace = false)
    (hmatch : wildcard_match pat lower_namespace = true) :
    rulesLoop lv log_level lower_namespace (pre ++ (level, pat) :: post) =
      some (if level = lv.EveryMessage then true else decide (log_level ≤ level)) := by
  induction pre with
  | nil =>
    simp only [List.nil_append, rulesLoop, hmatch]
    split_ifs <;> simp_all
  | cons r pre ih =>
    have hr := hpre r (List.mem_cons_self _ _)
    obtain ⟨rl, rn⟩ := r
    simp only [List.cons_append, rulesLoop]
    simp only at hr
    rw [hr]
    simp only [Bool.not_false, if_true]
    exact ih (fun r' hr' => hpre r' (List.mem_cons_of_mem _ hr'))

end LogDecision

section ClaimsLogDecision

open LogRuleSet

/-- The decision of `operator()` on a rule list whose first matching rule is
`(level, pat)`. -/
theorem operatorCall_first (lv : MessageLevel) (log_level : Int) (ns : List Char)
    (pre post : List (Int × List Char)) (level : Int) (pat : List Char)
    (hpre : ∀ r ∈ pre, wildcard_match r.2 (to_lower_copy ns) = false)
    (hmatch : wildcard_match pat (to_lower_copy ns) = true) :
    operatorCall lv ⟨pre ++ (level, pat) :: post⟩ log_level ns =
      (if level = lv.EveryMessage then true else decide (log_level ≤ level)) := by
  unfold operatorCall
  simp only
  rw [rulesLoop_first lv log_level (to_lower_copy ns) pre post level pat hpre hmatch]

/-- C23: for every rule set built from the empty one by a sequence of `add_rule`
calls and every query `(log_level, ns)`: when the call `(level, pat)` does not
raise and its pattern matches the lower-cased namespace, and no later call that
does not raise matches it, then the rule of that call is the first matching
rule of the list (the rules in front of it do not match, the rules of the earlier
calls are behind it), and `operator()` returns true if `level` is `EveryMessage`
and otherwise `log_level <= level`; the rules behind it, whatever they are, have
no influence on the result. -/
theorem first_matching_rule_decides (lv : MessageLevel)
    (earlier later : List (Int × List Char)) (level : Int) (pat : List Char)
    (log_level : Int) (ns : List Char)
    (hlegal : ((⟨[]⟩ : LogRuleSet).add_rule level pat).1 = .ok ())
    (hmatch : wildcard_match (to_lower_copy pat) (to_lower_copy ns) = true)
    (hlater : ∀ c ∈ later, ((⟨[]⟩ : LogRuleSet).add_rule c.1 c.2).1 = .ok () →
      wildcard_match (to_lower_copy c.2) (to_lower_copy ns) = false) :
    (∃ pre, ((⟨[]⟩ : LogRuleSet).addRules (earlier ++ (level, pat) :: later)).m_rules =
        pre ++ (level, to_lower_copy pat) :: ((⟨[]⟩ : LogRuleSet).addRules earlier).m_rules ∧
      ∀ r ∈ pre, wildcard_match r.2 (to_lower_copy ns) = false) ∧
    operatorCall lv ((⟨[]⟩ : LogRuleSet).addRules (earlier ++ (level, pat) :: later))
        log_level ns =
      (if level = lv.EveryMessage then true else decide (log_level ≤ level)) ∧
    (∀ pre post, (∀ r ∈ pre, wildcard_match r.2 (to_lower_copy ns) = false) →
      operatorCall lv ⟨pre ++ (level, to_lower_copy pat) :: post⟩ log_level ns =
        (if level = lv.EveryMessage then true else decide (log_level ≤ level))) := by
  have hsplit : (⟨[]⟩ : LogRuleSet).addRules (earlier ++ (level, pat) :: later) =
      (((⟨[]⟩ : LogRuleSet).addRules earlier).add_rule level pat).2.addRules later := by
    rw [addRules_append]
    rfl
  have hfront : (((⟨[]⟩ : LogRuleSet).addRules earlier).add_rule level pat).2.m_rules =
      (level, to_lower_copy pat) :: ((⟨[]⟩ : LogRuleSet).addRules earlier).m_rules := by
    rcases add_rule_rules ((⟨[]⟩ : LogRuleSet).addRules earlier) level pat with h | h
    · exact h.2
    · exact absurd ((add_rule_outcome _ _ _ _).trans hlegal) h.1
  obtain ⟨pre, hpre, hall⟩ := addRules_rules later
    (((⟨[]⟩ : LogRuleSet).addRules earlier).add_rule level pat).2
  have hno : ∀ r ∈ pre, wildcard_match r.2 (to_lower_copy ns) = false := by
    intro r hr
    obtain ⟨c, hc, h1, h2⟩ := hall r hr
    rw [h2]
    exact hlater c hc ((add_rule_outcome _ _ _ _).trans h1)
  have hrules : ((⟨[]⟩ : LogRuleSet).addRules (earlier ++ (level, pat) :: later)).m_rules =
      pre ++ (level, to_lower_copy pat) :: ((⟨[]⟩ : LogRuleSet).addRules earlier).m_rules := by
    rw [hsplit, hpre, hfront]
  refine ⟨⟨pre, hrules, hno⟩, ?_, ?_⟩
  · have : (⟨[]⟩ : LogRuleSet).addRules (earlier ++ (level, pat) :: later) =
        ⟨pre ++ (level, to_lower_copy pat) :: ((⟨[]⟩ : LogRuleSet).addRules earlier).m_rules⟩ := by
      cases hc : (⟨[]⟩ : LogRuleSet).addRules (earlier ++ (level, pat) :: later)
      rw [hc] at hrules
      simp only at hrules
      rw [hrules]
    rw [this]
    exact operatorCall_first lv log_level ns pre _ level _ hno hmatch
  · intro pre' post' hpre'
    exact operatorCall_first lv log_level ns pre' post' level _ hpre' hmatch

/-- C23 at three calls: `(0, a.*)`, then `(30, A.*)`, then `(5, b)`, and the
query `(20, a.first)`: the second call decides, `20 <= 30`, and not the first,
which matches too and would refuse. -/
theorem first_matching_rule_decides_witness :
    ((⟨[]⟩ : LogRuleSet).add_rule 30 "A.*".toList).1 = .ok () ∧
    wildcard_match (to_lower_copy "A.*".toList) (to_lower_copy "a.first".toList) = true ∧
    (∀ c ∈ [((5 : Int), "b".toList)], ((⟨[]⟩ : LogRuleSet).add_rule c.1 c.2).1 = .ok () →
      wildcard_match (to_lower_copy c.2) (to_lower_copy "a.first".toList) = false) ∧
    operatorCall Example.levels ((⟨[]⟩ : LogRuleSet).addRules Example.ruleCalls) 20
      "a.first".toList = true ∧
    operatorCall Example.levels ((⟨[]⟩ : LogRuleSet).addRules [((0 : Int), "a.*".toList)]) 20
      "a.first".toList = false :=
  ⟨rfl, by decide, by simp [wildcard_match, to_lower_copy],
    (first_matching_rule_decides Example.levels [((0 : Int), "a.*".toList)]
      [((5 : Int), "b".toList)] 30 "A.*".toList 20 "a.first".toList rfl (by decide)
      (by simp [wildcard_match, to_lower_copy])).2.1,
    by decide⟩

/-- C29: with no rule and any message levels with `WarningMessage < InfoMessage`,
at the level `InfoMessage` the namespaces `console` and `Console`, which differ
only in letter case (their lower-case copies are equal), get different decisions
from `operator()`: the test for `console` compares the namespace as given, not
its lower-case copy. -/
theorem console_namespace_is_case_sensitive (lv : MessageLevel)
    (h : lv.WarningMessage < lv.InfoMessage) :
    to_lower_copy "Console".toList = to_lower_copy "console".toList ∧
    operatorCall lv ⟨[]⟩ lv.InfoMessage "console".toList = true ∧
    operatorCall lv ⟨[]⟩ lv.InfoMessage "Console".toList = false := by
  refine ⟨by decide, ?_, ?_⟩
  · unfold operatorCall
    simp [rulesLoop]
  · unfold operatorCall
    have h1 : ¬ ("Console".toList = "console".toList) := by decide
    have h2 : wildcard_match "*.progress".toList (to_lower_copy "Console".toList) = false := by
      decide
    simp only [rulesLoop, h1, h2, false_or, Bool.false_eq_true, and_false, if_false]
    rw [if_neg (by omega)]

/-- C29 at `WarningMessage = 10`, `InfoMessage = 20`: level 20 is logged for
`console` and not for `Console`. -/
theorem console_namespace_is_case_sensitive_witness :
    Example.levels.WarningMessage < Example.levels.InfoMessage ∧
    operatorCall Example.levels ⟨[]⟩ 20 "console".toList = true ∧
    operatorCall Example.levels ⟨[]⟩ 20 "Console".toList = false :=
  ⟨by decide, (console_namespace_is_case_sensitive Example.levels (by decide)).2⟩

end ClaimsLogDecision

section Decimal

/-- The value of a digit string read from an accumulator. -/
theorem foldl_decimal (l : List Char) (a : Nat) :
    l.foldl (fun acc c => 10 * acc + (c.toNat - '0'.toNat)) a =
      a * 10 ^ l.length + decimalValue l := by
  unfold decimalValue
  induction l generalizing a with
  | nil => simp
  | cons c l ih =>
    simp only [List.foldl_cons, List.length_cons]
    rw [ih (10 * a + (c.toNat - '0'.toNat)), ih (10 * 0 + (c.toNat - '0'.toNat))]
    ring

/-- The value of a digit string with one more leading character. -/
theorem decimalValue_cons (c : Char) (l : List Char) :
    decimalValue (c :: l) = (c.toNat - '0'.toNat) * 10 ^ l.length + decimalValue l := by
  have := foldl_decimal l (10 * 0 + (c.toNat - '0'.toNat))
  unfold decimalValue at this ⊢
  simp only [List.foldl_cons]
  rw [this]
  ring

/-- The character of a decimal digit denotes the digit. -/
theorem digitChar_value (k : Nat) (hk : k < 10) :
    (Nat.digitChar k).toNat - '0'.toNat = k := by
  interval_cases k <;> rfl

/-- No character of a digit is the separator. -/
theorem digitChar_ne_slash (k : Nat) (hk : k < 10) : Nat.digitChar k ≠ '/' := by
  interval_cases k <;> decide

/-- The digits that `toDigitsCore` puts in front of `ds` denote `n`. -/
theorem toDigitsCore_value (fuel n : Nat) (ds : List Char) (h : n < fuel) :
    decimalValue (Nat.toDigitsCore 10 fuel n ds) = n * 10 ^ ds.length + decimalValue ds := by
  induction fuel generalizing n ds with
  | zero => omega
  | succ fuel ih =>
    unfold Nat.toDigitsCore
    simp only
    split_ifs with h0
    · rw [decimalValue_cons, digitChar_value _ (Nat.mod_lt _ (by norm_num))]
      have : n % 10 = n := Nat.mod_eq_of_lt (by omega)
      rw [this]
    · rw [ih (n / 10) _ (by omega), decimalValue_cons,
        digitChar_value _ (Nat.mod_lt _ (by norm_num))]
      simp only [List.length_cons]
      have := Nat.div_add_mod n 10
      have e : n / 10 * 10 ^ (ds.length + 1) + (n % 10 * 10 ^ ds.length + decimalValue ds) =
          (10 * (n / 10) + n % 10) * 10 ^ ds.length + decimalValue ds := by ring
      rw [e, this]

/-- No character that `toDigitsCore` puts in front of `ds` is the separator. -/
theorem toDigitsCore_no_slash (fuel n : Nat) (ds : List Char) (h : '/' ∉ ds) :
    '/' ∉ Nat.toDigitsCore 10 fuel n ds := by
  induction fuel generalizing n ds with
  | zero => exact h
  | succ fuel ih =>
    unfold Nat.toDigitsCore
    simp only
    have hcons : '/' ∉ Nat.digitChar (n % 10) :: ds := by
      intro hm
      rcases List.mem_cons.1 hm with h1 | h1
      · exact digitChar_ne_slash _ (Nat.mod_lt _ (by norm_num)) h1.symm
      · exact h h1
    split_ifs with h0
    · exact hcons
    · exact ih _ _ hcons

/-- The decimal string of a number denotes it. -/
theorem decimalValue_decimal (n : Nat) : decimalValue (decimal n) = n := by
  unfold decimal Nat.toDigits
  rw [toDigitsCore_value _ _ _ (Nat.lt_succ_self n)]
  simp [decimalValue]

/-- Distinct numbers have distinct decimal strings. -/
theorem decimal_inj {n m : Nat} (h : decimal n = decimal m) : n = m := by
  rw [← decimalValue_decimal n, ← decimalValue_decimal m, h]

/-- A decimal string holds no separator. -/
theorem decimal_no_slash (n : Nat) : '/' ∉ decimal n :=
  toDigitsCore_no_slash _ _ _ (List.not_mem_nil _)

/-- Two strings cut at their first separator agree part by part. -/
theorem split_at_slash (a a' b b' : List Char) (ha : '/' ∉ a) (ha' : '/' ∉ a')
    (h : a ++ '/' :: b = a' ++ '/' :: b') : a = a' ∧ b = b' := by
  induction a generalizing a' with
  | nil =>
    cases a' with
    | nil => simpa using h
    | cons x a' =>
      simp only [List.nil_append, List.cons_append, List.cons.injEq] at h
      exact absurd (h.1 ▸ List.mem_cons_self _ _) ha'
  | cons y a ih =>
    cases a' with
    | nil =>
      simp only [List.nil_append, List.cons_append, List.cons.injEq] at h
      exact absurd (h.1 ▸ List.mem_cons_self _ _) ha
    | cons x a' =>
      simp only [List.cons_append, List.cons.injEq] at h
      obtain ⟨h1, h2⟩ := ih a' (fun hm => ha (List.mem_cons_of_mem _ hm))
        (fun hm => ha' (List.mem_cons_of_mem _ hm)) h.2
      exact ⟨by rw [h.1, h1], h2⟩

/-- Appending to a path loses nothing of what is appended. -/
theorem pathAppend_inj (path rel rel' : List Char)
    (h : pathAppend path rel = pathAppend path rel') : rel = rel' := by
  unfold pathAppend at h
  split_ifs at h
  · exact List.append_cancel_left h
  · have := List.append_cancel_left h
    simpa using this

end Decimal

section QuadTree

open TMSQuadTreeConfig

/-- The loop body on a quadtree digit, while the doubled position fits `int32`:
the position is doubled and the offset of the digit added. -/
theorem step_digit (a b : Nat) (ch : Char)
    (hch : ch = '0' ∨ ch = '1' ∨ ch = '2' ∨ ch = '3')
    (ha : 2 * a + 1 ≤ 2147483647) (hb : 2 * b + 1 ≤ 2147483647) :
    step ⟨(a : Int), (b : Int)⟩ ch =
      .ok ⟨((2 * a + (quadOffset ch).1 : Nat) : Int), ((2 * b + (quadOffset ch).2 : Nat) : Int)⟩ := by
  have w1 : wrap32 ((a : Int) * 2) = (a : Int) * 2 := wrap32_of_fits (by omega) (by omega)
  have w2 : wrap32 ((b : Int) * 2) = (b : Int) * 2 := wrap32_of_fits (by omega) (by omega)
  have w3 : wrap32 ((a : Int) * 2 + 1) = (a : Int) * 2 + 1 :=
    wrap32_of_fits (by omega) (by omega)
  have w4 : wrap32 ((b : Int) * 2 + 1) = (b : Int) * 2 + 1 :=
    wrap32_of_fits (by omega) (by omega)
  have w5 : wrap32 ((a : Int) * 2 + 0) = (a : Int) * 2 := by
    rw [add_zero]; exact w1
  have w6 : wrap32 ((b : Int) * 2 + 0) = (b : Int) * 2 := by
    rw [add_zero]; exact w2
  unfold step
  simp only [w1, w2, w3, w4, w5, w6]
  rcases hch with rfl | rfl | rfl | rfl
  · rw [if_pos rfl]
    simp [quadOffset]
    constructor <;> ring
  · rw [if_neg (by decide), if_pos rfl]
    simp [quadOffset]
    constructor <;> ring
  · rw [if_neg (by decide), if_neg (by decide), if_neg (by decide), if_neg (by decide)]
    simp [quadOffset]
    constructor <;> ring
  · rw [if_neg (by decide), if_neg (by decide), if_pos rfl]
    simp [quadOffset]
    constructor <;> ring

/-- The loop body on a character that is no quadtree digit raises the logic
error, and on a digit it raises nothing. -/
theorem step_error_iff (pos : Vector2i) (ch : Char) :
    (step pos ch = .error .LogicErr ↔ ¬ (ch = '0' ∨ ch = '1' ∨ ch = '2' ∨ ch = '3')) ∧
    (∀ e, step pos ch = .error e → e = .LogicErr) := by
  unfold step
  simp only
  by_cases h0 : ch = '0'
  · rw [if_pos h0]
    exact ⟨⟨fun h => (by cases h), fun h => absurd (Or.inl h0) h⟩, fun e h => (by cases h)⟩
  · rw [if_neg h0]
    by_cases h1 : ch = '1'
    · rw [if_pos h1]
      exact ⟨⟨fun h => (by cases h), fun h => absurd (Or.inr (Or.inl h1)) h⟩,
        fun e h => (by cases h)⟩
    · rw [if_neg h1]
      by_cases h3 : ch = '3'
      · rw [if_pos h3]
        exact ⟨⟨fun h => (by cases h), fun h => absurd (Or.inr (Or.inr (Or.inr h3))) h⟩,
          fun e h => (by cases h)⟩
      · rw [if_neg h3]
        by_cases h2 : ch = '2'
        · rw [if_neg (by simp [h2])]
          exact ⟨⟨fun h => (by cases h), fun h => absurd (Or.inr (Or.inr (Or.inl h2))) h⟩,
            fun e h => (by cases h)⟩
        · rw [if_pos h2]
          refine ⟨⟨fun _ => ?_, fun _ => rfl⟩, fun e h => ?_⟩
          · rintro (h | h | h | h)
            · exact h0 h
            · exact h1 h
            · exact h2 h
            · exact h3 h
          · cases h
            rfl

/-- A name that holds a character other than the four digits makes the loop
raise the logic error. -/
theorem loop_error (name : List Char) (pos : Vector2i)
    (h : ∃ ch ∈ name, ¬ (ch = '0' ∨ ch = '1' ∨ ch = '2' ∨ ch = '3')) :
    loop name pos = .error .LogicErr := by
  induction name generalizing pos with
  | nil =>
    obtain ⟨ch, hm, _⟩ := h
    exact absurd hm (List.not_mem_nil ch)
  | cons c rest ih =>
    unfold loop
    cases hs : step pos c with
    | error e =>
      simp only
      rw [(step_error_iff pos c).2 e hs]
    | ok pos' =>
      simp only
      apply ih
      obtain ⟨ch, hm, hbad⟩ := h
      rcases List.mem_cons.1 hm with h1 | h1
      · exfalso
        subst h1
        have := (step_error_iff pos ch).1.2 hbad
        rw [hs] at this
        cases this
      · exact ⟨ch, h1, hbad⟩

/-- The position of a name lies in the cell of its start: each component is
the start times `2^n` plus less than `2^n`. -/
theorem quadPos_bounds (name : List Char) (p : Nat × Nat) :
    p.1 * 2 ^ name.length ≤ (quadPos p name).1 ∧
    (quadPos p name).1 < (p.1 + 1) * 2 ^ name.length ∧
    p.2 * 2 ^ name.length ≤ (quadPos p name).2 ∧
    (quadPos p name).2 < (p.2 + 1) * 2 ^ name.length := by
  induction name generalizing p with
  | nil => simp [quadPos]
  | cons ch rest ih =>
    have h := ih (2 * p.1 + (quadOffset ch).1, 2 * p.2 + (quadOffset ch).2)
    have hq : quadPos p (ch :: rest) =
        quadPos (2 * p.1 + (quadOffset ch).1, 2 * p.2 + (quadOffset ch).2) rest := rfl
    have ho : (quadOffset ch).1 ≤ 1 ∧ (quadOffset ch).2 ≤ 1 := by
      unfold quadOffset
      split_ifs <;> simp
    rw [hq]
    simp only [List.length_cons, pow_succ] at h ⊢
    obtain ⟨h1, h2, h3, h4⟩ := h
    have hp : 0 < 2 ^ rest.length := Nat.pow_pos (by norm_num)
    refine ⟨?_, ?_, ?_, ?_⟩
    · calc p.1 * (2 ^ rest.length * 2) = (2 * p.1) * 2 ^ rest.length := by ring
        _ ≤ (2 * p.1 + (quadOffset ch).1) * 2 ^ rest.length :=
          Nat.mul_le_mul_right _ (by omega)
        _ ≤ _ := h1
    · calc (quadPos (2 * p.1 + (quadOffset ch).1, 2 * p.2 + (quadOffset ch).2) rest).1
          < (2 * p.1 + (quadOffset ch).1 + 1) * 2 ^ rest.length := h2
        _ ≤ (2 * p.1 + 2) * 2 ^ rest.length := Nat.mul_le_mul_right _ (by omega)
        _ = (p.1 + 1) * (2 ^ rest.length * 2) := by ring
    · calc p.2 * (2 ^ rest.length * 2) = (2 * p.2) * 2 ^ rest.length := by ring
        _ ≤ (2 * p.2 + (quadOffset ch).2) * 2 ^ rest.length :=
          Nat.mul_le_mul_right _ (by omega)
        _ ≤ _ := h3
    · calc (quadPos (2 * p.1 + (quadOffset ch).1, 2 * p.2 + (quadOffset ch).2) rest).2
          < (2 * p.2 + (quadOffset ch).2 + 1) * 2 ^ rest.length := h4
        _ ≤ (2 * p.2 + 2) * 2 ^ rest.length := Nat.mul_le_mul_right _ (by omega)
        _ = (p.2 + 1) * (2 ^ rest.length * 2) := by ring

/-- On a name over the four digits, while the positions fit `int32`, the loop
raises nothing and ends at the position the claim describes. -/
theorem loop_digits (name : List Char) (p : Nat × Nat) (hname : quadName name)
    (h1 : (p.1 + 1) * 2 ^ name.length ≤ 2147483648)
    (h2 : (p.2 + 1) * 2 ^ name.length ≤ 2147483648) :
    loop name ⟨(p.1 : Int), (p.2 : Int)⟩ =
      .ok ⟨((quadPos p name).1 : Int), ((quadPos p name).2 : Int)⟩ := by
  induction name generalizing p with
  | nil => rfl
  | cons ch rest ih =>
    have hch := hname ch (List.mem_cons_self _ _)
    have hrest : quadName rest := fun c hc => hname c (List.mem_cons_of_mem _ hc)
    have ho : (quadOffset ch).1 ≤ 1 ∧ (quadOffset ch).2 ≤ 1 := by
      unfold quadOffset
      split_ifs <;> simp
    simp only [List.length_cons, pow_succ] at h1 h2
    have hp : 1 ≤ 2 ^ rest.length := Nat.pow_pos (by norm_num)
    have e1 : (p.1 + 1) * (2 ^ rest.length * 2) = (2 * p.1 + 2) * 2 ^ rest.length := by ring
    have e2 : (p.2 + 1) * (2 ^ rest.length * 2) = (2 * p.2 + 2) * 2 ^ rest.length := by ring
    rw [e1] at h1
    rw [e2] at h2
    have ha : 2 * p.1 + 2 ≤ 2147483648 :=
      le_trans (Nat.le_mul_of_pos_right _ hp) h1
    have hb : 2 * p.2 + 2 ≤ 2147483648 :=
      le_trans (Nat.le_mul_of_pos_right _ hp) h2
    unfold loop
    rw [step_digit p.1 p.2 ch hch (by omega) (by omega)]
    simp only
    have := ih (2 * p.1 + (quadOffset ch).1, 2 * p.2 + (quadOffset ch).2) hrest
      (le_trans (Nat.mul_le_mul_right _ (by simp only; omega)) h1)
      (le_trans (Nat.mul_le_mul_right _ (by simp only; omega)) h2)
    rw [this]
    rfl

end QuadTree

section ClaimsQuadTree

open TMSQuadTreeConfig

/-- The position of a name with one more digit at its end. -/
theorem quadPos_concat (p : Nat × Nat) (name : List Char) (ch : Char) :
    quadPos p (name ++ [ch]) =
      (2 * (quadPos p name).1 + (quadOffset ch).1, 2 * (quadPos p name).2 + (quadOffset ch).2) := by
  unfold quadPos
  rw [List.foldl_append]
  rfl

/-- The four digits have four different offsets. -/
theorem quadOffset_inj (c1 c2 : Char) (h1 : c1 = '0' ∨ c1 = '1' ∨ c1 = '2' ∨ c1 = '3')
    (h2 : c2 = '0' ∨ c2 = '1' ∨ c2 = '2' ∨ c2 = '3') (h : quadOffset c1 = quadOffset c2) :
    c1 = c2 := by
  rcases h1 with rfl | rfl | rfl | rfl <;> rcases h2 with rfl | rfl | rfl | rfl <;>
    first
    | rfl
    | exact absurd h (by decide)

/-- The offsets are bits. -/
theorem quadOffset_le (ch : Char) : (quadOffset ch).1 ≤ 1 ∧ (quadOffset ch).2 ≤ 1 := by
  unfold quadOffset
  split_ifs <;> simp

/-- Two names of the same length over the four digits with the same position
are equal. -/
theorem quadPos_inj (n : Nat) (p : Nat × Nat) (name1 name2 : List Char)
    (hl1 : name1.length = n) (hl2 : name2.length = n) (hn1 : quadName name1)
    (hn2 : quadName name2) (h : quadPos p name1 = quadPos p name2) : name1 = name2 := by
  induction n generalizing name1 name2 with
  | zero =>
    rw [List.length_eq_zero] at hl1 hl2
    rw [hl1, hl2]
  | succ n ih =>
    rcases List.eq_nil_or_concat name1 with h1 | ⟨i1, c1, h1⟩
    · rw [h1] at hl1
      cases hl1
    rcases List.eq_nil_or_concat name2 with h2 | ⟨i2, c2, h2⟩
    · rw [h2] at hl2
      cases hl2
    rw [List.concat_eq_append] at h1 h2
    subst h1
    subst h2
    rw [quadPos_concat, quadPos_concat] at h
    have hx := congrArg Prod.fst h
    have hy := congrArg Prod.snd h
    simp only at hx hy
    have o1 := quadOffset_le c1
    have o2 := quadOffset_le c2
    have hc1 := hn1 c1 (by simp)
    have hc2 := hn2 c2 (by simp)
    have hi : i1 = i2 := by
      apply ih i1 i2
      · simpa using hl1
      · simpa using hl2
      · exact fun c hc => hn1 c (List.mem_append_left _ hc)
      · exact fun c hc => hn2 c (List.mem_append_left _ hc)
      · apply Prod.ext <;> omega
    have hc : c1 = c2 := by
      apply quadOffset_inj c1 c2 hc1 hc2
      apply Prod.ext <;> omega
    rw [hi, hc]

/-- Every position of the grid of `2^n` by `2^n` tiles is the position of a name
of length `n` over the four digits. -/
theorem quadPos_surj (n x y : Nat) (hx : x < 2 ^ n) (hy : y < 2 ^ n) :
    ∃ name, name.length = n ∧ quadName name ∧ quadPos (0, 0) name = (x, y) := by
  induction n generalizing x y with
  | zero =>
    refine ⟨[], rfl, fun c hc => absurd hc (List.not_mem_nil c), ?_⟩
    simp only [pow_zero, Nat.lt_one_iff] at hx hy
    rw [hx, hy]
    rfl
  | succ n ih =>
    rw [pow_succ] at hx hy
    obtain ⟨init, hl, hq, hpos⟩ := ih (x / 2) (y / 2) (by omega) (by omega)
    have key : ∃ ch, (ch = '0' ∨ ch = '1' ∨ ch = '2' ∨ ch = '3') ∧
        quadOffset ch = (x % 2, y % 2) := by
      rcases Nat.mod_two_eq_zero_or_one x with h1 | h1 <;>
        rcases Nat.mod_two_eq_zero_or_one y with h2 | h2 <;> rw [h1, h2]
      · exact ⟨'2', by simp, by decide⟩
      · exact ⟨'0', by simp, by decide⟩
      · exact ⟨'3', by simp, by decide⟩
      · exact ⟨'1', by simp, by decide⟩
    obtain ⟨ch, hch, hoff⟩ := key
    refine ⟨init ++ [ch], by simp [hl], ?_, ?_⟩
    · intro c hc
      rcases List.mem_append.1 hc with h | h
      · exact hq c h
      · rw [List.mem_singleton] at h
        rw [h]
        exact hch
    · rw [quadPos_concat, hpos, hoff]
      apply Prod.ext <;> simp only <;> omega

/-- What `image_path` returns for a name of at most 30 digits. -/
theorem image_path_digits (base name : List Char) (hlen : name.length ≤ 30)
    (hname : quadName name) :
    image_path base name = .ok (pathAppend base (decimal name.length ++
      '/' :: (decimal (quadPos (0, 0) name).1 ++ '/' :: decimal (quadPos (0, 0) name).2))) := by
  have hpow : 2 ^ name.length ≤ 2147483648 := by
    calc 2 ^ name.length ≤ 2 ^ 30 := Nat.pow_le_pow_right (by norm_num) hlen
      _ ≤ 2147483648 := by norm_num
  have hl := loop_digits name (0, 0) hname (by simpa using hpow) (by simpa using hpow)
  have hd : ∀ k : Nat, decimalInt (k : Int) = decimal k := by
    intro k
    unfold decimalInt
    rw [if_neg (by omega), Int.toNat_ofNat]
  unfold image_path
  simp only [Nat.cast_zero] at hl
  rw [hl]
  simp only [hd]

/-- C30: for every quadtree tile name of length `n <= 30` over the digits `0`,
`1`, `2`, `3`, `image_path` appends `n/x/y` to the base path of the tree, where
`(x, y)` comes from `(0, 0)` by doubling and adding `(0,1)`, `(1,1)`, `(0,0)`,
`(1,0)` for `0`, `1`, `2`, `3`; `x` and `y` are below `2^n`; the map from the
names of length `n` to `(x, y)` is injective and onto the grid; distinct names of
at most 30 digits never yield the same path; and a name that holds any other
character raises a logic error. -/
theorem image_path_tms (base name : List Char) (hlen : name.length ≤ 30)
    (hname : quadName name) :
    image_path base name = .ok (pathAppend base (decimal name.length ++
      '/' :: (decimal (quadPos (0, 0) name).1 ++ '/' :: decimal (quadPos (0, 0) name).2))) ∧
    (quadPos (0, 0) name).1 < 2 ^ name.length ∧ (quadPos (0, 0) name).2 < 2 ^ name.length ∧
    (∀ name', name'.length = name.length → quadName name' →
      quadPos (0, 0) name' = quadPos (0, 0) name → name' = name) ∧
    (∀ x y, x < 2 ^ name.length → y < 2 ^ name.length →
      ∃ name', name'.length = name.length ∧ quadName name' ∧ quadPos (0, 0) name' = (x, y)) ∧
    (∀ name', name'.length ≤ 30 → quadName name' →
      image_path base name' = image_path base name → name' = name) ∧
    (∀ bad, (∃ ch ∈ bad, ¬ (ch = '0' ∨ ch = '1' ∨ ch = '2' ∨ ch = '3')) →
      image_path base bad = .error .LogicErr) := by
  have hb := quadPos_bounds name (0, 0)
  simp only [zero_mul, zero_add, one_mul] at hb
  refine ⟨image_path_digits base name hlen hname, hb.2.1, hb.2.2.2, ?_, ?_, ?_, ?_⟩
  · intro name' hl' hn' hpos
    exact quadPos_inj name.length (0, 0) name' name hl' rfl hn' hname hpos
  · intro x y hx hy
    exact quadPos_surj name.length x y hx hy
  · intro name' hl' hn' hpath
    rw [image_path_digits base name hlen hname, image_path_digits base name' hl' hn'] at hpath
    have hrel := pathAppend_inj _ _ _ (Except.ok.inj hpath)
    obtain ⟨h1, h2⟩ := split_at_slash _ _ _ _ (decimal_no_slash _) (decimal_no_slash _) hrel
    obtain ⟨h3, h4⟩ := split_at_slash _ _ _ _ (decimal_no_slash _) (decimal_no_slash _) h2
    have hl : name'.length = name.length := decimal_inj h1
    exact quadPos_inj name.length (0, 0) name' name hl rfl hn' hname
      (Prod.ext (decimal_inj h3) (decimal_inj h4))
  · intro bad hbad
    unfold image_path
    rw [loop_error bad ⟨0, 0⟩ hbad]

/-- C30 at the tree `out/tiles` and the name `031`: the path is
`out/tiles/3/3/5`. -/
theorem image_path_tms_witness :
    Example.tileName.length ≤ 30 ∧ quadName Example.tileName ∧
    image_path Example.treeName Example.tileName = .ok "out/tiles/3/3/5".toList :=
  ⟨by decide, by decide,
    (image_path_tms Example.treeName Example.tileName (by decide) (by decide)).1⟩

end ClaimsQuadTree

section Window

variable {α : Type} {σ : Type}

end Window

section ClaimsWindow

variable {α : Type}

end ClaimsWindow

section DivideByZero

variable {α β : Type}

open BlockRasterizeView

/-- Dereferencing a handle divides nothing. -/
theorem deref_ne_divideByZero [Inhabited α] (h : Handle α) :
    h.deref ≠ .error .DivideByZero := by
  unfold Handle.deref
  split
  · simp
  · rename_i g _
    unfold BlockGenerator.generate View.rasterize
    dsimp only
    split
    · simp
    · rename_i e m heq
      have := rasterize_outcome (id : α → α) g.m_child
        (DestView.whole (ImageView.alloc g.m_bbox.width g.m_bbox.height g.m_child.planes :
          View α)) g.m_bbox ⟨ImageView.alloc g.m_bbox.width g.m_bbox.height g.m_child.planes, []⟩
      rw [heq] at this
      rcases this with h1 | h1
      · exact absurd h1 (by simp)
      · simp only [Except.error.injEq] at h1
        subst h1
        simp

/-- The first half of `initialize()`, case by case: a positive block size is
kept; an unset one is computed unless the row byte count is zero, and then the
division faults. -/
theorem initBlockSize_cases (sz : Int) (v : BlockRasterizeView α) :
    ((0 < v.m_block_size.x ∧ 0 < v.m_block_size.y) → initBlockSize sz v = .ok v) ∧
    (¬ (0 < v.m_block_size.x ∧ 0 < v.m_block_size.y) →
      wrap32 (wrap32 (v.planes * v.cols) * sz) = 0 →
      initBlockSize sz v = .error .DivideByZero) ∧
    (¬ (0 < v.m_block_size.x ∧ 0 < v.m_block_size.y) →
      wrap32 (wrap32 (v.planes * v.cols) * sz) ≠ 0 →
      ∃ rows', initBlockSize sz v = .ok { v with m_block_size := ⟨v.cols, rows'⟩ } ∧
        rows' = (if Int.tdiv (2 * 1024 * 1024) (wrap32 (wrap32 (v.planes * v.cols) * sz)) < 1
          then 1
          else if Int.tdiv (2 * 1024 * 1024) (wrap32 (wrap32 (v.planes * v.cols) * sz)) > v.rows
          then v.rows
          else Int.tdiv (2 * 1024 * 1024) (wrap32 (wrap32 (v.planes * v.cols) * sz)))) := by
  refine ⟨fun h => initBlockSize_of_pos sz v h.1 h.2, fun h hd => ?_, fun h hd => ?_⟩
  · unfold initBlockSize
    rw [if_pos (by omega)]
    simp only [idiv, hd, if_true]
  · unfold initBlockSize
    rw [if_pos (by omega)]
    simp only [idiv, if_neg hd]
    exact ⟨_, rfl, rfl⟩

/-- Single-pixel access in a view with a positive block size divides by no
zero. -/
theorem operatorCall_ne_divideByZero [Inhabited α] (v : BlockRasterizeView α)
    (hbx : 1 ≤ v.m_block_size.x) (hby : 1 ≤ v.m_block_size.y) (x y p : Int) :
    v.operatorCall x y p ≠ .error .DivideByZero := by
  unfold operatorCall
  split
  · split_ifs
    · split
      · rename_i e he
        intro h
        simp only [Except.error.injEq] at h
        subst h
        exact deref_ne_divideByZero _ he
      · simp
    · simp only [idiv, if_neg (show ¬ v.m_block_size.x = 0 by omega),
        if_neg (show ¬ v.m_block_size.y = 0 by omega)]
      split
      · rename_i e he
        unfold block at he
        split_ifs at he
        simp only [Except.error.injEq] at he
        subst he
        simp
      · rename_i handle _
        split
        · rename_i e he
          intro h
          simp only [Except.error.injEq] at h
          subst h
          exact deref_ne_divideByZero _ he
        · simp
  · simp

/-- The functor of a view with a positive block size divides by no zero. -/
theorem functor_ne_divideByZero [Inhabited α] (lvl : Nat) (conv : α → β)
    (v : BlockRasterizeView α) (hbx : 1 ≤ v.m_block_size.x) (hby : 1 ≤ v.m_block_size.y)
    (dest : DestView) (off : Vector2i) (b : BBox2i) (m : Dest β) :
    (RasterizeFunctor.operatorCall lvl conv ⟨v, dest, off⟩ b m).1 ≠ .error .DivideByZero := by
  unfold RasterizeFunctor.operatorCall
  cases hc : v.m_cache_ptr with
  | none =>
    simp only [hc]
    have := rasterize_outcome conv v.m_child (dest.crop (b.sub off)) b m
    unfold View.rasterize
    rcases this with h | h <;> rw [h] <;> simp
  | some c =>
    simp only [hc, withValue, idiv, if_neg (show ¬ v.m_block_size.x = 0 by omega),
      if_neg (show ¬ v.m_block_size.y = 0 by omega)]
    split
    · rename_i e he
      split_ifs at he
      · simp only [Except.error.injEq] at he
        subst he
        simp
    · split
      · rename_i e he
        unfold block at he
        split_ifs at he
        simp only [Except.error.injEq] at he
        subst he
        simp
      · rename_i handle _
        split
        · rename_i e he
          intro h
          simp only [Except.error.injEq] at h
          subst h
          exact deref_ne_divideByZero _ he
        · rename_i img _
          have := rasterize_outcome conv img (dest.crop (b.sub off))
            (b.sub ⟨Int.tdiv b.min.x v.m_block_size.x * v.m_block_size.x,
              Int.tdiv b.min.y v.m_block_size.y * v.m_block_size.y⟩) m
          unfold View.rasterize
          rcases this with h | h <;> rw [h] <;> simp

end DivideByZero

section ClaimsDivideByZero

variable {α : Type}

open BlockRasterizeView

/-- In every view that the constructor returns over an image with
`cols, rows ≥ 1`, whatever the requested block size: both components of the block
size are `≥ 1`, a positive requested size is kept, an auto-computed one is
`(cols, h)` with `h ≤ rows`; the divisions by the block size in the table
extents, in `operator()` and in `RasterizeFunctor` divide by no zero, and neither
of the two functions faults with a division by zero. -/
theorem block_size_of_returned [Inhabited α] (sz : Int) (child : View α) (bs : Vector2i)
    (nt : Int) (cache : Option Cache)
    (hcols : 1 ≤ child.cols) (hrows : 1 ≤ child.rows) (v : BlockRasterizeView α)
    (hv : BlockRasterizeView.new sz child bs nt cache = .ok v) :
    1 ≤ v.m_block_size.x ∧ 1 ≤ v.m_block_size.y ∧
    ((0 < bs.x ∧ 0 < bs.y) → v.m_block_size = bs) ∧
    (¬ (0 < bs.x ∧ 0 < bs.y) →
      v.m_block_size.x = child.cols ∧ v.m_block_size.y ≤ child.rows) ∧
    (∀ a, idiv a v.m_block_size.x = .ok (Int.tdiv a v.m_block_size.x) ∧
      idiv a v.m_block_size.y = .ok (Int.tdiv a v.m_block_size.y)) ∧
    (∀ x y p, v.operatorCall x y p ≠ .error .DivideByZero) ∧
    (∀ (β : Type) (lvl : Nat) (conv : α → β) (dest : DestView) (off : Vector2i)
      (b : BBox2i) (m : Dest β),
      (RasterizeFunctor.operatorCall lvl conv ⟨v, dest, off⟩ b m).1 ≠
        .error .DivideByZero) := by
  have hc := initBlockSize_cases sz (⟨child, bs, nt, cache, 0, 0, 0, []⟩ : BlockRasterizeView α)
  simp only [BlockRasterizeView.planes, BlockRasterizeView.cols, BlockRasterizeView.rows] at hc
  obtain ⟨hset, hzero, hauto⟩ := hc
  obtain ⟨-, -, -, hbx, hby, hkeep, -, -⟩ := new_spec sz child bs nt cache v hcols hrows hv
  have hidiv : ∀ a, idiv a v.m_block_size.x = .ok (Int.tdiv a v.m_block_size.x) ∧
      idiv a v.m_block_size.y = .ok (Int.tdiv a v.m_block_size.y) := by
    intro a
    unfold idiv
    rw [if_neg (by omega), if_neg (by omega)]
    exact ⟨rfl, rfl⟩
  refine ⟨hbx, hby, fun h => hkeep (by omega) (by omega), ?_,
    hidiv, fun x y p => operatorCall_ne_divideByZero v hbx hby x y p,
    fun β lvl conv dest off b m => functor_ne_divideByZero lvl conv v hbx hby dest off b m⟩
  intro hpos
  by_cases hd : wrap32 (wrap32 (child.planes * child.cols) * sz) = 0
  · exfalso
    unfold BlockRasterizeView.new init at hv
    rw [hzero hpos hd] at hv
    cases hv
  · obtain ⟨rows', h1, hr⟩ := hauto hpos hd
    unfold BlockRasterizeView.new init at hv
    rw [h1] at hv
    simp only at hv
    have hshape := (initTable_shape _ v hv).2.1
    rw [hshape]
    simp only
    refine ⟨trivial, ?_⟩
    rw [hr]
    split_ifs <;> omega

/-- C25 fails in the code: the image of one row of 2^30 pixels of 4 bytes, one
plane, has `cols, rows, planes ≥ 1`; with an unset block size its row byte count
`planes * cols * sizeof(pixel)` is 2^32, which is 0 as an `int32`, and
`initialize()` divides the default block size by it: the constructor faults,
with a cache and without one, and no block size is stored. -/
theorem row_bytes_wrap_divides_by_zero :
    (1 ≤ Example.wideRow.cols ∧ 1 ≤ Example.wideRow.rows ∧ 1 ≤ Example.wideRow.planes) ∧
    Example.wideRow.planes * Example.wideRow.cols * 4 = 4294967296 ∧
    wrap32 (wrap32 (Example.wideRow.planes * Example.wideRow.cols) * 4) = 0 ∧
    BlockRasterizeView.new 4 Example.wideRow ⟨0, 0⟩ 0 none = .error .DivideByZero ∧
    BlockRasterizeView.new 4 Example.wideRow ⟨0, 0⟩ 0 (some vw_system_cache) =
      .error .DivideByZero ∧
    BlockRasterizeView.initBlockSize 4
      (⟨Example.wideRow, ⟨0, 0⟩, 0, none, 0, 0, 0, []⟩ : BlockRasterizeView Int) =
      .error .DivideByZero :=
  ⟨by decide, by decide, by decide, rfl, rfl, rfl⟩

end ClaimsDivideByZero

section EmptyImages

variable {α : Type}

open BlockRasterizeView

/-- The quotient that gives a table extent is at least `-1` for an image extent
that is not negative. -/
theorem tdiv_pred_ge {n b : Int} (hn : 0 ≤ n) (hb : 1 ≤ b) : -1 ≤ Int.tdiv (n - 1) b := by
  rcases Int.lt_or_le 0 n with h | h
  · have := tdiv_nonneg (show 0 ≤ n - 1 by omega) (show 0 < b by omega)
    omega
  · have hn0 : n = 0 := by omega
    subst hn0
    have h1 : Int.tdiv (0 - 1) b = -(Int.tdiv 1 b) := by
      rw [show (0 : Int) - 1 = -1 by norm_num, Int.neg_tdiv]
    have h2 : Int.tdiv 1 b ≤ 1 := by
      rw [Int.tdiv_eq_ediv (by norm_num) (by omega)]
      exact Int.ediv_le_self b (by norm_num)
    omega

/-- A counting loop that throws, throws what a pass of its body threw. -/
theorem forUp_error {σ : Type} (body : Int → σ → Except Err σ) (n : Nat) (i : Int) (s : σ)
    (e : Err) (h : forUp body n i s = .error e) : ∃ j t, body j t = .error e := by
  induction n generalizing i s with
  | zero => simp [forUp] at h
  | succ n ih =>
    simp only [forUp] at h
    split at h
    · rename_i e' hb
      simp only [Except.error.injEq] at h
      subst h
      exact ⟨i, s, hb⟩
    · rename_i s1 _
      exact ih (i + 1) s1 h

/-- The two loops of `initialize()` divide nothing. -/
theorem loops_ne_divideByZero (cache : Cache) (n : Nat) (i : Int) (v : BlockRasterizeView α)
    (h : forUp (fun iy v => forUp (initBlock cache iy) v.m_table_width.toNat 0 v) n i v =
      .error .DivideByZero) : False := by
  obtain ⟨iy, t, hrow⟩ := forUp_error _ n i v _ h
  obtain ⟨ix, u, hblock⟩ := forUp_error _ _ 0 t _ hrow
  simp only [initBlock, setBlock] at hblock
  split_ifs at hblock <;> cases hblock

/-- The second half of `initialize()` with a cache and a positive block size,
also over an image without a pixel: it returns exactly when the number of
blocks is in the `int32` range. -/
theorem initTable_returns (cache : Cache) (v : BlockRasterizeView α)
    (hc : v.m_cache_ptr = some cache) (hcols : 0 ≤ v.cols) (hrows : 0 ≤ v.rows)
    (hx : 1 ≤ v.m_block_size.x) (hy : 1 ≤ v.m_block_size.y) :
    (∃ v', initTable v = .ok v') ↔
      (Int.tdiv (v.rows - 1) v.m_block_size.y + 1) *
        (Int.tdiv (v.cols - 1) v.m_block_size.x + 1) ≤ 2147483647 := by
  have hqx := tdiv_pred_ge hcols hx
  have hqy := tdiv_pred_ge hrows hy
  constructor
  · rintro ⟨v', hv'⟩
    obtain ⟨-, -, htw, hth, -, hsize, -, hprod⟩ := initTable_core cache v v' hc hv'
    by_cases hw : 1 ≤ Int.tdiv (v.cols - 1) v.m_block_size.x + 1
    · by_cases hh : 1 ≤ Int.tdiv (v.rows - 1) v.m_block_size.y + 1
      · have := hprod (by rw [htw]; exact hw) (by rw [hth]; exact hh)
        rw [htw, hth] at this
        omega
      · have h0 : Int.tdiv (v.rows - 1) v.m_block_size.y + 1 = 0 := by omega
        rw [h0, zero_mul]
        decide
    · have h0 : Int.tdiv (v.cols - 1) v.m_block_size.x + 1 = 0 := by omega
      rw [h0, mul_zero]
      decide
  · intro hfit
    have hn0 : 0 ≤ (Int.tdiv (v.rows - 1) v.m_block_size.y + 1) *
        (Int.tdiv (v.cols - 1) v.m_block_size.x + 1) := Int.mul_nonneg (by omega) (by omega)
    obtain ⟨hS, halloc⟩ := tableSize_of_fits hn0 hfit
    obtain ⟨v', hf, -⟩ := initLoops_spec cache
      { v with
        m_table_width := Int.tdiv (v.cols - 1) v.m_block_size.x + 1
        m_table_height := Int.tdiv (v.rows - 1) v.m_block_size.y + 1
        m_block_table_size := wrapSize (wrap32 ((Int.tdiv (v.rows - 1) v.m_block_size.y + 1) *
          (Int.tdiv (v.cols - 1) v.m_block_size.x + 1)))
        m_block_table := List.replicate (wrapSize (wrap32
          ((Int.tdiv (v.rows - 1) v.m_block_size.y + 1) *
          (Int.tdiv (v.cols - 1) v.m_block_size.x + 1)))).toNat default }
      (by simp only [List.length_replicate, hS]) (by simp only; omega) (by simp only; omega)
    refine ⟨v', ?_⟩
    rw [initTable_eq cache v hc (by omega) (by omega) halloc]
    exact hf

/-- C26, amended: for every child image with `cols, rows, planes ≥ 0`, every
requested block size and caching enabled or disabled, the constructor faults
with a division by zero exactly when the block size is unset and either the
default-size divisor `planes*cols*sizeof(pixel)` is zero as an `int32`, or there
is a cache, the image has no row and the default block height was clipped to
`rows = 0`.  In every other case the first half of `initialize()` returns a block
size, no divisor evaluated is zero, and the constructor returns a view when
there is no cache, and with a cache exactly when the number of blocks of the
table is in the `int32` range; in particular it returns for a positive requested
block size with no cache or with such a number of blocks.  An image without a
column or without a plane and an unset block size always faults. -/
theorem initialize_divides_by_zero_iff (sz : Int) (child : View α) (bs : Vector2i)
    (nt : Int) (cache : Option Cache)
    (hcols : 0 ≤ child.cols) (hrows : 0 ≤ child.rows) (_hplanes : 0 ≤ child.planes) :
    (BlockRasterizeView.new sz child bs nt cache = .error .DivideByZero ↔
      (¬ (0 < bs.x ∧ 0 < bs.y) ∧
        (wrap32 (wrap32 (child.planes * child.cols) * sz) = 0 ∨
          (cache ≠ none ∧ child.rows = 0 ∧
            1 ≤ Int.tdiv (2 * 1024 * 1024)
              (wrap32 (wrap32 (child.planes * child.cols) * sz)))))) ∧
    (BlockRasterizeView.new sz child bs nt cache ≠ .error .DivideByZero →
      ∃ v1, initBlockSize sz ⟨child, bs, nt, cache, 0, 0, 0, []⟩ = .ok v1 ∧
        (cache = none → BlockRasterizeView.new sz child bs nt cache = .ok v1) ∧
        (cache ≠ none → (1 ≤ v1.m_block_size.x ∧ 1 ≤ v1.m_block_size.y) ∧
          ((∃ v, BlockRasterizeView.new sz child bs nt cache = .ok v) ↔
            (Int.tdiv (child.rows - 1) v1.m_block_size.y + 1) *
              (Int.tdiv (child.cols - 1) v1.m_block_size.x + 1) ≤ 2147483647))) ∧
    ((0 < bs.x ∧ 0 < bs.y) →
      (cache ≠ none → (Int.tdiv (child.rows - 1) bs.y + 1) *
        (Int.tdiv (child.cols - 1) bs.x + 1) ≤ 2147483647) →
      ∃ v, BlockRasterizeView.new sz child bs nt cache = .ok v) ∧
    ((child.cols = 0 ∨ child.planes = 0) → ¬ (0 < bs.x ∧ 0 < bs.y) →
      BlockRasterizeView.new sz child bs nt cache = .error .DivideByZero) := by
  have hc := initBlockSize_cases sz (⟨child, bs, nt, cache, 0, 0, 0, []⟩ : BlockRasterizeView α)
  simp only [BlockRasterizeView.planes, BlockRasterizeView.cols, BlockRasterizeView.rows] at hc
  obtain ⟨hset, hzero, hauto⟩ := hc
  have hw0 : wrap32 0 = 0 := by decide
  have hempty : (child.cols = 0 ∨ child.planes = 0) →
      wrap32 (wrap32 (child.planes * child.cols) * sz) = 0 := by
    intro h
    have : child.planes * child.cols = 0 := by
      rcases h with h | h <;> rw [h] <;> simp
    rw [this, hw0, zero_mul, hw0]
  -- the constructor as the second half of `initialize()` on the block size of the first
  have hnew : ∀ v1, initBlockSize sz (⟨child, bs, nt, cache, 0, 0, 0, []⟩ :
      BlockRasterizeView α) = .ok v1 →
      BlockRasterizeView.new sz child bs nt cache = initTable v1 := by
    intro v1 h1
    unfold BlockRasterizeView.new init
    rw [h1]
  -- the second half on a positive block size
  have hsecond : ∀ v1 : BlockRasterizeView α, v1.m_child = child → v1.m_cache_ptr = cache →
      1 ≤ v1.m_block_size.x → 1 ≤ v1.m_block_size.y →
      initTable v1 ≠ .error .DivideByZero ∧
      (cache = none → initTable v1 = .ok v1) ∧
      (cache ≠ none → ((∃ v, initTable v1 = .ok v) ↔
        (Int.tdiv (child.rows - 1) v1.m_block_size.y + 1) *
          (Int.tdiv (child.cols - 1) v1.m_block_size.x + 1) ≤ 2147483647)) := by
    intro v1 hch hcp hx hy
    cases hcache : cache with
    | none =>
      have := initTable_none v1 (by rw [hcp, hcache])
      exact ⟨by rw [this]; simp, fun _ => this, fun h => absurd rfl h⟩
    | some c =>
      have hret := initTable_returns c v1 (by rw [hcp, hcache])
        (by simp only [cols, hch]; exact hcols) (by simp only [rows, hch]; exact hrows) hx hy
      simp only [cols, rows, hch] at hret
      refine ⟨?_, fun h => by simp at h, fun _ => hret⟩
      intro herr
      by_cases hfit : (Int.tdiv (child.rows - 1) v1.m_block_size.y + 1) *
          (Int.tdiv (child.cols - 1) v1.m_block_size.x + 1) ≤ 2147483647
      · obtain ⟨v, hv⟩ := hret.2 hfit
        rw [hv] at herr
        cases herr
      · -- the table size is not in the range: the allocation or an assignment fails
        have hqx := tdiv_pred_ge hcols hx
        have hqy := tdiv_pred_ge hrows hy
        by_cases hbig : maxArrayLength < wrapSize (wrap32
            ((Int.tdiv (v1.rows - 1) v1.m_block_size.y + 1) *
              (Int.tdiv (v1.cols - 1) v1.m_block_size.x + 1)))
        · rw [(initTable_error c v1 (by rw [hcp, hcache])).2 (by omega) (by omega) hbig] at herr
          cases herr
        · rw [initTable_eq c v1 (by rw [hcp, hcache]) (by omega) (by omega) hbig] at herr
          exact loops_ne_divideByZero c _ _ _ herr
  have key : (BlockRasterizeView.new sz child bs nt cache = .error .DivideByZero ∧
        (¬ (0 < bs.x ∧ 0 < bs.y) ∧
          (wrap32 (wrap32 (child.planes * child.cols) * sz) = 0 ∨
            (cache ≠ none ∧ child.rows = 0 ∧
              1 ≤ Int.tdiv (2 * 1024 * 1024)
                (wrap32 (wrap32 (child.planes * child.cols) * sz)))))) ∨
      ((∃ v1, initBlockSize sz ⟨child, bs, nt, cache, 0, 0, 0, []⟩ = .ok v1 ∧
          ((0 < bs.x ∧ 0 < bs.y) → v1.m_block_size = bs) ∧
          BlockRasterizeView.new sz child bs nt cache ≠ .error .DivideByZero ∧
          (cache = none → BlockRasterizeView.new sz child bs nt cache = .ok v1) ∧
          (cache ≠ none → (1 ≤ v1.m_block_size.x ∧ 1 ≤ v1.m_block_size.y) ∧
            ((∃ v, BlockRasterizeView.new sz child bs nt cache = .ok v) ↔
              (Int.tdiv (child.rows - 1) v1.m_block_size.y + 1) *
                (Int.tdiv (child.cols - 1) v1.m_block_size.x + 1) ≤ 2147483647))) ∧
        ¬ (¬ (0 < bs.x ∧ 0 < bs.y) ∧
          (wrap32 (wrap32 (child.planes * child.cols) * sz) = 0 ∨
            (cache ≠ none ∧ child.rows = 0 ∧
              1 ≤ Int.tdiv (2 * 1024 * 1024)
                (wrap32 (wrap32 (child.planes * child.cols) * sz)))))) := by
    by_cases hpos : 0 < bs.x ∧ 0 < bs.y
    · right
      refine ⟨⟨_, hset hpos, fun _ => rfl, ?_⟩, fun h => h.1 hpos⟩
      rw [hnew _ (hset hpos)]
      obtain ⟨g1, g2, g3⟩ := hsecond ⟨child, bs, nt, cache, 0, 0, 0, []⟩ rfl rfl
        (by simp only; omega) (by simp only; omega)
      exact ⟨g1, g2, fun hne => ⟨⟨by simp only; omega, by simp only; omega⟩, g3 hne⟩⟩
    · by_cases hd : wrap32 (wrap32 (child.planes * child.cols) * sz) = 0
      · left
        refine ⟨?_, hpos, Or.inl hd⟩
        unfold BlockRasterizeView.new init
        rw [hzero hpos hd]
      · obtain ⟨rows', h1, hr⟩ := hauto hpos hd
        have hcols1 : 1 ≤ child.cols := by
          by_contra hcon
          exact hd (hempty (Or.inl (by omega)))
        rw [hnew _ h1]
        cases hcache : cache with
        | none =>
          right
          subst hcache
          refine ⟨⟨_, h1, fun h => absurd h hpos, ?_, fun _ => initTable_none _ rfl,
            fun h => absurd rfl h⟩, fun h => ?_⟩
          · rw [initTable_none _ rfl]
            simp
          · rcases h.2 with h2 | h2
            · exact hd h2
            · exact h2.1 rfl
        | some c =>
          subst hcache
          by_cases hr0 : rows' = 0
          · left
            refine ⟨(initTable_error c _ rfl).1 (Or.inr hr0), hpos, Or.inr ⟨by simp, ?_⟩⟩
            rw [hr] at hr0
            split_ifs at hr0 with h2 h3 <;> omega
          · right
            have hr1 : 1 ≤ rows' := by
              rw [hr] at hr0 ⊢
              split_ifs at hr0 ⊢ with h2 h3 <;> omega
            obtain ⟨g1, g2, g3⟩ := hsecond
              { (⟨child, bs, nt, some c, 0, 0, 0, []⟩ : BlockRasterizeView α) with
                m_block_size := ⟨child.cols, rows'⟩ } rfl rfl hcols1 hr1
            refine ⟨⟨_, h1, fun h => absurd h hpos, g1, g2,
              fun hne => ⟨⟨hcols1, hr1⟩, g3 hne⟩⟩, fun h => ?_⟩
            rcases h.2 with h2 | h2
            · exact hd h2
            · apply hr0
              rw [hr]
              have := h2.2.1
              have := h2.2.2
              split_ifs <;> omega
  refine ⟨?_, ?_, ?_, ?_⟩
  · rcases key with ⟨h1, h2⟩ | ⟨⟨v1, -, -, h1, -⟩, h2⟩
    · exact ⟨fun _ => h2, fun _ => h1⟩
    · exact ⟨fun h => absurd h h1, fun h => absurd h h2⟩
  · intro hne
    rcases key with ⟨h1, -⟩ | ⟨⟨v1, h1, -, -, h3, h4⟩, -⟩
    · exact absurd h1 hne
    · exact ⟨v1, h1, h3, h4⟩
  · intro hpos hfit
    rcases key with ⟨-, h2⟩ | ⟨⟨v1, -, hbs, -, h3, h4⟩, -⟩
    · exact absurd hpos h2.1
    · by_cases hcache : cache = none
      · exact ⟨v1, h3 hcache⟩
      · have := (h4 hcache).2
        rw [hbs hpos] at this
        exact this.2 (hfit hcache)
  · intro he hpos
    rcases key with ⟨h1, -⟩ | ⟨-, h2⟩
    · exact h1
    · exact absurd ⟨hpos, Or.inl (hempty he)⟩ h2

/-- C26 at the 5 × 3 child and the requested block size `(2, 2)` with the
system cache: the constructor returns. -/
theorem initialize_divides_by_zero_iff_witness :
    0 ≤ Example.child.cols ∧ 0 ≤ Example.child.rows ∧ 0 ≤ Example.child.planes ∧
    ∃ v, BlockRasterizeView.new 8 Example.child ⟨2, 2⟩ 0 (some vw_system_cache) = .ok v :=
  ⟨by decide, by decide, by decide,
    (initialize_divides_by_zero_iff 8 Example.child ⟨2, 2⟩ 0 (some vw_system_cache)
      (by decide) (by decide) (by decide)).2.2.1 ⟨by decide, by decide⟩ (fun _ => by decide)⟩

/-- C26 fails as stated: over the image without a column, with an unset block
size and no cache, the constructor divides by zero. -/
theorem empty_image_divides_by_zero :
    0 ≤ Example.noColumns.cols ∧ 0 ≤ Example.noColumns.rows ∧
    0 ≤ Example.noColumns.planes ∧
    BlockRasterizeView.new 1 Example.noColumns ⟨0, 0⟩ 0 none = .error .DivideByZero :=
  ⟨by decide, by decide, by decide, rfl⟩

end EmptyImages

section OutOfImage

variable {α : Type}

open BlockRasterizeView

/-- The truncating quotient by a positive block extent is negative exactly from
one block extent below zero on. -/
theorem tdiv_neg_iff {x b : Int} (hb : 1 ≤ b) : Int.tdiv x b < 0 ↔ x ≤ -b := by
  rcases Int.lt_or_le x 0 with h | h
  · have e : Int.tdiv x b = -(Int.tdiv (-x) b) := by
      rw [Int.neg_tdiv, neg_neg]
    have hq := tdiv_eq_iff (x := -x) (b := b) (q := Int.tdiv (-x) b) (by omega)
      (by omega)
    have h0 := tdiv_nonneg (x := -x) (b := b) (by omega) (by omega)
    obtain ⟨h1, h2⟩ := hq.1 rfl
    rw [e]
    constructor
    · intro hlt
      have h3 : 1 ≤ Int.tdiv (-x) b := by omega
      have h4 : 1 * b ≤ Int.tdiv (-x) b * b := Int.mul_le_mul_of_nonneg_right h3 (by omega)
      omega
    · intro hle
      by_contra hcon
      have h3 : Int.tdiv (-x) b = 0 := by omega
      rw [h3] at h2
      omega
  · have := tdiv_nonneg h (show 0 < b by omega)
    omega

/-- The truncating quotient by a positive block extent reaches a positive bound
exactly from that many block extents on. -/
theorem le_tdiv_iff {x b t : Int} (hb : 1 ≤ b) (ht : 1 ≤ t) :
    t ≤ Int.tdiv x b ↔ t * b ≤ x := by
  have htb : 1 ≤ t * b := by
    have := Int.mul_le_mul_of_nonneg_right ht (show 0 ≤ b by omega)
    omega
  rcases Int.lt_or_le x 0 with h | h
  · have e : Int.tdiv x b = -(Int.tdiv (-x) b) := by
      rw [Int.neg_tdiv, neg_neg]
    have h0 := tdiv_nonneg (x := -x) (b := b) (by omega) (by omega)
    rw [e]
    omega
  · rw [Int.tdiv_eq_ediv h (by omega), Int.le_ediv_iff_mul_le (by omega)]

/-- C27, amended: in every view with a cache and more than one block that the
constructor returns over an image with a pixel, `operator()( x, y, p )` raises
the argument error exactly when the block index `(x / bw, y / bh)` is outside
the table, that is when `x <= -bw`, `x >= table_width * bw`, `y <= -bh` or
`y >= table_height * bh`.  At every other coordinate it raises nothing and
returns the value of the block buffer at the block-local coordinate, and when
the coordinate is outside the image that local coordinate is outside the
extents of the buffer. -/
theorem pixel_access_raises_iff_outside_table [Inhabited α] (sz : Int) (child : View α)
    (bs : Vector2i) (nt : Int) (cache : Cache) (v : BlockRasterizeView α)
    (hcols : 1 ≤ child.cols) (hrows : 1 ≤ child.rows)
    (hnew : BlockRasterizeView.new sz child bs nt (some cache) = .ok v)
    (hmany : v.m_block_table_size ≠ 1) :
    (∀ x y p, v.operatorCall x y p = .error .ArgumentErr ↔
      (x ≤ -v.m_block_size.x ∨ v.m_table_width * v.m_block_size.x ≤ x ∨
        y ≤ -v.m_block_size.y ∨ v.m_table_height * v.m_block_size.y ≤ y)) ∧
    (∀ x y p,
      ¬ (x ≤ -v.m_block_size.x ∨ v.m_table_width * v.m_block_size.x ≤ x ∨
        y ≤ -v.m_block_size.y ∨ v.m_table_height * v.m_block_size.y ≤ y) →
      ∃ img,
        (cache.insert ⟨child, v.blockBBox (Int.tdiv x v.m_block_size.x)
          (Int.tdiv y v.m_block_size.y)⟩).deref = .ok img ∧
        v.operatorCall x y p =
          .ok (img.pix (x - Int.tdiv x v.m_block_size.x * v.m_block_size.x)
            (y - Int.tdiv y v.m_block_size.y * v.m_block_size.y) p) ∧
        img.cols = (v.blockBBox (Int.tdiv x v.m_block_size.x)
          (Int.tdiv y v.m_block_size.y)).width ∧
        img.rows = (v.blockBBox (Int.tdiv x v.m_block_size.x)
          (Int.tdiv y v.m_block_size.y)).height ∧
        ((x < 0 ∨ child.cols ≤ x ∨ y < 0 ∨ child.rows ≤ y) →
          ¬ (0 ≤ x - Int.tdiv x v.m_block_size.x * v.m_block_size.x ∧
            x - Int.tdiv x v.m_block_size.x * v.m_block_size.x < img.cols ∧
            0 ≤ y - Int.tdiv y v.m_block_size.y * v.m_block_size.y ∧
            y - Int.tdiv y v.m_block_size.y * v.m_block_size.y < img.rows))) := by
  obtain ⟨hch, -, hcp, hbx, hby, -, hbuilt, -⟩ :=
    new_spec sz child bs nt (some cache) v hcols hrows hnew
  have hb := hbuilt cache rfl
  have hvc : v.cols = child.cols := by simp only [cols, hch]
  have hvr : v.rows = child.rows := by simp only [rows, hch]
  have htw : 1 ≤ v.m_table_width := by
    rw [hb.1]
    have := tdiv_nonneg (show 0 ≤ v.cols - 1 by omega) (show 0 < v.m_block_size.x by omega)
    omega
  have hth : 1 ≤ v.m_table_height := by
    rw [hb.2.1]
    have := tdiv_nonneg (show 0 ≤ v.rows - 1 by omega) (show 0 < v.m_block_size.y by omega)
    omega
  have hout : ∀ x y, v.outOfTable (Int.tdiv x v.m_block_size.x) (Int.tdiv y v.m_block_size.y) ↔
      (x ≤ -v.m_block_size.x ∨ v.m_table_width * v.m_block_size.x ≤ x ∨
        y ≤ -v.m_block_size.y ∨ v.m_table_height * v.m_block_size.y ≤ y) := by
    intro x y
    unfold outOfTable
    rw [tdiv_neg_iff hbx, tdiv_neg_iff hby, ge_iff_le, ge_iff_le, le_tdiv_iff hbx htw,
      le_tdiv_iff hby hth]
  have hcall : ∀ x y p, v.operatorCall x y p = v.generalPath x y p := by
    intro x y p
    rw [operatorCall_cached v cache hcp x y p, if_neg hmany]
  have hinside : ∀ x y p,
      ¬ (x ≤ -v.m_block_size.x ∨ v.m_table_width * v.m_block_size.x ≤ x ∨
        y ≤ -v.m_block_size.y ∨ v.m_table_height * v.m_block_size.y ≤ y) →
      ∃ img,
        (cache.insert ⟨child, v.blockBBox (Int.tdiv x v.m_block_size.x)
          (Int.tdiv y v.m_block_size.y)⟩).deref = .ok img ∧
        v.operatorCall x y p =
          .ok (img.pix (x - Int.tdiv x v.m_block_size.x * v.m_block_size.x)
            (y - Int.tdiv y v.m_block_size.y * v.m_block_size.y) p) ∧
        img.cols = (v.blockBBox (Int.tdiv x v.m_block_size.x)
          (Int.tdiv y v.m_block_size.y)).width ∧
        img.rows = (v.blockBBox (Int.tdiv x v.m_block_size.x)
          (Int.tdiv y v.m_block_size.y)).height ∧
        ((x < 0 ∨ child.cols ≤ x ∨ y < 0 ∨ child.rows ≤ y) →
          ¬ (0 ≤ x - Int.tdiv x v.m_block_size.x * v.m_block_size.x ∧
            x - Int.tdiv x v.m_block_size.x * v.m_block_size.x < img.cols ∧
            0 ≤ y - Int.tdiv y v.m_block_size.y * v.m_block_size.y ∧
            y - Int.tdiv y v.m_block_size.y * v.m_block_size.y < img.rows)) := by
    intro x y p hin
    have hnot : ¬ v.outOfTable (Int.tdiv x v.m_block_size.x) (Int.tdiv y v.m_block_size.y) :=
      fun h => hin ((hout x y).1 h)
    have hidx : 0 ≤ Int.tdiv x v.m_block_size.x ∧ Int.tdiv x v.m_block_size.x < v.m_table_width ∧
        0 ≤ Int.tdiv y v.m_block_size.y ∧ Int.tdiv y v.m_block_size.y < v.m_table_height := by
      unfold outOfTable at hnot
      omega
    obtain ⟨hx0, hx1, hy0, hy1⟩ := hidx
    have hx2 : Int.tdiv x v.m_block_size.x * v.m_block_size.x < v.cols := by
      rw [hb.1] at hx1
      exact (lt_table_iff (by omega) (by omega)).1 hx1
    have hy2 : Int.tdiv y v.m_block_size.y * v.m_block_size.y < v.rows := by
      rw [hb.2.1] at hy1
      exact (lt_table_iff (by omega) (by omega)).1 hy1
    obtain ⟨img, hderef, hic, hir, -, -⟩ := block_buffer_spec cache v _ _ hx0 hy0 hbx hby hx2 hy2
    have hblock := block_of_built cache v hb _ _ hx0 hx1 hy0 hy1
    rw [hch] at hderef hblock
    refine ⟨img, hderef, ?_, hic, hir, ?_⟩
    · rw [hcall]
      unfold generalPath
      simp only [idiv, if_neg (show ¬ v.m_block_size.x = 0 by omega),
        if_neg (show ¬ v.m_block_size.y = 0 by omega), hblock, hderef]
    · intro hoff
      rw [hic, hir, blockBBox_eq v _ _ hx0 hy0 hbx hby]
      simp only [BBox2i.width, BBox2i.height, hvc, hvr]
      have hxq : x < 0 → Int.tdiv x v.m_block_size.x = 0 := by
        intro hx
        have h1 : ¬ x ≤ -v.m_block_size.x := fun h => hin (Or.inl h)
        have h2 := (tdiv_neg_iff (x := x) hbx).not.2 h1
        have e : Int.tdiv x v.m_block_size.x = -(Int.tdiv (-x) v.m_block_size.x) := by
          rw [Int.neg_tdiv, neg_neg]
        have h3 := tdiv_nonneg (x := -x) (b := v.m_block_size.x) (by omega) (by omega)
        omega
      have hyq : y < 0 → Int.tdiv y v.m_block_size.y = 0 := by
        intro hy
        have h1 : ¬ y ≤ -v.m_block_size.y := fun h => hin (Or.inr (Or.inr (Or.inl h)))
        have h2 := (tdiv_neg_iff (x := y) hby).not.2 h1
        have e : Int.tdiv y v.m_block_size.y = -(Int.tdiv (-y) v.m_block_size.y) := by
          rw [Int.neg_tdiv, neg_neg]
        have h3 := tdiv_nonneg (x := -y) (b := v.m_block_size.y) (by omega) (by omega)
        omega
      rcases hoff with h | h | h | h
      · have := hxq h
        rw [this]
        omega
      · omega
      · have := hyq h
        rw [this]
        omega
      · omega
  refine ⟨?_, hinside⟩
  intro x y p
  by_cases hin : (x ≤ -v.m_block_size.x ∨ v.m_table_width * v.m_block_size.x ≤ x ∨
      y ≤ -v.m_block_size.y ∨ v.m_table_height * v.m_block_size.y ≤ y)
  · refine ⟨fun _ => hin, fun _ => ?_⟩
    rw [hcall]
    unfold generalPath
    simp only [idiv, if_neg (show ¬ v.m_block_size.x = 0 by omega),
      if_neg (show ¬ v.m_block_size.y = 0 by omega)]
    unfold block
    rw [if_pos ((hout x y).2 hin)]
  · refine ⟨fun h => ?_, fun h => absurd h hin⟩
    obtain ⟨img, -, hok, -⟩ := hinside x y p hin
    rw [hok] at h
    cases h

end OutOfImage

section ClaimsOutOfImage

open BlockRasterizeView

/-- C27 at the view over the 5 × 3 child with 2 × 2 blocks and the system cache
(a 3 × 2 table): the argument error is raised exactly from `x = 6` and `y = 4`
on and up to `x = -2` and `y = -2`. -/
theorem pixel_access_raises_iff_outside_table_witness :
    1 ≤ Example.child.cols ∧ 1 ≤ Example.child.rows ∧
    BlockRasterizeView.new 8 Example.child ⟨2, 2⟩ 0 (some vw_system_cache) =
      .ok Example.cachedView ∧
    Example.cachedView.m_block_table_size ≠ 1 ∧
    (∀ x y p, Example.cachedView.operatorCall x y p = .error .ArgumentErr ↔
      (x ≤ -2 ∨ 3 * 2 ≤ x ∨ y ≤ -2 ∨ 2 * 2 ≤ y)) :=
  ⟨by decide, by decide, rfl, by decide,
    (pixel_access_raises_iff_outside_table 8 Example.child ⟨2, 2⟩ 0 vw_system_cache
      Example.cachedView (by decide) (by decide) rfl (by decide)).1⟩

/-- C27 fails as stated: in the view over the 5 × 3 child with 2 × 2 blocks and
the system cache, a view of six blocks that the constructor returns, the
coordinate `(5, 0)` is outside the image, and `operator()( 5, 0, 0 )` raises
nothing: it reads the buffer of block `(2, 0)`, which is one pixel wide, at the
local column 1. -/
theorem out_of_image_pixel_is_read :
    BlockRasterizeView.new 8 Example.child ⟨2, 2⟩ 0 (some vw_system_cache) =
      .ok Example.cachedView ∧
    Example.cachedView.m_block_table_size = 6 ∧
    Example.cachedView.cols ≤ 5 ∧
    Example.cachedView.operatorCall 5 0 0 = .ok 0 ∧
    Example.cachedView.operatorCall 5 0 0 ≠ .error .ArgumentErr ∧
    Int.tdiv 5 Example.cachedView.m_block_size.x = 2 ∧
    (Example.cachedView.blockBBox 2 0).width = 1 ∧
    (5 : Int) - 2 * Example.cachedView.m_block_size.x = 1 :=
  ⟨rfl, rfl, by decide, rfl, by rw [show Example.cachedView.operatorCall 5 0 0 = .ok 0 from rfl]; simp,
    by decide, by decide, by decide⟩

end ClaimsOutOfImage

section ClaimsBytes

open BlockRasterizeView

/-- C28 at the image of 65536 × 65536 pixels with one block of that size: the
constructor returns a table of one block, the box of its generator is the whole
image, the buffer that `generate()` allocates and the image both hold
`4294967296` bytes of one-byte pixels, and `size()` is 0, since the product of
the extents is computed in `int32`; the sum of `size()` over the table is 0. -/
theorem generator_size_overflows :
    ∃ v, BlockRasterizeView.new 1 Example.huge ⟨65536, 65536⟩ 0 (some vw_system_cache) =
        .ok v ∧
      v.m_block_table =
        [vw_system_cache.insert ⟨Example.huge, BBox2i.ofSize 0 0 65536 65536⟩] ∧
      v.tableBytes 1 = 0 ∧ Example.huge.bytes 1 = 4294967296 ∧
      BlockGenerator.size 1 (⟨Example.huge, BBox2i.ofSize 0 0 65536 65536⟩ :
        BlockGenerator Int) = 0 ∧
      ∃ img, BlockGenerator.generate (⟨Example.huge, BBox2i.ofSize 0 0 65536 65536⟩ :
          BlockGenerator Int) = .ok img ∧
        img.bytes 1 = 4294967296 := by
  refine ⟨_, rfl, rfl, by decide, by decide, by decide, ?_⟩
  obtain ⟨img, h1, h2, h3, h4, -⟩ := generate_spec
    (⟨Example.huge, BBox2i.ofSize 0 0 65536 65536⟩ : BlockGenerator Int) (by decide) (by decide)
  refine ⟨img, h1, ?_⟩
  unfold View.bytes
  rw [h2, h3, h4]
  decide

end ClaimsBytes

section GridSums

open Finset

/-- The sum of a list given index by index. -/
theorem list_sum_range (f : Nat → Int) (n : Nat) :
    ((List.range n).map f).sum = ∑ k in Finset.range n, f k := by
  induction n with
  | zero => rfl
  | succ n ih =>
    rw [List.range_succ, List.map_append, List.sum_append, ih, Finset.sum_range_succ]
    simp

/-- A sum over the flat indices of a grid of a product of a column term and a
row term is the product of the two sums. -/
theorem sum_grid (F G : Nat → Int) (TW TH : Nat) (hTW : 0 < TW) :
    ∑ k in Finset.range (TH * TW), F (k % TW) * G (k / TW) =
      (∑ i in Finset.range TW, F i) * (∑ j in Finset.range TH, G j) := by
  induction TH with
  | zero => simp
  | succ TH ih =>
    rw [Nat.succ_mul, Finset.sum_range_add, ih, Finset.sum_range_succ, mul_add]
    congr 1
    rw [Finset.sum_mul]
    apply Finset.sum_congr rfl
    intro x hx
    rw [Finset.mem_range] at hx
    have h1 : (TH * TW + x) % TW = x := by
      rw [Nat.mul_comm, Nat.mul_add_mod, Nat.mod_eq_of_lt hx]
    have h2 : (TH * TW + x) / TW = TH := by
      rw [Nat.mul_comm, Nat.mul_add_div hTW, Nat.div_eq_of_lt hx, Nat.add_zero]
    rw [h1, h2]

/-- The widths of the blocks of a row of the grid add up to the width of the
image. -/
theorem sum_block_extents (n b : Int) (T : Nat) (hn : 0 ≤ n) (hb : 1 ≤ b)
    (hlast : ((T : Int) - 1) * b < n) (hcover : n ≤ (T : Int) * b) :
    ∑ i in Finset.range T, (min (((i : Int) + 1) * b) n - (i : Int) * b) = n := by
  have hstep : ∀ i ∈ Finset.range T, (min (((i : Int) + 1) * b) n - (i : Int) * b) =
      min (((i + 1 : Nat) : Int) * b) n - min ((i : Int) * b) n := by
    intro i hi
    rw [Finset.mem_range] at hi
    have h1 : (i : Int) * b ≤ ((T : Int) - 1) * b :=
      Int.mul_le_mul_of_nonneg_right (by omega) (by omega)
    rw [min_eq_left (show (i : Int) * b ≤ n by omega)]
    push_cast
    rfl
  rw [Finset.sum_congr rfl hstep, Finset.sum_range_sub (fun i => min ((i : Int) * b) n) T]
  simp only [Nat.cast_zero, zero_mul]
  rw [min_eq_right hcover, min_eq_left hn]
  ring

end GridSums

section TableBytes

variable {α : Type}

open BlockRasterizeView

/-- Where the pixel count of a box fits `int32` and its byte count fits `size_t`,
`size()` is the product `width * height * planes * sizeof(pixel)`. -/
theorem size_of_fits (sz : Int) (g : BlockGenerator α) (hw : 0 ≤ g.m_bbox.width)
    (hh : 0 ≤ g.m_bbox.height) (hp : 1 ≤ g.m_child.planes) (hsz : 0 ≤ sz)
    (hfit : g.m_bbox.width * g.m_bbox.height * g.m_child.planes ≤ 2147483647)
    (hfit2 : g.m_bbox.width * g.m_bbox.height * g.m_child.planes * sz <
      18446744073709551616) :
    g.size sz = g.m_bbox.width * g.m_bbox.height * g.m_child.planes * sz := by
  have h0 : 0 ≤ g.m_bbox.width * g.m_bbox.height := Int.mul_nonneg hw hh
  have h1 : g.m_bbox.width * g.m_bbox.height ≤
      g.m_bbox.width * g.m_bbox.height * g.m_child.planes := by
    have := Int.mul_le_mul_of_nonneg_left hp h0
    rw [mul_one] at this
    exact this
  have h2 : 0 ≤ g.m_bbox.width * g.m_bbox.height * g.m_child.planes :=
    Int.mul_nonneg h0 (by omega)
  have h3 : 0 ≤ g.m_bbox.width * g.m_bbox.height * g.m_child.planes * sz :=
    Int.mul_nonneg h2 hsz
  unfold BlockGenerator.size
  rw [wrap32_of_fits h0 (by omega), wrap32_of_fits h2 hfit]
  unfold wrapSize
  rw [Int.emod_eq_of_lt h2 (by omega), Int.emod_eq_of_lt h3 hfit2]

/-- Where the pixel count of a box fits `int32` and its byte count fits `size_t`,
`size()` is the byte size of the buffer that `generate()` allocates. -/
theorem size_eq_buffer_bytes [Inhabited α] (sz : Int) (g : BlockGenerator α)
    (hw : 0 ≤ g.m_bbox.width) (hh : 0 ≤ g.m_bbox.height) (hp : 1 ≤ g.m_child.planes)
    (hsz : 0 ≤ sz)
    (hfit : g.m_bbox.width * g.m_bbox.height * g.m_child.planes ≤ 2147483647)
    (hfit2 : g.m_bbox.width * g.m_bbox.height * g.m_child.planes * sz <
      18446744073709551616) :
    ∃ img, g.generate = .ok img ∧ g.size sz = img.bytes sz := by
  obtain ⟨img, h1, h2, h3, h4, -⟩ := generate_spec g hw hh
  refine ⟨img, h1, ?_⟩
  rw [size_of_fits sz g hw hh hp hsz hfit hfit2]
  unfold View.bytes
  rw [h2, h3, h4]

/-- The block table of a built view, slot by slot. -/
theorem table_of_built (cache : Cache) (v : BlockRasterizeView α) (hb : Built cache v)
    (TW TH : Nat) (htw : v.m_table_width = (TW : Int)) (hth : v.m_table_height = (TH : Int))
    (hTW : 0 < TW) :
    v.m_block_table =
      (List.range (TH * TW)).map (fun (k : Nat) =>
        cache.insert ⟨v.m_child, v.blockBBox ((k % TW : Nat) : Int) ((k / TW : Nat) : Int)⟩) := by
  obtain ⟨-, -, hsize, hlen, hfill⟩ := hb
  have hn : v.m_block_table.length = TH * TW := by
    rw [hlen, hsize, htw, hth, ← Nat.cast_mul, Int.toNat_ofNat]
  apply List.ext_getElem?
  intro k
  by_cases hk : k < TH * TW
  · rw [List.getElem?_map, List.getElem?_range hk]
    simp only [Option.map_some']
    have hmod : k % TW < TW := Nat.mod_lt _ hTW
    have hdiv : k / TW < TH := (Nat.div_lt_iff_lt_mul hTW).2 hk
    have a0 : (0 : Int) ≤ ((k % TW : Nat) : Int) := Int.natCast_nonneg _
    have a1 : ((k % TW : Nat) : Int) < v.m_table_width := by
      rw [htw]
      exact_mod_cast hmod
    have b0 : (0 : Int) ≤ ((k / TW : Nat) : Int) := Int.natCast_nonneg _
    have b1 : ((k / TW : Nat) : Int) < v.m_table_height := by
      rw [hth]
      exact_mod_cast hdiv
    have := hfill ((k % TW : Nat) : Int) ((k / TW : Nat) : Int) a0 a1 b0 b1
    have hidx : (((k % TW : Nat) : Int) + ((k / TW : Nat) : Int) * v.m_table_width).toNat = k := by
      have h3 := Nat.mod_add_div k TW
      have h4 : ((k % TW : Nat) : Int) + ((k / TW : Nat) : Int) * v.m_table_width =
          ((k % TW + TW * (k / TW) : Nat) : Int) := by
        rw [htw, Nat.cast_add, Nat.cast_mul]
        ring
      rw [h4, h3, Int.toNat_ofNat]
    rw [hidx] at this
    exact this
  · rw [List.getElem?_eq_none (by omega), List.getElem?_eq_none (by simp; omega)]

/-- Where the pixel count of the image fits `int32` and its byte count fits
`size_t`, the values of `size()` over the blocks of the table add up to the byte
size of the image. -/
theorem tableBytes_of_fits (sz : Int) (child : View α) (bs : Vector2i) (nt : Int)
    (cache : Cache) (v : BlockRasterizeView α)
    (hcols : 1 ≤ child.cols) (hrows : 1 ≤ child.rows) (hplanes : 1 ≤ child.planes)
    (hsz : 0 ≤ sz)
    (hnew : BlockRasterizeView.new sz child bs nt (some cache) = .ok v)
    (hfit : child.cols * child.rows * child.planes ≤ 2147483647)
    (hfit2 : child.cols * child.rows * child.planes * sz < 18446744073709551616) :
    v.tableBytes sz = child.bytes sz := by
  obtain ⟨hch, -, -, hvx, hvy, -, hbuilt, -⟩ :=
    new_spec sz child bs nt (some cache) v hcols hrows hnew
  have hb := hbuilt cache rfl
  have hvc : v.cols = child.cols := by simp only [cols, hch]
  have hvr : v.rows = child.rows := by simp only [rows, hch]
  obtain ⟨hqx1, hqx2⟩ := (tdiv_eq_iff (x := v.cols - 1) (b := v.m_block_size.x)
    (q := Int.tdiv (v.cols - 1) v.m_block_size.x) (by omega) (by omega)).1 rfl
  obtain ⟨hqy1, hqy2⟩ := (tdiv_eq_iff (x := v.rows - 1) (b := v.m_block_size.y)
    (q := Int.tdiv (v.rows - 1) v.m_block_size.y) (by omega) (by omega)).1 rfl
  have hq0x := tdiv_nonneg (show 0 ≤ v.cols - 1 by omega) (show 0 < v.m_block_size.x by omega)
  have hq0y := tdiv_nonneg (show 0 ≤ v.rows - 1 by omega) (show 0 < v.m_block_size.y by omega)
  have htw : v.m_table_width = ((v.m_table_width.toNat : Nat) : Int) :=
    (Int.toNat_of_nonneg (by rw [hb.1]; omega)).symm
  have hth : v.m_table_height = ((v.m_table_height.toNat : Nat) : Int) :=
    (Int.toNat_of_nonneg (by rw [hb.2.1]; omega)).symm
  have hTW : 0 < v.m_table_width.toNat := by
    have := hb.1
    omega
  generalize v.m_table_width.toNat = TW at htw hTW
  generalize v.m_table_height.toNat = TH at hth
  have htable := table_of_built cache v hb TW TH htw hth hTW
  have hxlast : ((TW : Int) - 1) * v.m_block_size.x < v.cols := by
    rw [← htw, hb.1]
    have : Int.tdiv (v.cols - 1) v.m_block_size.x + 1 - 1 =
      Int.tdiv (v.cols - 1) v.m_block_size.x := by ring
    rw [this]
    omega
  have hxcover : v.cols ≤ (TW : Int) * v.m_block_size.x := by
    rw [← htw, hb.1]
    omega
  have hylast : ((TH : Int) - 1) * v.m_block_size.y < v.rows := by
    rw [← hth, hb.2.1]
    have : Int.tdiv (v.rows - 1) v.m_block_size.y + 1 - 1 =
      Int.tdiv (v.rows - 1) v.m_block_size.y := by ring
    rw [this]
    omega
  have hycover : v.rows ≤ (TH : Int) * v.m_block_size.y := by
    rw [← hth, hb.2.1]
    omega
  have hsize : ∀ k, k < TH * TW →
      Handle.bytes sz (cache.insert ⟨v.m_child,
        v.blockBBox ((k % TW : Nat) : Int) ((k / TW : Nat) : Int)⟩) =
      (min ((((k % TW : Nat) : Int) + 1) * v.m_block_size.x) v.cols -
          ((k % TW : Nat) : Int) * v.m_block_size.x) *
        ((min ((((k / TW : Nat) : Int) + 1) * v.m_block_size.y) v.rows -
          ((k / TW : Nat) : Int) * v.m_block_size.y) * (child.planes * sz)) := by
    intro k hk
    have hmod : k % TW < TW := Nat.mod_lt _ hTW
    have hdiv : k / TW < TH := (Nat.div_lt_iff_lt_mul hTW).2 hk
    have a0 : (0 : Int) ≤ ((k % TW : Nat) : Int) := Int.natCast_nonneg _
    have a1 : ((k % TW : Nat) : Int) ≤ (TW : Int) - 1 := by
      have : ((k % TW : Nat) : Int) < (TW : Int) := by exact_mod_cast hmod
      omega
    have b0 : (0 : Int) ≤ ((k / TW : Nat) : Int) := Int.natCast_nonneg _
    have b1 : ((k / TW : Nat) : Int) ≤ (TH : Int) - 1 := by
      have : ((k / TW : Nat) : Int) < (TH : Int) := by exact_mod_cast hdiv
      omega
    generalize ((k % TW : Nat) : Int) = ix at a0 a1
    generalize ((k / TW : Nat) : Int) = iy at b0 b1
    have hix : ix * v.m_block_size.x ≤ ((TW : Int) - 1) * v.m_block_size.x :=
      Int.mul_le_mul_of_nonneg_right a1 (by omega)
    have hiy : iy * v.m_block_size.y ≤ ((TH : Int) - 1) * v.m_block_size.y :=
      Int.mul_le_mul_of_nonneg_right b1 (by omega)
    have e1 : (ix + 1) * v.m_block_size.x = ix * v.m_block_size.x + v.m_block_size.x := by ring
    have e2 : (iy + 1) * v.m_block_size.y = iy * v.m_block_size.y + v.m_block_size.y := by ring
    have hbox := blockBBox_eq v ix iy a0 b0 hvx hvy
    have hw : (v.blockBBox ix iy).width =
        min ((ix + 1) * v.m_block_size.x) v.cols - ix * v.m_block_size.x := by
      rw [hbox]; rfl
    have hh : (v.blockBBox ix iy).height =
        min ((iy + 1) * v.m_block_size.y) v.rows - iy * v.m_block_size.y := by
      rw [hbox]; rfl
    have hw0 : 0 ≤ (v.blockBBox ix iy).width := by rw [hw]; omega
    have hh0 : 0 ≤ (v.blockBBox ix iy).height := by rw [hh]; omega
    have hw1 : (v.blockBBox ix iy).width ≤ child.cols := by
      rw [hw]
      have := Int.mul_nonneg a0 (show 0 ≤ v.m_block_size.x by omega)
      omega
    have hh1 : (v.blockBBox ix iy).height ≤ child.rows := by
      rw [hh]
      have := Int.mul_nonneg b0 (show 0 ≤ v.m_block_size.y by omega)
      omega
    have hwh : (v.blockBBox ix iy).width * (v.blockBBox ix iy).height ≤
        child.cols * child.rows := Int.mul_le_mul hw1 hh1 hh0 (by omega)
    have hwhp : (v.blockBBox ix iy).width * (v.blockBBox ix iy).height * child.planes ≤
        child.cols * child.rows * child.planes :=
      Int.mul_le_mul_of_nonneg_right hwh (by omega)
    have hwhps : (v.blockBBox ix iy).width * (v.blockBBox ix iy).height * child.planes * sz ≤
        child.cols * child.rows * child.planes * sz :=
      Int.mul_le_mul_of_nonneg_right hwhp hsz
    have := size_of_fits sz (⟨v.m_child, v.blockBBox ix iy⟩ : BlockGenerator α) hw0 hh0
      (by simp only [hch]; exact hplanes) hsz (by simp only [hch]; omega)
      (by simp only [hch]; omega)
    show BlockGenerator.size sz ⟨v.m_child, v.blockBBox ix iy⟩ = _
    rw [this]
    simp only [hch]
    rw [hw, hh]
    try ring
  unfold tableBytes View.bytes
  rw [htable, List.map_map, list_sum_range]
  have hsum : ∑ k in Finset.range (TH * TW),
      (Handle.bytes sz ∘ fun (k : Nat) => cache.insert ⟨v.m_child,
        v.blockBBox ((k % TW : Nat) : Int) ((k / TW : Nat) : Int)⟩) k =
      ∑ k in Finset.range (TH * TW),
        (fun (i : Nat) => min (((i : Int) + 1) * v.m_block_size.x) v.cols -
          (i : Int) * v.m_block_size.x) (k % TW) *
        (fun (j : Nat) => (min (((j : Int) + 1) * v.m_block_size.y) v.rows -
          (j : Int) * v.m_block_size.y) * (child.planes * sz)) (k / TW) :=
    Finset.sum_congr rfl (fun k hk => hsize k (Finset.mem_range.1 hk))
  rw [hsum]
  rw [sum_grid (fun i => min (((i : Int) + 1) * v.m_block_size.x) v.cols -
      (i : Int) * v.m_block_size.x)
    (fun j => (min (((j : Int) + 1) * v.m_block_size.y) v.rows -
      (j : Int) * v.m_block_size.y) * (child.planes * sz)) TW TH hTW]
  rw [sum_block_extents v.cols v.m_block_size.x TW (by omega) hvx hxlast hxcover,
    ← Finset.sum_mul,
    sum_block_extents v.rows v.m_block_size.y TH (by omega) hvy hylast hycover, hvc, hvr]
  ring

end TableBytes

end vw
